import Mathlib

/-!
# Geode mod lifecycle: a shallow embedding of `loader/src/loader/Mod.cpp`

The development embeds the lifecycle operations of `Mod` (load, unload, enable,
disable, dependency resolution, hooks, patches, settings persistence) as
functions on an explicit world state, and proves properties of them. It also
embeds `urlEncode` and `buildQueryString` of `loader/src/loader/Index2.cpp`.

Conventions of the embedding

* A `Mod*` is represented by the id of the mod: the loader registry maps ids to
  mod objects one-to-one, so `World.mods i` is the object whose `m_info.id` is `i`.
* Everything outside `Mod.cpp` that can succeed or fail (file system, archive,
  platform binary loading, hook installation, memory writes, setting handlers)
  is an oracle of `Env`. Every oracle receives the trace of effects performed so
  far, so the outcome of a call may depend on everything that happened before.
* Every call to such a collaborator is appended to `World.trace` together with
  its outcome.
* The mutually recursive operations take a fuel argument; `none` means that the
  fuel ran out.
* `World.undefined` records that the run has done something whose behaviour C++
  leaves undefined: the loop of `Mod::enable` went on after `enableHook` pushed
  onto the vector it iterates, or `unloadBinary` deleted a hook twice. The
  functions still return the result of the run in which the vector does not
  reallocate and the second `delete` does nothing.
-/

namespace Geode

/-! ## Data model -/

abbrev ModId := String

/-- A `Hook*`: hooks are only handled through their address. -/
abbrev Hook := Nat

/-- The type `Result<>` of the source: success or an error message. -/
abbrev Result := Except String Unit

structure VersionInfo where
  major : Nat
  minor : Nat
  patch : Nat
  deriving DecidableEq, Repr

/-- Lexicographic order on versions. -/
def VersionInfo.le (a b : VersionInfo) : Bool :=
  a.major < b.major ||
    (a.major == b.major && (a.minor < b.minor ||
      (a.minor == b.minor && a.patch ≤ b.patch)))

/-- Strict lexicographic order on versions. -/
def VersionInfo.lt (a b : VersionInfo) : Bool :=
  a.major < b.major ||
    (a.major == b.major && (a.minor < b.minor ||
      (a.minor == b.minor && a.patch < b.patch)))

/-- Modelled from the spec: the comparator type of `Dependency::version` is declared
outside the given sources. The spec describes it as an acceptable version range
such as `"1.0.0"..<"2.0.0"`: the lower bound is included, the upper bound is not. -/
structure ComparableVersionInfo where
  lower : VersionInfo
  upper : VersionInfo
  deriving DecidableEq, Repr

/-- Modelled from the spec: `ComparableVersionInfo::compare`, true when the version
satisfies the range. -/
def ComparableVersionInfo.compare (r : ComparableVersionInfo) (v : VersionInfo) : Bool :=
  r.lower.le v && v.lt r.upper

/-- A declared dependency: required id, version range, cached resolved mod (`Mod* mod`,
`none` for `nullptr`). -/
structure Dependency where
  id : ModId
  version : ComparableVersionInfo
  mod : Option ModId
  deriving DecidableEq, Repr

/-- A `Patch` object, with the fields `Mod::patch` fills in. -/
structure Patch where
  m_address : Nat
  m_original : List Nat
  m_owner : ModId
  m_patch : List Nat
  deriving DecidableEq, Repr

/-- JSON values (`nlohmann::json`). Objects are association lists; a key is looked up
at its first occurrence. -/
inductive Json where
  | null : Json
  | bool (b : Bool) : Json
  | number (n : Int) : Json
  | string (s : String) : Json
  | array (xs : List Json) : Json
  | object (kvs : List (String × Json)) : Json

/-- The part of `ModInfo` the lifecycle reads. The id is the key of the mod in the world. -/
structure ModInfo where
  version : VersionInfo
  dependencies : List Dependency
  supportsDisabling : Bool
  supportsUnloading : Bool
  path : String
  binaryName : String

/-- The mutable state of a `Mod`. `m_settings` holds the keys of the registered setting
values; the behaviour of the value objects is given by `Env`. -/
structure Mod where
  m_info : ModInfo
  m_enabled : Bool
  m_binaryLoaded : Bool
  m_hooks : List Hook
  m_patches : List Patch
  m_tempDirName : String
  m_saveDirPath : String
  m_settings : List String
  m_savedSettingsData : Json
  m_saved : Json

inductive ModEventType where
  | DataLoaded
  | DataSaved
  | Loaded
  | Unloaded
  | Enabled
  | Disabled
  deriving DecidableEq, Repr

/-- Observable calls to collaborators, each with its outcome. -/
inductive Effect where
  | event (m : ModId) (t : ModEventType)
  | createDirectoryAll (path : String) (ok : Bool)
  | unzipCreate (path : String) (ok : Bool)
  | hasEntry (archive : String) (name : String) (ok : Bool)
  | extractAllTo (archive : String) (dir : String) (ok : Bool)
  | provideNextMod (m : ModId)
  | loadPlatformBinary (m : ModId) (ok : Bool)
  | unloadPlatformBinary (m : ModId) (ok : Bool)
  | implicitLoadFunc (m : ModId)
  | hookEnable (h : Hook) (ok : Bool)
  | hookDisable (h : Hook) (ok : Bool)
  | deleteHook (h : Hook)
  | patchApply (p : Patch) (ok : Bool)
  | patchRestore (p : Patch) (ok : Bool)
  | deletePatch (p : Patch)
  | fileExists (path : String) (ok : Bool)
  | readString (path : String) (ok : Bool)
  | writeString (path : String) (content : String) (ok : Bool)
  | settingLoad (m : ModId) (key : String) (ok : Bool)
  | settingSave (m : ModId) (key : String) (ok : Bool)
  | removeFile (path : String) (ok : Bool)
  deriving DecidableEq, Repr

/-- A call a mod binary makes on its own `Mod` object from its entry point. -/
inductive ModCall where
  | addHook (h : Hook)
  | patch (address : Nat) (data : List Nat)

/-- The collaborators of the lifecycle. Every oracle is given the trace so far. -/
structure Env where
  modRuntimeDir : String
  createDirectoryAll : List Effect → String → Bool
  unzipCreate : List Effect → String → Result
  hasEntry : List Effect → String → String → Bool
  extractAllTo : List Effect → String → String → Result
  loadPlatformBinary : List Effect → ModId → Result
  unloadPlatformBinary : List Effect → ModId → Result
  implicitLoadFunc : List Effect → ModId → List ModCall
  hookEnable : List Effect → Hook → Result
  hookDisable : List Effect → Hook → Result
  writeMemory : List Effect → Nat → List Nat → Bool
  fileExists : List Effect → String → Bool
  readString : List Effect → String → Except String String
  writeString : List Effect → String → String → Result
  parse : String → Except String Json
  dump : Json → String
  settingLoad : List Effect → ModId → String → Json → Bool
  settingSave : List Effect → ModId → String → Json → Bool × Json
  removeFile : List Effect → String → Bool

/-- The process: all mod objects, the loader registry (`known`), process memory, the
hooking subsystem flag and queue of the loader, and the trace of effects. The flag
`undefined` is set once the run has done something whose behaviour C++ leaves undefined
(an invalidated iterator is used, an object is deleted twice); it is never cleared, and
what the functions return from then on is only one of the things the program may do. -/
structure World where
  mods : ModId → Mod
  known : List ModId
  memory : Nat → Nat
  readyToHook : Bool
  internalHooks : List (Hook × ModId)
  trace : List Effect
  undefined : Bool

/-- Append an effect to the trace. -/
def World.log (w : World) (e : Effect) : World :=
  { w with trace := w.trace ++ [e] }

/-- Replace the state of mod `i`. -/
def World.setMod (w : World) (i : ModId) (m : Mod) : World :=
  { w with mods := fun j => if j = i then m else w.mods j }

/-- Update the state of mod `i`. -/
def World.modify (w : World) (i : ModId) (f : Mod → Mod) : World :=
  w.setMod i (f (w.mods i))

/-- Whether an `Except` value is a success. -/
def isOk {ε α : Type} : Except ε α → Bool
  | .ok _ => true
  | .error _ => false

/-- The path `a / b`. -/
def pathJoin (a b : String) : String := a ++ "/" ++ b

/-! ## Queries -/

/-- Modelled from the spec: `Loader::getLoadedMod` is defined outside the given sources.
The registry query surface is `getLoadedMod(id) -> Mod?`: look up a mod with this id in
the registry. -/
def getLoadedMod (w : World) (id : ModId) : Option ModId :=
  if id ∈ w.known then some id else none

/-- Modelled from the spec: `Dependency::isResolved` is defined outside the given sources.
"Resolved = reference present AND referenced mod's version satisfies the range." Whether
the function also requires the referenced mod to be loaded cannot be read from the given
sources. The counterexamples of C1 and C2 hold either way: there the dependent mod cannot
be unloaded, so it stays loaded whether or not an unload is attempted. -/
def Dependency.isResolved (w : World) (d : Dependency) : Bool :=
  match d.mod with
  | none => false
  | some j => d.version.compare (w.mods j).m_info.version

/-- `Mod::hasUnresolvedDependencies`. -/
def hasUnresolvedDependencies (w : World) (i : ModId) : Bool :=
  (w.mods i).m_info.dependencies.any (fun dep => !dep.isResolved w)

/-- `Mod::getUnresolvedDependencies`. -/
def getUnresolvedDependencies (w : World) (i : ModId) : List Dependency :=
  (w.mods i).m_info.dependencies.filter (fun dep => !dep.isResolved w)

/-- `Mod::wasSuccesfullyLoaded`. -/
def wasSuccesfullyLoaded (w : World) (i : ModId) : Bool :=
  !(w.mods i).m_enabled || (w.mods i).m_binaryLoaded

/-- The dependency of mod `i` at position `k` (the loop variable `dep` of
`Mod::updateDependencies`, a reference into `m_info.dependencies`). -/
def depAt (w : World) (i : ModId) (k : Nat) : Option Dependency :=
  (w.mods i).m_info.dependencies[k]?

/-- The value of `dep.isResolved()` for the dependency at position `k` of mod `i`. -/
def depResolved (w : World) (i : ModId) (k : Nat) : Bool :=
  match depAt w i k with
  | none => true
  | some dep => dep.isResolved w

/-- The assignment `dep.mod = v` for the dependency at position `k` of mod `i`. -/
def setDepMod (w : World) (i : ModId) (k : Nat) (v : Option ModId) : World :=
  w.modify i (fun m => { m with m_info := { m.m_info with
    dependencies := m.m_info.dependencies.modify (fun dep => { dep with mod := v }) k } })

/-! ## Temp directory -/

/-- `Mod::createTempDir`. -/
def createTempDir (env : Env) (i : ModId) (w : World) : World × Result :=
  if (w.mods i).m_tempDirName ≠ "" then (w, .ok ())
  else
    let tempDir := env.modRuntimeDir
    let ok1 := env.createDirectoryAll w.trace tempDir
    let w1 := w.log (.createDirectoryAll tempDir ok1)
    if !ok1 then (w1, .error "Unable to create mods\x27 runtime directory")
    else
      let tempPath := pathJoin tempDir i
      let ok2 := env.createDirectoryAll w1.trace tempPath
      let w2 := w1.log (.createDirectoryAll tempPath ok2)
      if !ok2 then (w2, .error "Unable to create mod runtime directory")
      else
        let archive := (w2.mods i).m_info.path
        let r3 := env.unzipCreate w2.trace archive
        let w3 := w2.log (.unzipCreate archive (isOk r3))
        match r3 with
        | .error e => (w3, .error e)
        | .ok _ =>
          let binaryName := (w3.mods i).m_info.binaryName
          let ok4 := env.hasEntry w3.trace archive binaryName
          let w4 := w3.log (.hasEntry archive binaryName ok4)
          if !ok4 then
            (w4, .error ("Unable to find platform binary under the name \x22"
              ++ binaryName ++ "\x22"))
          else
            let r5 := env.extractAllTo w4.trace archive tempPath
            let w5 := w4.log (.extractAllTo archive tempPath (isOk r5))
            match r5 with
            | .error e => (w5, .error e)
            | .ok _ => (w5.modify i (fun m => { m with m_tempDirName := tempPath }), .ok ())

/-- Modelled from the spec: `Mod::loadPlatformBinary` lives in the platform sources. It
"loads [the binary] into the process" and can fail. -/
def loadPlatformBinary (env : Env) (i : ModId) (w : World) : World × Result :=
  let r := env.loadPlatformBinary w.trace i
  (w.log (.loadPlatformBinary i (isOk r)), r)

/-- Modelled from the spec: `Mod::unloadPlatformBinary` lives in the platform sources. It
"unloads the binary from the process" and can fail. -/
def unloadPlatformBinary (env : Env) (i : ModId) (w : World) : World × Result :=
  let r := env.unloadPlatformBinary w.trace i
  (w.log (.unloadPlatformBinary i (isOk r)), r)

/-! ## Patches -/

/-- `readMemory`: the bytes at `address`, `address + 1`, ..., `address + amount - 1`. -/
def readMemory (memory : Nat → Nat) (address : Nat) (amount : Nat) : List Nat :=
  (List.range amount).map (fun k => memory (address + k))

/-- The byte copy of `data` to `address`. -/
def writeBytes (memory : Nat → Nat) (address : Nat) (data : List Nat) : Nat → Nat :=
  fun a => if address ≤ a ∧ a < address + data.length then data.getD (a - address) 0
    else memory a

/-- Modelled from the spec: `Patch::apply` is defined outside the given sources. It
"writes bytes over address"; failure is signaled only by the boolean result of the
underlying write primitive, and a failed write is taken to leave memory as it was. -/
def Patch.apply (env : Env) (p : Patch) (w : World) : World × Bool :=
  let ok := env.writeMemory w.trace p.m_address p.m_patch
  let w1 := w.log (.patchApply p ok)
  (if ok then { w1 with memory := writeBytes w1.memory p.m_address p.m_patch } else w1, ok)

/-- Modelled from the spec: `Patch::restore` is defined outside the given sources. It
"writes original back over address". -/
def Patch.restore (env : Env) (p : Patch) (w : World) : World × Bool :=
  let ok := env.writeMemory w.trace p.m_address p.m_original
  let w1 := w.log (.patchRestore p ok)
  (if ok then { w1 with memory := writeBytes w1.memory p.m_address p.m_original } else w1, ok)

/-- `Mod::patch`. -/
def patch (env : Env) (i : ModId) (address : Nat) (data : List Nat) (w : World) :
    World × Except String Patch :=
  let p : Patch :=
    { m_address := address, m_original := readMemory w.memory address data.length,
      m_owner := i, m_patch := data }
  match p.apply env w with
  | (w1, false) =>
    (w1.log (.deletePatch p), .error ("Unable to enable patch at " ++ toString address))
  | (w1, true) => (w1.modify i (fun m => { m with m_patches := m.m_patches ++ [p] }), .ok p)

/-- `Mod::unpatch`. -/
def unpatch (env : Env) (i : ModId) (p : Patch) (w : World) : World × Result :=
  match p.restore env w with
  | (w1, true) =>
    ((w1.modify i (fun m => { m with m_patches := m.m_patches.filter (fun q => q != p) })).log
      (.deletePatch p), .ok ())
  | (w1, false) => (w1, .error "Unable to restore patch!")

/-! ## Hooks -/

/-- `Mod::enableHook`. -/
def enableHook (env : Env) (i : ModId) (h : Hook) (w : World) : World × Result :=
  let res := env.hookEnable w.trace h
  let w1 := w.log (.hookEnable h (isOk res))
  (if isOk res then w1.modify i (fun m => { m with m_hooks := m.m_hooks ++ [h] }) else w1, res)

/-- `Mod::disableHook`. -/
def disableHook (env : Env) (h : Hook) (w : World) : World × Result :=
  let res := env.hookDisable w.trace h
  (w.log (.hookDisable h (isOk res)), res)

/-- `Mod::addHook`. Modelled from the spec: `LoaderImpl::isReadyToHook` and
`LoaderImpl::addInternalHook` are defined outside the given sources; when the host is
not yet ready to accept hooks "the hook is queued for later bulk-installation". -/
def addHook (env : Env) (i : ModId) (h : Hook) (w : World) : World × Except String Hook :=
  if w.readyToHook then
    match enableHook env i h w with
    | (w1, .error _) => (w1.log (.deleteHook h), .error "Can\x27t create hook")
    | (w1, .ok _) => (w1, .ok h)
  else
    ({ w with internalHooks := w.internalHooks ++ [(h, i)] }, .ok h)

/-- `Mod::removeHook`. -/
def removeHook (env : Env) (i : ModId) (h : Hook) (w : World) : World × Result :=
  match disableHook env h w with
  | (w1, .ok _) =>
    ((w1.modify i (fun m => { m with m_hooks := m.m_hooks.filter (fun g => g != h) })).log
      (.deleteHook h), .ok ())
  | (w1, .error e) => (w1, .error e)

/-- The entry point of a mod binary (`m_implicitLoadFunc`) runs calls on its own mod. -/
def runCalls (env : Env) (i : ModId) : List ModCall → World → World
  | [], w => w
  | .addHook h :: cs, w => runCalls env i cs (addHook env i h w).1
  | .patch address data :: cs, w => runCalls env i cs (patch env i address data w).1

/-- The loop `for (auto const& hook : m_hooks) GEODE_UNWRAP(this->enableHook(hook))` of
`Mod::enable`. The range-for iterates the vector `m_hooks` itself, and a successful
`enableHook` does `m_hooks.push_back(hook)` on that vector: the iterators of the loop are
invalidated, so the behaviour is undefined from then on and `undefined` is set. The run
goes on as it does when the vector does not reallocate: the end of the range was fixed at
loop entry, so the loop visits the hooks that were in the collection when it started, and
`enableHook` appends behind them. -/
def enableHooks (env : Env) (i : ModId) : List Hook → World → World × Result
  | [], w => (w, .ok ())
  | h :: hs, w =>
    match enableHook env i h w with
    | (w1, .error e) => (w1, .error e)
    | (w1, .ok _) => enableHooks env i hs { w1 with undefined := true }

/-- The patch loop of `Mod::enable`. -/
def applyPatches (env : Env) : List Patch → World → World × Result
  | [], w => (w, .ok ())
  | p :: ps, w =>
    match p.apply env w with
    | (w1, false) => (w1, .error ("Unable to apply patch at " ++ toString p.m_address))
    | (w1, true) => applyPatches env ps w1

/-- The hook loop of `Mod::disable`. -/
def disableHooks (env : Env) : List Hook → World → World × Result
  | [], w => (w, .ok ())
  | h :: hs, w =>
    match disableHook env h w with
    | (w1, .error e) => (w1, .error e)
    | (w1, .ok _) => disableHooks env hs w1

/-- The patch loop of `Mod::disable`. -/
def restorePatches (env : Env) : List Patch → World → World × Result
  | [], w => (w, .ok ())
  | p :: ps, w =>
    match p.restore env w with
    | (w1, false) => (w1, .error ("Unable to restore patch at " ++ toString p.m_address))
    | (w1, true) => restorePatches env ps w1

/-- `Mod::disable`. -/
def disable (env : Env) (i : ModId) (w : World) : World × Result :=
  if !(w.mods i).m_enabled then (w, .ok ())
  else if !(w.mods i).m_info.supportsDisabling then (w, .error "Mod does not support disabling")
  else
    let w0 := w.log (.event i .Disabled)
    match disableHooks env (w0.mods i).m_hooks w0 with
    | (w1, .error e) => (w1, .error e)
    | (w1, .ok _) =>
      match restorePatches env (w1.mods i).m_patches w1 with
      | (w2, .error e) => (w2, .error e)
      | (w2, .ok _) => (w2.modify i (fun m => { m with m_enabled := false }), .ok ())

/-! ## Settings and saved values -/

/-- The iteration `json.items()` of `nlohmann::json`: the entries of an object, the
elements of an array under their index, nothing for `null`, and the value itself under
the empty key for any other value. -/
def Json.items : Json → List (String × Json)
  | .object kvs => kvs
  | .array xs => (List.range xs.length).zip xs |>.map (fun kv => (toString kv.1, kv.2))
  | .null => []
  | v => [("", v)]

/-- The assignment `json[key] = value` on the entries of an object. -/
def objSet : List (String × Json) → String → Json → List (String × Json)
  | [], key, value => [(key, value)]
  | (k, v) :: rest, key, value =>
    if k = key then (key, value) :: rest else (k, v) :: objSet rest key value

/-- The value of `json[key]` on the entries of an object, when the key is present. -/
def objGet : List (String × Json) → String → Option Json
  | [], _ => none
  | (k, v) :: rest, key => if k = key then some v else objGet rest key

/-- The loop over `m_settings` of `Mod::saveData`: `value->save(json[key])`. The handler
is given the current `json[key]` (`null` when the key is new) and leaves a value there. -/
def saveSettings (env : Env) (i : ModId) :
    List String → World → List (String × Json) → World × List (String × Json)
  | [], w, json => (w, json)
  | key :: keys, w, json =>
    let r := env.settingSave w.trace i key ((objGet json key).getD Json.null)
    saveSettings env i keys (w.log (.settingSave i key r.1)) (objSet json key r.2)

/-- The loop over `m_savedSettingsData.items()` of `Mod::saveData`: every key that is not
covered by a registered setting value is copied. -/
def savePrevious (coveredSettings : List String) :
    List (String × Json) → List (String × Json) → List (String × Json)
  | [], json => json
  | (key, value) :: rest, json =>
    if key ∈ coveredSettings then savePrevious coveredSettings rest json
    else savePrevious coveredSettings rest (objSet json key value)

/-- The content `Mod::saveData` hands to `writeString` for `settings.json`, before
`dump`. -/
def settingsJson (env : Env) (i : ModId) (w : World) : World × Json :=
  let w0 := w.log (.event i .DataSaved)
  let r := saveSettings env i (w0.mods i).m_settings w0 []
  (r.1, .object (savePrevious (r.1.mods i).m_settings
    (r.1.mods i).m_savedSettingsData.items r.2))

/-- `Mod::saveData`. -/
def saveData (env : Env) (i : ModId) (w : World) : World × Result :=
  let r := settingsJson env i w
  let w1 := r.1
  let settingPath := pathJoin (w1.mods i).m_saveDirPath "settings.json"
  let res := env.writeString w1.trace settingPath (env.dump r.2)
  let w2 := w1.log (.writeString settingPath (env.dump r.2) (isOk res))
  let savedPath := pathJoin (w2.mods i).m_saveDirPath "saved.json"
  let res2 := env.writeString w2.trace savedPath (env.dump (w2.mods i).m_saved)
  let w3 := w2.log (.writeString savedPath (env.dump (w2.mods i).m_saved) (isOk res2))
  (w3, .ok ())

/-- Modelled from the spec: `JsonChecker` is defined outside the given sources. The items
of the checked root are the entries of a JSON object ("Core calls load for every
recognized key found in settings.json"); a root that is not an object has none. -/
def rootItems : Json → List (String × Json)
  | .object kvs => kvs
  | _ => []

/-- The loop over `root.items()` of `Mod::loadData`: known settings load their value. -/
def loadSettings (env : Env) (i : ModId) : List (String × Json) → World → World
  | [], w => w
  | (key, value) :: rest, w =>
    if key ∈ (w.mods i).m_settings then
      loadSettings env i rest (w.log (.settingLoad i key (env.settingLoad w.trace i key value)))
    else loadSettings env i rest w

/-- The settings half of `Mod::loadData`. -/
def loadSettingsFile (env : Env) (i : ModId) (w : World) : World × Result :=
  let settingPath := pathJoin (w.mods i).m_saveDirPath "settings.json"
  let ex := env.fileExists w.trace settingPath
  let w1 := w.log (.fileExists settingPath ex)
  if ex then
    let rd := env.readString w1.trace settingPath
    let w2 := w1.log (.readString settingPath (isOk rd))
    match rd with
    | .error e => (w2, .error e)
    | .ok settingData =>
      match env.parse settingData with
      | .error what => (w2, .error ("Unable to parse settings: " ++ what))
      | .ok json =>
        (loadSettings env i (rootItems json)
          (w2.modify i (fun m => { m with m_savedSettingsData := json })), .ok ())
  else (w1, .ok ())

/-- The saved values half of `Mod::loadData`. -/
def loadSavedFile (env : Env) (i : ModId) (w : World) : World × Result :=
  let savedPath := pathJoin (w.mods i).m_saveDirPath "saved.json"
  let ex := env.fileExists w.trace savedPath
  let w1 := w.log (.fileExists savedPath ex)
  if ex then
    let rd := env.readString w1.trace savedPath
    let w2 := w1.log (.readString savedPath (isOk rd))
    match rd with
    | .error e => (w2, .error e)
    | .ok data =>
      match env.parse data with
      | .error what => (w2, .error ("Unable to parse saved values: " ++ what))
      | .ok json => (w2.modify i (fun m => { m with m_saved := json }), .ok ())
  else (w1, .ok ())

/-- `Mod::loadData`. -/
def loadData (env : Env) (i : ModId) (w : World) : World × Result :=
  match loadSettingsFile env i (w.log (.event i .DataLoaded)) with
  | (w1, .error e) => (w1, .error e)
  | (w1, .ok _) => loadSavedFile env i w1

/-! ## Dependency resolution, loading and unloading -/

/-- Lines 405 to 411 of `Mod::updateDependencies`: when the dependency at position `k` has
no cached mod, look it up in the registry and keep it only if its version fits. -/
def lookupDependency (i : ModId) (k : Nat) (w : World) : World :=
  match depAt w i k with
  | none => w
  | some dep =>
    match dep.mod with
    | some _ => w
    | none =>
      match getLoadedMod w dep.id with
      | none => w
      | some j =>
        if dep.version.compare (w.mods j).m_info.version then setDepMod w i k (some j) else w

/-- Lines 414 to 426 of `Mod::updateDependencies`: update the dependency mod recursively,
then load it when it is resolved and enabled. A cached mod is never reset, so `dep.mod`
is the same mod `j` throughout. -/
def updateDependency (upd load : ModId → World → Option (World × Result))
    (i : ModId) (k : Nat) (w : World) : Option (World × Result) :=
  match (depAt w i k).bind (fun dep => dep.mod) with
  | none => some (w, .ok ())
  | some j =>
    match upd j w with
    | none => none
    | some (w1, .error e) => some (w1, .error e)
    | some (w1, .ok _) =>
      if !hasUnresolvedDependencies w1 j then
        if (w1.mods j).m_enabled then
          match load j w1 with
          | none => none
          | some (w2, .error e) => some (w2, .error ("Unable to load dependency: " ++ e))
          | some (w2, .ok _) => some (w2, .ok ())
        else some (w1, .ok ())
      else some (w1, .ok ())

/-- The loop of `Mod::updateDependencies` over the positions of `m_info.dependencies`. The
result carries the flag `hasUnresolved`. -/
def updateDependenciesLoop (upd load unload : ModId → World → Option (World × Result))
    (i : ModId) : List Nat → Bool → World → Option (World × Except String Bool)
  | [], hasUnresolved, w => some (w, .ok hasUnresolved)
  | k :: ks, hasUnresolved, w =>
    match updateDependency upd load i k (lookupDependency i k w) with
    | none => none
    | some (w1, .error e) => some (w1, .error e)
    | some (w1, .ok _) =>
      if !depResolved w1 i k then
        match unload i w1 with
        | none => none
        | some (w2, .error e) => some (w2, .error ("Unable to unload mod: " ++ e))
        | some (w2, .ok _) => updateDependenciesLoop upd load unload i ks true w2
      else updateDependenciesLoop upd load unload i ks hasUnresolved w1

/-- Lines 311 to 314 of `Mod::unloadBinary`: `delete hook` for every entry of `m_hooks`,
then `m_hooks` is cleared. When a hook is in the collection twice it is deleted twice,
which is undefined behaviour: `undefined` is set. -/
def deleteHooks (i : ModId) (w : World) : World :=
  World.modify
    { w with
      trace := w.trace ++ (w.mods i).m_hooks.map Effect.deleteHook
      undefined := w.undefined || !decide (w.mods i).m_hooks.Nodup } i
    (fun m => { m with m_hooks := [] })

/-- Lines 316 to 319 of `Mod::unloadBinary`: every patch is deleted and `m_patches` is
cleared. -/
def deletePatches (i : ModId) (w : World) : World :=
  World.modify { w with trace := w.trace ++ (w.mods i).m_patches.map Effect.deletePatch } i
    (fun m => { m with m_patches := [] })

/-- Modelled from the spec: `Loader::updateAllDependencies` is defined outside the given
sources. It "triggers the full re-resolution pass over every known mod"; it returns
nothing, so the result of each `updateDependencies` is dropped. -/
def resolutionPass (upd : ModId → World → Option (World × Result)) :
    List ModId → World → Option World
  | [], w => some w
  | i :: rest, w =>
    match upd i w with
    | none => none
    | some (w1, _) => resolutionPass upd rest w1

mutual

/-- `Mod::loadBinary`. -/
def loadBinary (env : Env) : Nat → ModId → World → Option (World × Result)
  | 0, _, _ => none
  | n + 1, i, w =>
    if (w.mods i).m_binaryLoaded then some (w, .ok ())
    else
      match createTempDir env i w with
      | (w1, .error e) => some (w1, .error e)
      | (w1, .ok _) =>
        if hasUnresolvedDependencies w1 i then
          some (w1, .error "Mod has unresolved dependencies")
        else
          match loadPlatformBinary env i (w1.log (.provideNextMod i)) with
          | (w2, .error e) => some (w2, .error e)
          | (w2, .ok _) =>
            let w3 := w2.modify i (fun m => { m with m_binaryLoaded := true })
            let w4 := runCalls env i (env.implicitLoadFunc w3.trace i) (w3.log (.implicitLoadFunc i))
            match updateAllDependencies env n (w4.log (.event i .Loaded)) with
            | none => none
            | some w5 => enable env n i w5

/-- `Mod::unloadBinary`. -/
def unloadBinary (env : Env) : Nat → ModId → World → Option (World × Result)
  | 0, _, _ => none
  | n + 1, i, w =>
    if !(w.mods i).m_binaryLoaded then some (w, .ok ())
    else if !(w.mods i).m_info.supportsUnloading then
      some (w, .error "Mod does not support unloading")
    else
      match saveData env i w with
      | (w1, .error e) => some (w1, .error e)
      | (w1, .ok _) =>
        match disable env i w1 with
        | (w2, .error e) => some (w2, .error e)
        | (w2, .ok _) =>
          match unloadPlatformBinary env i
              (deletePatches i (deleteHooks i (w2.log (.event i .Unloaded)))) with
          | (w8, .error e) => some (w8, .error e)
          | (w8, .ok _) =>
            match updateAllDependencies env n
                (w8.modify i (fun m => { m with m_binaryLoaded := false })) with
            | none => none
            | some w9 => some (w9, .ok ())

/-- `Mod::enable`. -/
def enable (env : Env) : Nat → ModId → World → Option (World × Result)
  | 0, _, _ => none
  | n + 1, i, w =>
    if !(w.mods i).m_binaryLoaded then loadBinary env n i w
    else
      match enableHooks env i (w.mods i).m_hooks w with
      | (w1, .error e) => some (w1, .error e)
      | (w1, .ok _) =>
        match applyPatches env (w1.mods i).m_patches w1 with
        | (w2, .error e) => some (w2, .error e)
        | (w2, .ok _) =>
          some ((w2.log (.event i .Enabled)).modify i (fun m => { m with m_enabled := true }),
            .ok ())

/-- `Mod::updateDependencies`. -/
def updateDependencies (env : Env) : Nat → ModId → World → Option (World × Result)
  | 0, _, _ => none
  | n + 1, i, w =>
    match updateDependenciesLoop (updateDependencies env n) (loadBinary env n)
        (unloadBinary env n) i (List.range (w.mods i).m_info.dependencies.length) false w with
    | none => none
    | some (w1, .error e) => some (w1, .error e)
    | some (w1, .ok hasUnresolved) =>
      if !hasUnresolved then
        if (w1.mods i).m_enabled then
          match loadBinary env n i w1 with
          | none => none
          | some (w2, .error e) => some (w2, .error e)
          | some (w2, .ok _) => some (w2, .ok ())
        else some (w1, .ok ())
      else some (w1, .ok ())

/-- Modelled from the spec: `Loader::updateAllDependencies`, the resolution pass over the
registry. -/
def updateAllDependencies (env : Env) : Nat → World → Option World
  | 0, _ => none
  | n + 1, w => resolutionPass (updateDependencies env n) w.known w

end

/-- Lines 382 to 392 of `Mod::uninstall`: the package file is removed; an exception of
`remove` becomes an error. -/
def removePackage (env : Env) (i : ModId) (w : World) : World × Result :=
  let ok := env.removeFile w.trace (w.mods i).m_info.path
  (w.log (.removeFile (w.mods i).m_info.path ok),
    if ok then .ok ()
    else .error ("Unable to delete mod\x27s .geode file! " ++
      "This might be due to insufficient permissions - " ++
      "try running GD as administrator."))

/-- `Mod::uninstall`. -/
def uninstall (env : Env) (n : Nat) (i : ModId) (w : World) : Option (World × Result) :=
  if (w.mods i).m_info.supportsDisabling then
    match disable env i w with
    | (w1, .error e) => some (w1, .error e)
    | (w1, .ok _) =>
      if (w1.mods i).m_info.supportsUnloading then
        match unloadBinary env n i w1 with
        | none => none
        | some (w2, .error e) => some (w2, .error e)
        | some (w2, .ok _) => some (removePackage env i w2)
      else some (removePackage env i w1)
  else some (removePackage env i w)

/-! ## URL encoding (`Index2.cpp`)

A `std::string` is the list of its bytes, each below 256. -/

/-- `std::isalnum` on the value of a `char`, in the "C" locale: the ASCII digits and
letters. No byte from 128 on is alphanumeric there. -/
def isalnum (c : Nat) : Bool :=
  (48 ≤ c && c ≤ 57) || (65 ≤ c && c ≤ 90) || (97 ≤ c && c ≤ 122)

/-- The conversion `static_cast<int>(c)` of the `char` that holds the byte `c`. Whether
`char` is signed is up to the platform (`charSigned`): with a signed `char` the bytes
128 to 255 are the values -128 to -1. -/
def charToInt (charSigned : Bool) (c : Nat) : Int :=
  if charSigned && decide (128 ≤ c) then (c : Int) - 256 else (c : Int)

/-- The bytes that `ss << v` writes for an `int` under `std::hex << std::uppercase`: the
value is converted to `unsigned int` (32 bits) and written in uppercase hexadecimal, with
as many digits as the value has (no width and no fill character are set). -/
def hexUpper (v : Int) : List Nat :=
  (Nat.toDigits 16 (v % 4294967296).toNat).map (fun ch => ch.toUpper.toNat)

/-- The loop of `urlEncode`: `ss` holds what has been written to the stream. The bytes
45, 95, 46, 126 are the characters - _ . ~ and 37 is the percent sign. -/
def urlEncodeLoop (charSigned : Bool) : List Nat → List Nat → List Nat
  | ss, [] => ss
  | ss, c :: rest =>
    if isalnum c || c == 45 || c == 95 || c == 46 || c == 126 then
      urlEncodeLoop charSigned (ss ++ [c]) rest
    else
      urlEncodeLoop charSigned (ss ++ 37 :: hexUpper (charToInt charSigned c)) rest

/-- `urlEncode`. -/
def urlEncode (charSigned : Bool) (input : List Nat) : List Nat :=
  urlEncodeLoop charSigned [] input

/-- `buildQueryString`: 61 is the equals sign and 38 the ampersand. -/
def buildQueryString (charSigned : Bool) (values : List (List Nat × List Nat)) : List Nat :=
  values.foldl (fun query kv => query ++ (kv.1 ++ [61] ++ urlEncode charSigned kv.2 ++ [38])) []

/-! ## Classification of effects -/

/-- The effects of `Mod::createTempDir`: directory creation and archive access. -/
def Effect.isFileSystem : Effect → Bool
  | .createDirectoryAll _ _ => true
  | .unzipCreate _ _ => true
  | .hasEntry _ _ _ => true
  | .extractAllTo _ _ _ => true
  | _ => false

/-- Lifecycle notifications. -/
def Effect.isEvent : Effect → Bool
  | .event _ _ => true
  | _ => false

/-- Loading of a platform binary, or a call of an entry point. -/
def Effect.isBinaryLoad : Effect → Bool
  | .loadPlatformBinary _ _ => true
  | .implicitLoadFunc _ => true
  | _ => false

/-! ## Trace extensions -/

/-- The trace `t'` extends the trace `t` by effects that all satisfy `P`. -/
def TraceExt (P : Effect → Bool) (t t' : List Effect) : Prop :=
  ∃ ext, t' = t ++ ext ∧ ∀ e ∈ ext, P e = true

/-! ## Sequences of calls on a patch -/

/-- A call on a `Patch` object. -/
inductive PatchOp where
  | apply
  | restore

/-- A sequence of `apply()` and `restore()` calls on the patch `p`, all of which succeed;
`none` when one of them fails. -/
def runPatchOps (env : Env) (p : Patch) : List PatchOp → World → Option World
  | [], w => some w
  | .apply :: ops, w =>
    match p.apply env w with
    | (w1, true) => runPatchOps env p ops w1
    | (_, false) => none
  | .restore :: ops, w =>
    match p.restore env w with
    | (w1, true) => runPatchOps env p ops w1
    | (_, false) => none

/-! ## Transitions inside a resolution pass

The recursive operations are analysed through the elementary changes they make to the
mods. `PassStep` lists the changes that can happen while `updateDependencies` runs,
each with the condition the code has checked when it makes the change. -/

/-- A dependency that no lookup can resolve: its cached mod has a version outside the
range, or it has no cached mod and the registry has no mod with its id and a version in
the range. -/
def Dependency.permUnres (w : World) (d : Dependency) : Bool :=
  match d.mod with
  | some j => !d.version.compare (w.mods j).m_info.version
  | none =>
    match getLoadedMod w d.id with
    | none => true
    | some j => !d.version.compare (w.mods j).m_info.version

/-- The dependency at position `k` of mod `i` can never be resolved. -/
def depPermUnres (w : World) (i : ModId) (k : Nat) : Bool :=
  match depAt w i k with
  | none => false
  | some d => d.permUnres w

/-- Mod `i` has a dependency that can never be resolved. -/
def hasPermUnres (w : World) (i : ModId) : Bool :=
  (w.mods i).m_info.dependencies.any (fun d => d.permUnres w)

/-- A dependency list can only change by caching a mod in an entry that had none, and the
cached mod is the one the registry of `w` has for the id, with a version in the range. -/
def DepsGrow (w : World) (ds ds' : List Dependency) : Prop :=
  ds'.length = ds.length ∧
  ∀ (k : Nat) (d : Dependency), ds[k]? = some d →
    ∃ d' : Dependency, ds'[k]? = some d' ∧ d'.id = d.id ∧ d'.version = d.version ∧
      (d'.mod = d.mod ∨
        (d.mod = none ∧ ∃ j, d'.mod = some j ∧ getLoadedMod w d.id = some j ∧
          d.version.compare (w.mods j).m_info.version = true))

/-- The elementary changes of one mod `i`, from state `m` to state `m'`, in the world `w`.
* `soft`: the flags and `m_info` stay; hooks and patches may change when the mod is loaded
  (and anything else, such as the temp directory, may change).
* `resolve`: cached dependency mods are filled in.
* `load`: `loadBinary` sets `m_binaryLoaded`, on an enabled mod without unresolved
  dependencies.
* `unload`: `unloadBinary` clears `m_binaryLoaded`, on a loaded and disabled mod that has
  a dependency that cannot be resolved; it has no hooks and patches afterwards.
* `enable`: `enable` sets `m_enabled`, on a loaded mod.
* `disable`: `disable` clears `m_enabled`, on a mod that has a dependency that cannot be
  resolved (it is called on the way to unloading the mod). -/
inductive ModStep (w : World) (i : ModId) (m m' : Mod) : Prop where
  | soft (hi : m'.m_info = m.m_info) (hl : m'.m_binaryLoaded = m.m_binaryLoaded)
      (he : m'.m_enabled = m.m_enabled)
      (ho : m.m_binaryLoaded = false → m'.m_hooks = m.m_hooks ∧ m'.m_patches = m.m_patches)
  | resolve (hv : m'.m_info.version = m.m_info.version)
      (hsd : m'.m_info.supportsDisabling = m.m_info.supportsDisabling)
      (hsu : m'.m_info.supportsUnloading = m.m_info.supportsUnloading)
      (hd : DepsGrow w m.m_info.dependencies m'.m_info.dependencies)
      (hl : m'.m_binaryLoaded = m.m_binaryLoaded) (he : m'.m_enabled = m.m_enabled)
      (hh : m'.m_hooks = m.m_hooks) (hp : m'.m_patches = m.m_patches)
  | load (hi : m'.m_info = m.m_info) (hl0 : m.m_binaryLoaded = false)
      (he : m.m_enabled = true) (he' : m'.m_enabled = true)
      (hu : hasUnresolvedDependencies w i = false) (hl : m'.m_binaryLoaded = true)
      (hh : m'.m_hooks = m.m_hooks) (hp : m'.m_patches = m.m_patches)
  | unload (hi : m'.m_info = m.m_info) (hu : hasPermUnres w i = true)
      (hl0 : m.m_binaryLoaded = true)
      (he : m.m_enabled = false) (he' : m'.m_enabled = false)
      (hh : m'.m_hooks = []) (hp : m'.m_patches = []) (hl : m'.m_binaryLoaded = false)
  | enable (hi : m'.m_info = m.m_info) (hl : m.m_binaryLoaded = true)
      (hl' : m'.m_binaryLoaded = true) (he' : m'.m_enabled = true)
      (hh : m'.m_hooks = m.m_hooks) (hp : m'.m_patches = m.m_patches)
  | disable (hi : m'.m_info = m.m_info) (hl : m'.m_binaryLoaded = m.m_binaryLoaded)
      (he' : m'.m_enabled = false)
      (hh : m'.m_hooks = m.m_hooks) (hp : m'.m_patches = m.m_patches)
      (hu : hasPermUnres w i = true)

/-- One elementary change of the world: the registry stays, and one mod makes a
`ModStep`. -/
def PassStep (w w' : World) : Prop :=
  w'.known = w.known ∧
  ∃ i, (∀ j, j ≠ i → w'.mods j = w.mods j) ∧ ModStep w i (w.mods i) (w'.mods i)

/-- A sequence of elementary changes. -/
def PassSteps (w w' : World) : Prop := Relation.ReflTransGen PassStep w w'

/-- The worlds `w` and `w'` have the same registry and agree on every mod other than `i`;
mod `i` keeps `m_info` and its flags, and keeps its hooks and patches unless it is
loaded. -/
def SoftOn (i : ModId) (w w' : World) : Prop :=
  w'.known = w.known ∧ (∀ j, j ≠ i → w'.mods j = w.mods j) ∧
  (w'.mods i).m_info = (w.mods i).m_info ∧
  (w'.mods i).m_binaryLoaded = (w.mods i).m_binaryLoaded ∧
  (w'.mods i).m_enabled = (w.mods i).m_enabled ∧
  ((w.mods i).m_binaryLoaded = false →
    (w'.mods i).m_hooks = (w.mods i).m_hooks ∧ (w'.mods i).m_patches = (w.mods i).m_patches)

/-- The invariant of the registry: every loaded mod has all its declared dependencies
resolved. -/
def LoadedResolved (w : World) : Prop :=
  ∀ j, (w.mods j).m_binaryLoaded = true → hasUnresolvedDependencies w j = false

/-- Every run of the recursive operations with fuel `n` is a sequence of elementary
changes, provided `loadBinary` is called on an enabled mod, `unloadBinary` on a mod with a
dependency that cannot be resolved, and `enable` on a mod that is loaded or enabled: these are the
conditions under which `updateDependencies` calls them. -/
def PassSim (env : Env) (n : Nat) : Prop :=
  (∀ i w w' r, updateDependencies env n i w = some (w', r) → PassSteps w w') ∧
  (∀ w w', updateAllDependencies env n w = some w' → PassSteps w w') ∧
  (∀ i w w' r, loadBinary env n i w = some (w', r) → (w.mods i).m_enabled = true →
    PassSteps w w') ∧
  (∀ i w w' r, unloadBinary env n i w = some (w', r) →
    hasPermUnres w i = true → PassSteps w w') ∧
  (∀ i w w' r, enable env n i w = some (w', r) →
    ((w.mods i).m_binaryLoaded = true ∨ (w.mods i).m_enabled = true) → PassSteps w w')

/-! ## Invariants and measures -/

/-- Every mod that satisfies `wasSuccesfullyLoaded` in `w` satisfies it in `w'`. -/
def KeepsLoaded (w w' : World) : Prop :=
  ∀ j, wasSuccesfullyLoaded w j = true → wasSuccesfullyLoaded w' j = true

/-- The dependency at position `k` of mod `i` resolves to mod `b`: it has cached `b`, or
it has no cached mod and the registry has `b` for its id; and the version of `b` is in
the range. -/
def ResolvesTo (w : World) (i : ModId) (k : Nat) (b : ModId) : Prop :=
  ∃ d, depAt w i k = some d ∧
    (d.mod = some b ∨ (d.mod = none ∧ getLoadedMod w d.id = some b)) ∧
    d.version.compare (w.mods b).m_info.version = true

/-- A mod that can still change `m_binaryLoaded` inside a resolution pass: it is loaded
and has a dependency that cannot be resolved (it can be unloaded), or it is not loaded and
has no such dependency (it can be loaded). -/
def canFlip (w : World) (j : ModId) : Bool :=
  (w.mods j).m_binaryLoaded == hasPermUnres w j

/-- The number of registered mods that can still change `m_binaryLoaded`. -/
def potential (w : World) : Nat := w.known.countP (canFlip w)

/-- The dependency declarations have no cycle: `rank` decreases from each registered mod to
the mods its dependencies refer to, which are registered. -/
def Acyclic (rank : ModId → Nat) (w : World) : Prop :=
  ∀ j ∈ w.known, ∀ d ∈ (w.mods j).m_info.dependencies,
    (∀ m, d.mod = some m → m ∈ w.known ∧ rank m < rank j) ∧
    (∀ m, getLoadedMod w d.id = some m → rank m < rank j)

/-- The registry of `w` has no cycle, ranks at most `R` and potential at most `P`. -/
def Good (rank : ModId → Nat) (R P : Nat) (w : World) : Prop :=
  Acyclic rank w ∧ (∀ j ∈ w.known, rank j ≤ R) ∧ potential w ≤ P

/-- With fuel `n`, the recursive operations return on every world whose registry has no
cycle, when `n` is large enough for the ranks and the potential. -/
def TotalAt (env : Env) (rank : ModId → Nat) (R : Nat) (n : Nat) : Prop :=
  ∀ (P : Nat) (w : World), Good rank R P w →
    (∀ i ∈ w.known, (R + 3) * P + rank i + 3 ≤ n →
      ∃ x, updateDependencies env n i w = some x) ∧
    ((R + 3) * P + R + 4 ≤ n → ∃ x, updateAllDependencies env n w = some x) ∧
    (∀ i ∈ w.known, (w.mods i).m_enabled = true → (R + 3) * P + 2 ≤ n →
      ∃ x, loadBinary env n i w = some x) ∧
    (∀ i ∈ w.known, hasPermUnres w i = true → (R + 3) * P + 2 ≤ n →
      ∃ x, unloadBinary env n i w = some x)

/-! ## Percent-encoding as the claim states it -/

/-- The bytes of a string of ASCII characters. -/
def asciiBytes (s : String) : List Nat := s.toList.map Char.toNat

/-- The uppercase hexadecimal digit for a value below 16. -/
def hexDigitUpper (d : Nat) : Nat := if d < 10 then 48 + d else 55 + d

/-- The piece for one byte in the percent-encoding with exactly two digits: the byte
itself when it is an ASCII letter, digit, or one of - _ . ~, and otherwise the percent
sign followed by the two uppercase hexadecimal digits of the byte. -/
def percentPiece (c : Nat) : List Nat :=
  if isalnum c || c == 45 || c == 95 || c == 46 || c == 126 then [c]
  else [37, hexDigitUpper (c / 16), hexDigitUpper (c % 16)]

/-- The percent-encoding with exactly two digits for every escaped byte. -/
def percentEncode (input : List Nat) : List Nat := input.flatMap percentPiece

/-- The piece that `urlEncode` writes for one byte. -/
def urlEncodePiece (charSigned : Bool) (c : Nat) : List Nat :=
  if isalnum c || c == 45 || c == 95 || c == 46 || c == 126 then [c]
  else 37 :: hexUpper (charToInt charSigned c)

/-! ## Concrete scenarios -/

/-- An environment in which every collaborator succeeds, no file exists and entry points
do nothing. -/
def envOk : Env where
  modRuntimeDir := "geode/temp"
  createDirectoryAll := fun _ _ => true
  unzipCreate := fun _ _ => .ok ()
  hasEntry := fun _ _ _ => true
  extractAllTo := fun _ _ _ => .ok ()
  loadPlatformBinary := fun _ _ => .ok ()
  unloadPlatformBinary := fun _ _ => .ok ()
  implicitLoadFunc := fun _ _ => []
  hookEnable := fun _ _ => .ok ()
  hookDisable := fun _ _ => .ok ()
  writeMemory := fun _ _ _ => true
  fileExists := fun _ _ => false
  readString := fun _ _ => .error "no such file"
  writeString := fun _ _ _ => .ok ()
  parse := fun _ => .error "syntax error"
  dump := fun _ => ""
  settingLoad := fun _ _ _ _ => true
  settingSave := fun _ _ _ v => (true, v)
  removeFile := fun _ _ => true

/-- A freshly constructed mod: not loaded, no hooks, no patches, no temp directory. -/
def mkMod (version : VersionInfo) (dependencies : List Dependency) (enabled : Bool)
    (supportsDisabling supportsUnloading : Bool) : Mod where
  m_info :=
    { version := version, dependencies := dependencies,
      supportsDisabling := supportsDisabling, supportsUnloading := supportsUnloading,
      path := "mod.geode", binaryName := "mod.dll" }
  m_enabled := enabled
  m_binaryLoaded := false
  m_hooks := []
  m_patches := []
  m_tempDirName := ""
  m_saveDirPath := "geode/save"
  m_settings := []
  m_savedSettingsData := .null
  m_saved := .null

/-- The requirement "B in 1.0.0 ..< 2.0.0", not yet looked up. -/
def requiresB : Dependency :=
  { id := "B", version := { lower := ⟨1, 0, 0⟩, upper := ⟨2, 0, 0⟩ }, mod := none }

/-- A world with registry `known`, in which mod "A" is `a`, and every other mod is `b`. -/
def mkWorld (known : List ModId) (a b : Mod) : World where
  mods := fun j => if j = "A" then a else b
  known := known
  memory := fun _ => 0
  readyToHook := true
  internalHooks := []
  trace := []
  undefined := false

/-- Mod A (enabled) requires B in 1.0.0 ..< 2.0.0; B is registered at 1.5.0 and
enabled. -/
def worldEnabledDep : World :=
  mkWorld ["A", "B"] (mkMod ⟨1, 0, 0⟩ [requiresB] true true true)
    (mkMod ⟨1, 5, 0⟩ [] true true true)

/-- Mod A requires B, and no mod B is registered. -/
def worldMissingDep : World :=
  mkWorld ["A"] (mkMod ⟨1, 0, 0⟩ [requiresB] true true true)
    (mkMod ⟨1, 5, 0⟩ [] false true true)

/-- Mod A does not support unloading (and is not loaded). -/
def worldNoUnload : World :=
  mkWorld ["A"] (mkMod ⟨1, 0, 0⟩ [] false true false) (mkMod ⟨1, 5, 0⟩ [] false true true)

/-- An environment in which nothing can be written and no hook can be removed. -/
def envFailing : Env :=
  { envOk with
    writeString := fun _ _ _ => .error "disk full"
    settingSave := fun _ _ _ v => (false, v)
    hookDisable := fun _ _ => .error "hook is in use"
    hookEnable := fun _ h => if h = 2 then .error "no such function" else .ok ()
    writeMemory := fun _ address _ => decide (address < 4096) }

/-- A patch of one byte at address 16, owned by mod A. -/
def patchLow : Patch :=
  { m_address := 16, m_original := [0], m_owner := "A", m_patch := [144] }

/-- Mod A is loaded and enabled, owns the hooks `hooks` and the patches `patches`, and
has the registered setting "volume". -/
def worldLoaded (hooks : List Hook) (patches : List Patch) : World :=
  mkWorld ["A"]
    { mkMod ⟨1, 0, 0⟩ [] true true true with
      m_binaryLoaded := true, m_hooks := hooks, m_patches := patches,
      m_tempDirName := "geode/temp/A", m_settings := ["volume"] }
    (mkMod ⟨1, 5, 0⟩ [] false true true)

/-- A world for the patch scenario: the bytes at addresses 4096 and 4097 are 0x55 and
0x8B. -/
def worldPatch : World :=
  { worldLoaded [] [] with memory := fun a => if a = 4096 then 85 else if a = 4097 then 139 else 0 }

/-- An environment in which `settings.json` exists and parses to an object with the keys
"volume" and "stale". -/
def envSettings : Env :=
  { envOk with
    fileExists := fun _ path => path == "geode/save/settings.json"
    readString := fun _ _ => .ok "text"
    parse := fun _ => .ok (.object [("volume", .number 3), ("stale", .string "kept")]) }

/-- Mod A requires B in 1.0.0 ..< 2.0.0, B is at 1.5.0, and both are loaded and enabled;
A has cached B as the mod of its dependency. -/
def worldBothLoaded : World :=
  mkWorld ["A", "B"]
    { mkMod ⟨1, 0, 0⟩ [{ requiresB with mod := some "B" }] true true true with
      m_binaryLoaded := true, m_tempDirName := "geode/temp/A" }
    { mkMod ⟨1, 5, 0⟩ [] true true true with
      m_binaryLoaded := true, m_tempDirName := "geode/temp/B" }

/-- Mod A is loaded and enabled, owns hook 1, and requires a mod B that is not
registered. -/
def worldLoadedMissingDep : World :=
  mkWorld ["A"]
    { mkMod ⟨1, 0, 0⟩ [requiresB] true true true with
      m_binaryLoaded := true, m_hooks := [1], m_tempDirName := "geode/temp/A" }
    (mkMod ⟨1, 5, 0⟩ [] false true true)

/-- The world `worldLoadedMissingDep` after `updateDependencies` on A. -/
def worldLoadedMissingDepAfter : World :=
  ((updateDependencies envOk 16 "A" worldLoadedMissingDep).map (fun r => r.1)).getD
    worldLoadedMissingDep

/-- An environment in which the entry point of a mod patches two bytes at address 4096. -/
def envEntry : Env :=
  { envOk with implicitLoadFunc := fun _ _ => [.patch 4096 [144, 144]] }

/-- A single registered mod A without dependencies, not loaded. -/
def worldSolo : World :=
  mkWorld ["A"] (mkMod ⟨1, 0, 0⟩ [] false true true) (mkMod ⟨1, 5, 0⟩ [] false true true)

/-- The world `worldSolo` after `loadBinary` on A, in `envEntry`. -/
def worldSoloLoaded : World :=
  ((loadBinary envEntry 16 "A" worldSolo).map (fun r => r.1)).getD worldSolo

/-- The world `worldSoloLoaded` after hook 9 was added to A with `addHook`. -/
def worldSoloHooked : World :=
  (addHook envEntry "A" 9 worldSoloLoaded).1

/-- The world `worldSoloHooked` after `unloadBinary` on A. -/
def worldSoloUnloaded : World :=
  ((unloadBinary envEntry 16 "A" worldSoloHooked).map (fun r => r.1)).getD worldSoloHooked

/-- The patch object that `patch(4096, [0x90, 0x90])` creates in `worldPatch`. -/
def patchNop : Patch :=
  { m_address := 4096, m_original := [85, 139], m_owner := "A", m_patch := [144, 144] }

/-- The world `worldPatch` after `patch(4096, [0x90, 0x90])` on mod A. -/
def worldPatched : World := (patch envOk "A" 4096 [144, 144] worldPatch).1

/-- Mod A is loaded and enabled, owns hooks 1, 2, 3 and one patch, and does not support
disabling. -/
def worldNoDisable : World :=
  mkWorld ["A"]
    { mkMod ⟨1, 0, 0⟩ [] true false true with
      m_binaryLoaded := true, m_hooks := [1, 2, 3], m_patches := [patchLow],
      m_tempDirName := "geode/temp/A" }
    (mkMod ⟨1, 5, 0⟩ [] false true true)

/-- An environment in which hook 2 cannot be removed and the package file cannot be
deleted. -/
def envStuck : Env :=
  { envOk with
    hookDisable := fun _ h => if h = 2 then .error "hook is in use" else .ok ()
    removeFile := fun _ _ => false }

/-- Mod A is not loaded, disabled, and already owns hook 2 (which cannot be enabled in
`envFailing`). -/
def worldUnloadedHook : World :=
  mkWorld ["A"] { mkMod ⟨1, 0, 0⟩ [] false true true with m_hooks := [2] }
    (mkMod ⟨1, 5, 0⟩ [] false true true)

/-- The world `worldUnloadedHook` after `loadBinary` on A in `envFailing`. -/
def worldUnloadedHookAfter : World :=
  ((loadBinary envFailing 16 "A" worldUnloadedHook).map (fun r => r.1)).getD worldUnloadedHook

/-- The world `worldSolo` when the loader is not yet ready to hook. -/
def worldNotReady : World :=
  { worldSolo with readyToHook := false }

/-- The world `worldUnloadedHook` after `createTempDir` on A in `envFailing`. -/
def worldUnloadedHookTemp : World := (createTempDir envFailing "A" worldUnloadedHook).1

/-- The world `worldUnloadedHookTemp` after the platform binary of A has been loaded. -/
def worldUnloadedHookBinary : World :=
  (loadPlatformBinary envFailing "A" (worldUnloadedHookTemp.log (.provideNextMod "A"))).1

/-- The world `worldUnloadedHookBinary` after `m_binaryLoaded` has been set, the entry
point has run, the Loaded event has been posted and the resolution pass has run. -/
def worldUnloadedHookPass : World :=
  (updateAllDependencies envFailing 15
    ((runCalls envFailing "A"
      (envFailing.implicitLoadFunc
        (worldUnloadedHookBinary.modify "A"
          (fun m => { m with m_binaryLoaded := true })).trace "A")
      ((worldUnloadedHookBinary.modify "A" (fun m => { m with m_binaryLoaded := true })).log
        (.implicitLoadFunc "A"))).log (.event "A" .Loaded))).getD worldUnloadedHook

/-- The requirement "C in 1.0.0 ..< 2.0.0", not yet looked up. -/
def requiresC : Dependency :=
  { id := "C", version := { lower := ⟨1, 0, 0⟩, upper := ⟨2, 0, 0⟩ }, mod := none }

/-- The requirement "M in 1.0.0 ..< 2.0.0", not yet looked up. -/
def requiresM : Dependency :=
  { id := "M", version := { lower := ⟨1, 0, 0⟩, upper := ⟨2, 0, 0⟩ }, mod := none }

/-- An environment in which the platform binary of B cannot be loaded. -/
def envNoBinaryB : Env :=
  { envOk with
    loadPlatformBinary := fun _ i => if i = "B" then .error "cannot open library" else .ok () }

/-- Mod A (enabled, not loaded) requires B and then C; B and C are registered at 1.5.0 and
enabled. -/
def worldTwoDeps : World :=
  mkWorld ["A", "B", "C"] (mkMod ⟨1, 0, 0⟩ [requiresB, requiresC] true true true)
    (mkMod ⟨1, 5, 0⟩ [] true true true)

/-- Mod A is loaded and does not support unloading; it requires M, which is not registered,
and then C, which is registered at 1.5.0. -/
def worldStuckDeps : World :=
  mkWorld ["A", "C"]
    { mkMod ⟨1, 0, 0⟩ [requiresM, requiresC] true true false with
      m_binaryLoaded := true, m_tempDirName := "geode/temp/A" }
    (mkMod ⟨1, 5, 0⟩ [] false true true)

/-- The world `worldEnabledDep` after `updateDependencies` on A. -/
def worldEnabledDepAfter : World :=
  ((updateDependencies envOk 10 "A" worldEnabledDep).map (fun r => r.1)).getD worldEnabledDep

/-- The world `worldLoadedMissingDepAfter` once a mod B at 1.5.0 has been registered: the
dependency of A can now be resolved. -/
def worldDepRegisteredLater : World :=
  { worldLoadedMissingDepAfter with known := ["A", "B"] }

/-- The world `worldDepRegisteredLater` after `updateDependencies` on A. -/
def worldDepRegisteredLaterAfter : World :=
  ((updateDependencies envOk 16 "A" worldDepRegisteredLater).map (fun r => r.1)).getD
    worldDepRegisteredLater

/-- Mod A is loaded and disabled, and owns the hooks `hooks` and the patches `patches`,
each of them once. -/
def worldLoadedDisabled (hooks : List Hook) (patches : List Patch) : World :=
  mkWorld ["A"]
    { mkMod ⟨1, 0, 0⟩ [] false true true with
      m_binaryLoaded := true, m_hooks := hooks, m_patches := patches,
      m_tempDirName := "geode/temp/A" }
    (mkMod ⟨1, 5, 0⟩ [] false true true)

/-- Mod A requires B in 1.0.0 ..< 2.0.0, B is at 1.5.0, and both are loaded and enabled;
A has cached B as the mod of its dependency. A does not support unloading, B does. -/
def worldPinnedDependent : World :=
  mkWorld ["A", "B"]
    { mkMod ⟨1, 0, 0⟩ [{ requiresB with mod := some "B" }] true true false with
      m_binaryLoaded := true, m_tempDirName := "geode/temp/A" }
    { mkMod ⟨1, 5, 0⟩ [] true true true with
      m_binaryLoaded := true, m_tempDirName := "geode/temp/B" }

/-- The world `worldPinnedDependent` after `unloadBinary` on B. -/
def worldPinnedDepUnloaded : World :=
  ((unloadBinary envOk 16 "B" worldPinnedDependent).map (fun r => r.1)).getD
    worldPinnedDependent

/-- The world `worldBothLoaded` in which A also owns hook 2, which cannot be removed in
`envStuck`. Both mods support disabling and unloading. -/
def worldHookedDependent : World :=
  worldBothLoaded.modify "A" (fun m => { m with m_hooks := [2] })

/-- The world `worldHookedDependent` after the failed `unloadBinary` on A in `envStuck`. -/
def worldHookedDependentStuck : World :=
  ((unloadBinary envStuck 16 "A" worldHookedDependent).map (fun r => r.1)).getD
    worldHookedDependent

/-- Once the behaviour of a run is undefined it stays so: `undefined` is never cleared on
the way from `w` to `w'`. -/
def StaysUndefined (w w' : World) : Prop :=
  w.undefined = true → w'.undefined = true

/-! # Properties -/

/-! ## Basic facts about the world state -/

@[simp] theorem World.log_mods (w : World) (e : Effect) : (w.log e).mods = w.mods := rfl

@[simp] theorem World.log_known (w : World) (e : Effect) : (w.log e).known = w.known := rfl

@[simp] theorem World.log_trace (w : World) (e : Effect) :
    (w.log e).trace = w.trace ++ [e] := rfl

@[simp] theorem World.log_memory (w : World) (e : Effect) : (w.log e).memory = w.memory := rfl

@[simp] theorem World.log_readyToHook (w : World) (e : Effect) :
    (w.log e).readyToHook = w.readyToHook := rfl

@[simp] theorem World.log_internalHooks (w : World) (e : Effect) :
    (w.log e).internalHooks = w.internalHooks := rfl

@[simp] theorem World.log_undefined (w : World) (e : Effect) :
    (w.log e).undefined = w.undefined := rfl

@[simp] theorem World.setMod_self (w : World) (i : ModId) (m : Mod) :
    (w.setMod i m).mods i = m := by
  simp [World.setMod]

theorem World.setMod_other (w : World) (i j : ModId) (m : Mod) (h : j ≠ i) :
    (w.setMod i m).mods j = w.mods j := by
  simp [World.setMod, h]

@[simp] theorem World.setMod_known (w : World) (i : ModId) (m : Mod) :
    (w.setMod i m).known = w.known := rfl

@[simp] theorem World.setMod_trace (w : World) (i : ModId) (m : Mod) :
    (w.setMod i m).trace = w.trace := rfl

@[simp] theorem World.setMod_memory (w : World) (i : ModId) (m : Mod) :
    (w.setMod i m).memory = w.memory := rfl

@[simp] theorem World.setMod_readyToHook (w : World) (i : ModId) (m : Mod) :
    (w.setMod i m).readyToHook = w.readyToHook := rfl

@[simp] theorem World.setMod_internalHooks (w : World) (i : ModId) (m : Mod) :
    (w.setMod i m).internalHooks = w.internalHooks := rfl

@[simp] theorem World.setMod_undefined (w : World) (i : ModId) (m : Mod) :
    (w.setMod i m).undefined = w.undefined := rfl

@[simp] theorem World.modify_self (w : World) (i : ModId) (f : Mod → Mod) :
    (w.modify i f).mods i = f (w.mods i) := by
  simp [World.modify]

theorem World.modify_other (w : World) (i j : ModId) (f : Mod → Mod) (h : j ≠ i) :
    (w.modify i f).mods j = w.mods j := by
  simp [World.modify, World.setMod_other _ _ _ _ h]

@[simp] theorem World.modify_known (w : World) (i : ModId) (f : Mod → Mod) :
    (w.modify i f).known = w.known := rfl

@[simp] theorem World.modify_trace (w : World) (i : ModId) (f : Mod → Mod) :
    (w.modify i f).trace = w.trace := rfl

@[simp] theorem World.modify_memory (w : World) (i : ModId) (f : Mod → Mod) :
    (w.modify i f).memory = w.memory := rfl

@[simp] theorem World.modify_readyToHook (w : World) (i : ModId) (f : Mod → Mod) :
    (w.modify i f).readyToHook = w.readyToHook := rfl

@[simp] theorem World.modify_internalHooks (w : World) (i : ModId) (f : Mod → Mod) :
    (w.modify i f).internalHooks = w.internalHooks := rfl

@[simp] theorem World.modify_undefined (w : World) (i : ModId) (f : Mod → Mod) :
    (w.modify i f).undefined = w.undefined := rfl

/-- The value of `hasUnresolvedDependencies` only depends on the `m_info` of the mods. -/
theorem hasUnresolvedDependencies_congr (w w' : World) (i : ModId)
    (h : ∀ j, (w'.mods j).m_info = (w.mods j).m_info) :
    hasUnresolvedDependencies w' i = hasUnresolvedDependencies w i := by
  have hres : ∀ d : Dependency, d.isResolved w' = d.isResolved w := by
    intro d
    unfold Dependency.isResolved
    cases d.mod with
    | none => rfl
    | some j => simp [h j]
  simp [hasUnresolvedDependencies, h i, hres]

/-! ## The temp directory -/

theorem TraceExt.ext_refl (P : Effect → Bool) (t : List Effect) : TraceExt P t t :=
  ⟨[], by simp⟩

theorem TraceExt.snoc {P : Effect → Bool} {t t' : List Effect} {e : Effect}
    (h : TraceExt P t t') (he : P e = true) : TraceExt P t (t' ++ [e]) := by
  obtain ⟨ext, rfl, hext⟩ := h
  refine ⟨ext ++ [e], by simp, ?_⟩
  intro x hx
  rcases List.mem_append.mp hx with hx | hx
  · exact hext x hx
  · simp at hx; subst hx; exact he

theorem TraceExt.ext_trans {P : Effect → Bool} {t t' t'' : List Effect}
    (h : TraceExt P t t') (h' : TraceExt P t' t'') : TraceExt P t t'' := by
  obtain ⟨ext, rfl, hext⟩ := h
  obtain ⟨ext', rfl, hext'⟩ := h'
  refine ⟨ext ++ ext', by simp, ?_⟩
  intro x hx
  rcases List.mem_append.mp hx with hx | hx
  · exact hext x hx
  · exact hext' x hx

theorem createTempDir_frame (env : Env) (i : ModId) (w : World) :
    (createTempDir env i w).1.known = w.known ∧
    (createTempDir env i w).1.memory = w.memory ∧
    (createTempDir env i w).1.readyToHook = w.readyToHook ∧
    (createTempDir env i w).1.internalHooks = w.internalHooks ∧
    (∀ j, j ≠ i → (createTempDir env i w).1.mods j = w.mods j) ∧
    (∃ p, (createTempDir env i w).1.mods i = { w.mods i with m_tempDirName := p }) ∧
    TraceExt Effect.isFileSystem w.trace (createTempDir env i w).1.trace := by
  unfold createTempDir
  split
  · exact ⟨rfl, rfl, rfl, rfl, fun _ _ => rfl, ⟨_, rfl⟩, TraceExt.ext_refl _ _⟩
  · dsimp only
    split
    · exact ⟨rfl, rfl, rfl, rfl, fun _ _ => rfl, ⟨_, rfl⟩, (TraceExt.ext_refl _ _).snoc rfl⟩
    · split
      · exact ⟨rfl, rfl, rfl, rfl, fun _ _ => rfl, ⟨_, rfl⟩,
          ((TraceExt.ext_refl _ _).snoc rfl).snoc rfl⟩
      · split
        · exact ⟨rfl, rfl, rfl, rfl, fun _ _ => rfl, ⟨_, rfl⟩,
            (((TraceExt.ext_refl _ _).snoc rfl).snoc rfl).snoc rfl⟩
        · split
          · exact ⟨rfl, rfl, rfl, rfl, fun _ _ => rfl, ⟨_, rfl⟩,
              ((((TraceExt.ext_refl _ _).snoc rfl).snoc rfl).snoc rfl).snoc rfl⟩
          · split
            · exact ⟨rfl, rfl, rfl, rfl, fun _ _ => rfl, ⟨_, rfl⟩,
                (((((TraceExt.ext_refl _ _).snoc rfl).snoc rfl).snoc rfl).snoc rfl).snoc rfl⟩
            · refine ⟨rfl, rfl, rfl, rfl, fun j hj => ?_, ⟨pathJoin env.modRuntimeDir i, ?_⟩,
                (((((TraceExt.ext_refl _ _).snoc rfl).snoc rfl).snoc rfl).snoc rfl).snoc rfl⟩
              · rw [World.modify_other _ _ _ _ hj]; rfl
              · rw [World.modify_self]; rfl

theorem createTempDir_exists (env : Env) (i : ModId) (w : World)
    (h : (w.mods i).m_tempDirName ≠ "") : createTempDir env i w = (w, .ok ()) := by
  unfold createTempDir
  simp [h]

theorem createTempDir_info (env : Env) (i : ModId) (w : World) (j : ModId) :
    ((createTempDir env i w).1.mods j).m_info = (w.mods j).m_info := by
  obtain ⟨-, -, -, -, ho, ⟨p, hp⟩, -⟩ := createTempDir_frame env i w
  by_cases hj : j = i
  · subst hj; rw [hp]
  · rw [ho j hj]

theorem isFileSystem_not_isEvent (e : Effect) (h : e.isFileSystem = true) :
    e.isEvent = false := by
  cases e <;> first | rfl | cases h

theorem isFileSystem_not_isBinaryLoad (e : Effect) (h : e.isFileSystem = true) :
    e.isBinaryLoad = false := by
  cases e <;> first | rfl | cases h

/-! ## Loading with unresolved dependencies (C3, C4) -/

/-- What `loadBinary` does on an unloaded mod with an unresolved dependency: it runs
`createTempDir` and then fails. -/
theorem loadBinary_unresolved_eq (env : Env) (n : Nat) (i : ModId) (w : World)
    (hl : (w.mods i).m_binaryLoaded = false) (hu : hasUnresolvedDependencies w i = true) :
    loadBinary env (n + 1) i w =
      some ((createTempDir env i w).1,
        .error (match (createTempDir env i w).2 with
          | .ok _ => "Mod has unresolved dependencies"
          | .error e => e)) := by
  have hu' : hasUnresolvedDependencies (createTempDir env i w).1 i = true := by
    rw [hasUnresolvedDependencies_congr _ _ _ (createTempDir_info env i w)]; exact hu
  rw [loadBinary]
  simp only [hl, Bool.false_eq_true, if_false]
  rcases hc : createTempDir env i w with ⟨w1, r⟩
  rw [hc] at hu'
  cases r with
  | error e => rfl
  | ok u => simp only [hu', if_true]

/-- C3 (counterexample): mod A requires a mod B that is not registered, is not loaded and
has never been extracted. `loadBinary` fails with the unresolved-dependency error, but
it has created two directories, opened and extracted the archive, and set the
temp-extraction directory path. -/
theorem loadBinary_unresolved_has_side_effects :
    (worldMissingDep.mods "A").m_binaryLoaded = false ∧
    hasUnresolvedDependencies worldMissingDep "A" = true ∧
    (worldMissingDep.mods "A").m_tempDirName = "" ∧
    (loadBinary envOk 1 "A" worldMissingDep).map
        (fun r => (r.2, (r.1.mods "A").m_tempDirName, r.1.trace)) =
      some (.error "Mod has unresolved dependencies", "geode/temp/A",
        [.createDirectoryAll "geode/temp" true, .createDirectoryAll "geode/temp/A" true,
         .unzipCreate "mod.geode" true, .hasEntry "mod.geode" "mod.dll" true,
         .extractAllTo "mod.geode" "geode/temp/A" true]) := by
  refine ⟨rfl, rfl, rfl, rfl⟩

/-- C3 (amended): on a mod that is not loaded and has an unresolved dependency,
`loadBinary` fails. It first runs `createTempDir`: the resulting world is the one
`createTempDir` leaves, the error is the one of `createTempDir` when that fails and the
unresolved-dependency error otherwise. When the temp directory already exists nothing
changes at all. In every case only the temp directory path of the mod can change, every
new effect is a directory or archive access of `createTempDir` (so no notification is
fired), and the registry, memory and the other mods are untouched. -/
theorem loadBinary_unresolved_fails (env : Env) (n : Nat) (i : ModId) (w : World)
    (hl : (w.mods i).m_binaryLoaded = false) (hu : hasUnresolvedDependencies w i = true) :
    ∃ w' e, loadBinary env (n + 1) i w = some (w', .error e) ∧
      w' = (createTempDir env i w).1 ∧
      (∀ e', (createTempDir env i w).2 = .error e' → e = e') ∧
      ((createTempDir env i w).2 = .ok () → e = "Mod has unresolved dependencies") ∧
      ((w.mods i).m_tempDirName ≠ "" → w' = w ∧ e = "Mod has unresolved dependencies") ∧
      w'.known = w.known ∧ w'.memory = w.memory ∧ w'.readyToHook = w.readyToHook ∧
      w'.internalHooks = w.internalHooks ∧
      (∀ j, j ≠ i → w'.mods j = w.mods j) ∧
      (∃ p, w'.mods i = { w.mods i with m_tempDirName := p }) ∧
      TraceExt Effect.isFileSystem w.trace w'.trace ∧
      (∃ ext, w'.trace = w.trace ++ ext ∧ ∀ x ∈ ext, x.isEvent = false) := by
  obtain ⟨h1, h2, h3, h4, h5, h6, h7⟩ := createTempDir_frame env i w
  refine ⟨_, _, loadBinary_unresolved_eq env n i w hl hu, rfl, ?_, ?_, ?_, h1, h2, h3, h4, h5,
    h6, h7, ?_⟩
  · intro e' he'; rw [he']
  · intro he'; rw [he']
  · intro ht; rw [createTempDir_exists env i w ht]; exact ⟨rfl, rfl⟩
  · obtain ⟨ext, hext, hfs⟩ := h7
    exact ⟨ext, hext, fun x hx => isFileSystem_not_isEvent x (hfs x hx)⟩

/-- C3 (witness): the amended statement at mod A of `worldMissingDep`. -/
theorem loadBinary_unresolved_fails_witness :
    (worldMissingDep.mods "A").m_binaryLoaded = false ∧
    hasUnresolvedDependencies worldMissingDep "A" = true ∧
    ∃ w' e, loadBinary envOk 1 "A" worldMissingDep = some (w', .error e) ∧
      w' = (createTempDir envOk "A" worldMissingDep).1 ∧
      (∀ e', (createTempDir envOk "A" worldMissingDep).2 = .error e' → e = e') ∧
      ((createTempDir envOk "A" worldMissingDep).2 = .ok () →
        e = "Mod has unresolved dependencies") ∧
      ((worldMissingDep.mods "A").m_tempDirName ≠ "" →
        w' = worldMissingDep ∧ e = "Mod has unresolved dependencies") ∧
      w'.known = worldMissingDep.known ∧ w'.memory = worldMissingDep.memory ∧
      w'.readyToHook = worldMissingDep.readyToHook ∧
      w'.internalHooks = worldMissingDep.internalHooks ∧
      (∀ j, j ≠ "A" → w'.mods j = worldMissingDep.mods j) ∧
      (∃ p, w'.mods "A" = { worldMissingDep.mods "A" with m_tempDirName := p }) ∧
      TraceExt Effect.isFileSystem worldMissingDep.trace w'.trace ∧
      (∃ ext, w'.trace = worldMissingDep.trace ++ ext ∧ ∀ x ∈ ext, x.isEvent = false) :=
  ⟨rfl, rfl, loadBinary_unresolved_fails envOk 0 "A" worldMissingDep rfl rfl⟩

/-- C4: on a mod that is not loaded and has an unresolved dependency, a direct call of
`enable` returns an error, leaves `m_binaryLoaded` false and `m_enabled` as it was, and
none of the effects it adds to the trace loads a platform binary or calls an entry
point. -/
theorem enable_unresolved_fails (env : Env) (n : Nat) (i : ModId) (w : World)
    (hl : (w.mods i).m_binaryLoaded = false) (hu : hasUnresolvedDependencies w i = true) :
    ∃ w' e, enable env (n + 2) i w = some (w', .error e) ∧
      (w'.mods i).m_binaryLoaded = false ∧
      (w'.mods i).m_enabled = (w.mods i).m_enabled ∧
      ∃ ext, w'.trace = w.trace ++ ext ∧ ∀ x ∈ ext, x.isBinaryLoad = false := by
  obtain ⟨-, -, -, -, -, ⟨p, hp⟩, ⟨ext, hext, hfs⟩⟩ := createTempDir_frame env i w
  have he : enable env (n + 2) i w = loadBinary env (n + 1) i w := by
    rw [enable]
    simp only [hl, Bool.not_false, if_true]
  rw [he, loadBinary_unresolved_eq env n i w hl hu]
  refine ⟨_, _, rfl, ?_, ?_, ext, hext,
    fun x hx => isFileSystem_not_isBinaryLoad x (hfs x hx)⟩
  · rw [hp]; exact hl
  · rw [hp]

/-- C4 (witness): the statement at mod A of `worldMissingDep`. -/
theorem enable_unresolved_fails_witness :
    (worldMissingDep.mods "A").m_binaryLoaded = false ∧
    hasUnresolvedDependencies worldMissingDep "A" = true ∧
    ∃ w' e, enable envOk 2 "A" worldMissingDep = some (w', .error e) ∧
      (w'.mods "A").m_binaryLoaded = false ∧
      (w'.mods "A").m_enabled = (worldMissingDep.mods "A").m_enabled ∧
      ∃ ext, w'.trace = worldMissingDep.trace ++ ext ∧ ∀ x ∈ ext, x.isBinaryLoad = false :=
  ⟨rfl, rfl, enable_unresolved_fails envOk 0 "A" worldMissingDep rfl rfl⟩

/-! ## Unloading a mod that does not support it (C5) -/

/-- C5 (counterexample): mod A does not support unloading and is not loaded;
`unloadBinary` returns success, not an error. -/
theorem unloadBinary_unsupported_not_loaded_ok :
    (worldNoUnload.mods "A").m_info.supportsUnloading = false ∧
    (unloadBinary envOk 1 "A" worldNoUnload).map (fun r => r.2) = some (.ok ()) := by
  exact ⟨rfl, rfl⟩

/-- C5 (amended): on a mod with `supportsUnloading = false`, `unloadBinary` leaves the
whole world unchanged (so `m_enabled`, `m_binaryLoaded`, hooks and patches are what they
were); it returns the error "Mod does not support unloading" when the mod is loaded and
success when the mod is not loaded. -/
theorem unloadBinary_unsupported (env : Env) (n : Nat) (i : ModId) (w : World)
    (h : (w.mods i).m_info.supportsUnloading = false) :
    unloadBinary env (n + 1) i w =
      some (w, if (w.mods i).m_binaryLoaded then .error "Mod does not support unloading"
        else .ok ()) := by
  rw [unloadBinary]
  cases hl : (w.mods i).m_binaryLoaded <;> simp [h]

/-- C5 (witness): the amended statement at mod A of `worldNoUnload`. -/
theorem unloadBinary_unsupported_witness :
    (worldNoUnload.mods "A").m_info.supportsUnloading = false ∧
    unloadBinary envOk 1 "A" worldNoUnload =
      some (worldNoUnload,
        if (worldNoUnload.mods "A").m_binaryLoaded then
          .error "Mod does not support unloading"
        else .ok ()) :=
  ⟨rfl, unloadBinary_unsupported envOk 0 "A" worldNoUnload rfl⟩

/-! ## Saving never fails (C9) -/

theorem saveData_result (env : Env) (i : ModId) (w : World) :
    (saveData env i w).2 = .ok () := rfl

/-- C9: `saveData` returns success whatever the setting handlers and the two file
writes do. So an error returned by `unloadBinary` is never one of persisting data: it
is the unsupported-operation error, the error of `disable` (run on the world `saveData`
leaves), or an error of unloading the platform binary. -/
theorem saveData_never_blocks_unload (env : Env) (n : Nat) (i : ModId) (w : World) :
    (saveData env i w).2 = .ok () ∧
    ∀ w' e, unloadBinary env n i w = some (w', .error e) →
      e = "Mod does not support unloading" ∨
      (disable env i (saveData env i w).1).2 = .error e ∨
      ∃ w1, (unloadPlatformBinary env i w1).2 = .error e := by
  refine ⟨rfl, ?_⟩
  intro w' e h
  cases n with
  | zero => simp [unloadBinary] at h
  | succ n =>
    rw [unloadBinary] at h
    split at h
    · simp at h
    · split at h
      · simp only [Option.some.injEq, Prod.mk.injEq, Except.error.injEq] at h
        exact Or.inl h.2.symm
      · rcases hd : disable env i (saveData env i w).1 with ⟨w2, r2⟩
        have hs : saveData env i w = ((saveData env i w).1, .ok ()) := rfl
        rw [hs] at h
        simp only [hd] at h
        cases r2 with
        | error e2 =>
          simp only [Option.some.injEq, Prod.mk.injEq, Except.error.injEq] at h
          exact Or.inr (Or.inl (by rw [h.2]))
        | ok u =>
          simp only at h
          split at h
          · next w8 e8 h8 =>
            simp only [Option.some.injEq, Prod.mk.injEq, Except.error.injEq] at h
            exact Or.inr (Or.inr ⟨_, by rw [h8, h.2]⟩)
          · split at h <;> simp at h

/-- C9 (witness): in `envFailing` both file writes and the setting handler fail; unloading
the loaded mod A still gets past `saveData` and fails in `disable`, on hook 1. -/
theorem saveData_never_blocks_unload_witness :
    (unloadBinary envFailing 1 "A" (worldLoaded [1] [])).map (fun r => (r.2, r.1.trace)) =
      some (.error "hook is in use",
        [.event "A" .DataSaved, .settingSave "A" "volume" false,
         .writeString "geode/save/settings.json" "" false,
         .writeString "geode/save/saved.json" "" false,
         .event "A" .Disabled, .hookDisable 1 false]) ∧
    ((saveData envFailing "A" (worldLoaded [1] [])).2 = .ok () ∧
      ∀ w' e, unloadBinary envFailing 1 "A" (worldLoaded [1] []) = some (w', .error e) →
        e = "Mod does not support unloading" ∨
        (disable envFailing "A" (saveData envFailing "A" (worldLoaded [1] [])).1).2 = .error e ∨
        ∃ w1, (unloadPlatformBinary envFailing "A" w1).2 = .error e) :=
  ⟨rfl, saveData_never_blocks_unload envFailing 1 "A" (worldLoaded [1] [])⟩

/-! ## Hook and patch loops -/

theorem enableHook_ok (env : Env) (i : ModId) (h : Hook) (w : World) (u : Unit)
    (hr : env.hookEnable w.trace h = .ok u) :
    enableHook env i h w =
      ((w.log (.hookEnable h true)).modify i (fun m => { m with m_hooks := m.m_hooks ++ [h] }),
        .ok u) := by
  simp [enableHook, hr, isOk]

theorem enableHook_error (env : Env) (i : ModId) (h : Hook) (w : World) (e : String)
    (hr : env.hookEnable w.trace h = .error e) :
    enableHook env i h w = (w.log (.hookEnable h false), .error e) := by
  simp [enableHook, hr, isOk]

/-- The hook loop of `enable`: either every hook is enabled, in order, and appended to
the collection, or the loop stops at the first hook that fails. -/
theorem enableHooks_spec (env : Env) (i : ModId) : ∀ (hs : List Hook) (w : World),
    ((enableHooks env i hs w).2 = .ok () ∧
      (enableHooks env i hs w).1.trace =
        w.trace ++ hs.map (fun h => Effect.hookEnable h true) ∧
      (enableHooks env i hs w).1.mods i =
        { w.mods i with m_hooks := (w.mods i).m_hooks ++ hs }) ∨
    (∃ k h e, hs[k]? = some h ∧ (enableHooks env i hs w).2 = .error e ∧
      (enableHooks env i hs w).1.trace =
        w.trace ++ (hs.take k).map (fun h => Effect.hookEnable h true) ++
          [.hookEnable h false] ∧
      (enableHooks env i hs w).1.mods i =
        { w.mods i with m_hooks := (w.mods i).m_hooks ++ hs.take k }) := by
  intro hs
  induction hs with
  | nil => intro w; left; simp [enableHooks]
  | cons h hs ih =>
    intro w
    rcases hr : env.hookEnable w.trace h with e | u
    · right
      refine ⟨0, h, e, by simp, ?_⟩
      simp [enableHooks, enableHook_error env i h w e hr]
    · simp only [enableHooks, enableHook_ok env i h w u hr]
      rcases ih { (w.log (.hookEnable h true)).modify i
          (fun m => { m with m_hooks := m.m_hooks ++ [h] }) with undefined := true } with
        ⟨h1, h2, h3⟩ | ⟨k, g, e, h0, h1, h2, h3⟩
      · left
        refine ⟨h1, ?_, ?_⟩
        · rw [h2]; simp
        · rw [h3]; simp
      · right
        refine ⟨k + 1, g, e, by simpa using h0, h1, ?_, ?_⟩
        · rw [h2]; simp
        · rw [h3]; simp

/-- Once the behaviour is undefined, the hook loop of `enable` leaves it so. -/
theorem enableHooks_undefined_mono (env : Env) (i : ModId) : ∀ (hs : List Hook) (w : World),
    w.undefined = true → (enableHooks env i hs w).1.undefined = true := by
  intro hs
  induction hs with
  | nil => intro w hw; exact hw
  | cons h hs ih =>
    intro w hw
    rcases hr : env.hookEnable w.trace h with e | u
    · simpa [enableHooks, enableHook_error env i h w e hr] using hw
    · simp only [enableHooks, enableHook_ok env i h w u hr]
      exact ih _ rfl

/-- When the hook loop of `enable` becomes undefined: it stays defined when there is no
hook or the first hook cannot be enabled, and is undefined as soon as the first hook has
been enabled, since that hook is pushed onto the vector the loop iterates. -/
theorem enableHooks_undefined (env : Env) (i : ModId) (hs : List Hook) (w : World) :
    (hs = [] → (enableHooks env i hs w).1.undefined = w.undefined) ∧
    (∀ h rest, hs = h :: rest →
      (isOk (env.hookEnable w.trace h) = false →
        (enableHooks env i hs w).1.undefined = w.undefined) ∧
      (isOk (env.hookEnable w.trace h) = true →
        (enableHooks env i hs w).1.undefined = true)) := by
  refine ⟨fun h0 => by subst h0; rfl, fun h rest h0 => ?_⟩
  subst h0
  rcases hr : env.hookEnable w.trace h with e | u
  · refine ⟨fun _ => ?_, fun hc => by simp [isOk] at hc⟩
    simp [enableHooks, enableHook_error env i h w e hr]
  · refine ⟨fun hc => by simp [isOk] at hc, fun _ => ?_⟩
    simp only [enableHooks, enableHook_ok env i h w u hr]
    exact enableHooks_undefined_mono env i rest _ rfl

theorem enableHooks_known (env : Env) (i : ModId) : ∀ (hs : List Hook) (w : World),
    (enableHooks env i hs w).1.known = w.known := by
  intro hs
  induction hs with
  | nil => intro w; rfl
  | cons h hs ih =>
    intro w
    rcases hr : env.hookEnable w.trace h with e | u
    · simp [enableHooks, enableHook_error env i h w e hr]
    · simp only [enableHooks, enableHook_ok env i h w u hr, ih]
      rfl

theorem enableHooks_other (env : Env) (i j : ModId) (hj : j ≠ i) :
    ∀ (hs : List Hook) (w : World), (enableHooks env i hs w).1.mods j = w.mods j := by
  intro hs
  induction hs with
  | nil => intro w; rfl
  | cons h hs ih =>
    intro w
    rcases hr : env.hookEnable w.trace h with e | u
    · simp [enableHooks, enableHook_error env i h w e hr]
    · simp only [enableHooks, enableHook_ok env i h w u hr, ih]
      show ((w.log (.hookEnable h true)).modify i _).mods j = _
      rw [World.modify_other _ _ _ _ hj]
      rfl

theorem Patch.apply_mods (env : Env) (p : Patch) (w : World) :
    (p.apply env w).1.mods = w.mods := by
  unfold Patch.apply
  dsimp only
  split <;> rfl

theorem Patch.apply_known (env : Env) (p : Patch) (w : World) :
    (p.apply env w).1.known = w.known := by
  unfold Patch.apply
  dsimp only
  split <;> rfl

theorem Patch.apply_trace (env : Env) (p : Patch) (w : World) :
    (p.apply env w).1.trace = w.trace ++ [.patchApply p (p.apply env w).2] := by
  unfold Patch.apply
  dsimp only
  split <;> rfl

theorem Patch.restore_mods (env : Env) (p : Patch) (w : World) :
    (p.restore env w).1.mods = w.mods := by
  unfold Patch.restore
  dsimp only
  split <;> rfl

theorem Patch.restore_known (env : Env) (p : Patch) (w : World) :
    (p.restore env w).1.known = w.known := by
  unfold Patch.restore
  dsimp only
  split <;> rfl

theorem Patch.restore_trace (env : Env) (p : Patch) (w : World) :
    (p.restore env w).1.trace = w.trace ++ [.patchRestore p (p.restore env w).2] := by
  unfold Patch.restore
  dsimp only
  split <;> rfl

theorem applyPatches_mods (env : Env) : ∀ (ps : List Patch) (w : World),
    (applyPatches env ps w).1.mods = w.mods := by
  intro ps
  induction ps with
  | nil => intro w; rfl
  | cons p ps ih =>
    intro w
    have hm := Patch.apply_mods env p w
    rcases hp : p.apply env w with ⟨w1, b⟩
    rw [hp] at hm
    cases b
    · simpa [applyPatches, hp] using hm
    · simp only [applyPatches, hp, ih]; exact hm

theorem applyPatches_known (env : Env) : ∀ (ps : List Patch) (w : World),
    (applyPatches env ps w).1.known = w.known := by
  intro ps
  induction ps with
  | nil => intro w; rfl
  | cons p ps ih =>
    intro w
    have hm := Patch.apply_known env p w
    rcases hp : p.apply env w with ⟨w1, b⟩
    rw [hp] at hm
    cases b
    · simpa [applyPatches, hp] using hm
    · simp only [applyPatches, hp, ih]; exact hm

/-- The patch loop of `enable`: either every patch is applied, in order, or the loop
stops at the first patch that fails, with an error naming its address. -/
theorem applyPatches_spec (env : Env) : ∀ (ps : List Patch) (w : World),
    ((applyPatches env ps w).2 = .ok () ∧
      (applyPatches env ps w).1.trace =
        w.trace ++ ps.map (fun p => Effect.patchApply p true)) ∨
    (∃ k p, ps[k]? = some p ∧
      (applyPatches env ps w).2 =
        .error ("Unable to apply patch at " ++ toString p.m_address) ∧
      (applyPatches env ps w).1.trace =
        w.trace ++ (ps.take k).map (fun p => Effect.patchApply p true) ++
          [.patchApply p false]) := by
  intro ps
  induction ps with
  | nil => intro w; left; simp [applyPatches]
  | cons p ps ih =>
    intro w
    have ht := Patch.apply_trace env p w
    rcases hp : p.apply env w with ⟨w1, b⟩
    rw [hp] at ht
    cases b
    · right
      refine ⟨0, p, by simp, ?_⟩
      simpa [applyPatches, hp] using ht
    · simp only [applyPatches, hp]
      rcases ih w1 with ⟨h1, h2⟩ | ⟨k, q, h0, h1, h2⟩
      · left
        refine ⟨h1, ?_⟩
        rw [h2, ht]; simp
      · right
        refine ⟨k + 1, q, by simpa using h0, h1, ?_⟩
        rw [h2, ht]; simp

/-! ## Enabling a loaded mod (C10) -/

/-- The steps of `enable` on a loaded mod along the run that `enableHooks` follows: the
owned hooks are enabled in collection order, then the owned patches are applied in
collection order. Either every step succeeds, the `Enabled` notification is fired and
`m_enabled` is true; or the trace ends at the first failing hook (its error is returned);
or it ends at the first failing patch (the error names its address). This says nothing
about whether the run is defined: see `enable_undefined`. -/
theorem enable_loaded (env : Env) (n : Nat) (i : ModId) (w : World)
    (hl : (w.mods i).m_binaryLoaded = true) :
    ∃ w' r, enable env (n + 1) i w = some (w', r) ∧
      ((r = .ok () ∧ (w'.mods i).m_enabled = true ∧
          w'.trace = w.trace ++ (w.mods i).m_hooks.map (fun h => Effect.hookEnable h true) ++
            (w.mods i).m_patches.map (fun p => Effect.patchApply p true) ++
            [.event i .Enabled]) ∨
        (∃ k h e, (w.mods i).m_hooks[k]? = some h ∧ r = .error e ∧
          (w'.mods i).m_enabled = (w.mods i).m_enabled ∧
          w'.trace = w.trace ++
            ((w.mods i).m_hooks.take k).map (fun h => Effect.hookEnable h true) ++
            [.hookEnable h false]) ∨
        (∃ k p, (w.mods i).m_patches[k]? = some p ∧
          r = .error ("Unable to apply patch at " ++ toString p.m_address) ∧
          (w'.mods i).m_enabled = (w.mods i).m_enabled ∧
          w'.trace = w.trace ++ (w.mods i).m_hooks.map (fun h => Effect.hookEnable h true) ++
            ((w.mods i).m_patches.take k).map (fun p => Effect.patchApply p true) ++
            [.patchApply p false])) := by
  rw [enable]
  simp only [hl, Bool.not_true, Bool.false_eq_true, if_false]
  rcases enableHooks_spec env i (w.mods i).m_hooks w with ⟨h1, h2, h3⟩ | ⟨k, g, e, h0, h1, h2, h3⟩
  · rcases hh : enableHooks env i (w.mods i).m_hooks w with ⟨w1, r1⟩
    rw [hh] at h1 h2 h3
    simp only at h1 h2 h3
    subst h1
    have hp : (w1.mods i).m_patches = (w.mods i).m_patches := by rw [h3]
    simp only [hp]
    have hm := applyPatches_mods env (w.mods i).m_patches w1
    rcases applyPatches_spec env (w.mods i).m_patches w1 with ⟨a1, a2⟩ | ⟨k, p, a0, a1, a2⟩
    · rcases ha : applyPatches env (w.mods i).m_patches w1 with ⟨w2, r2⟩
      rw [ha] at a1 a2 hm
      simp only at a1 a2 hm
      subst a1
      refine ⟨_, _, rfl, Or.inl ⟨rfl, by simp, ?_⟩⟩
      simp [a2, h2]
    · rcases ha : applyPatches env (w.mods i).m_patches w1 with ⟨w2, r2⟩
      rw [ha] at a1 a2 hm
      simp only at a1 a2 hm
      subst a1
      refine ⟨_, _, rfl, Or.inr (Or.inr ⟨k, p, a0, rfl, ?_, ?_⟩)⟩
      · rw [hm, h3]
      · simp [a2, h2]
  · rcases hh : enableHooks env i (w.mods i).m_hooks w with ⟨w1, r1⟩
    rw [hh] at h1 h2 h3
    simp only at h1 h2 h3
    subst h1
    refine ⟨_, _, rfl, Or.inr (Or.inl ⟨k, g, e, h0, rfl, ?_, h2⟩)⟩
    rw [h3]

/-- The patch loop of `enable` does nothing that C++ leaves undefined. -/
theorem applyPatches_undefined (env : Env) : ∀ (ps : List Patch) (w : World),
    (applyPatches env ps w).1.undefined = w.undefined := by
  intro ps
  induction ps with
  | nil => intro w; rfl
  | cons p ps ih =>
    intro w
    have hm : (p.apply env w).1.undefined = w.undefined := by
      unfold Patch.apply
      dsimp only
      split <;> rfl
    rcases hp : p.apply env w with ⟨w1, b⟩
    rw [hp] at hm
    cases b
    · simpa [applyPatches, hp] using hm
    · simp only [applyPatches, hp, ih]; exact hm

/-- On a loaded mod, `enable` is undefined as soon as the first owned hook has been
enabled: `enableHook` has pushed it onto the collection that the loop is iterating. -/
theorem enable_undefined (env : Env) (n : Nat) (i : ModId) (w : World) (h : Hook)
    (rest : List Hook) (hl : (w.mods i).m_binaryLoaded = true)
    (hh : (w.mods i).m_hooks = h :: rest) (hok : isOk (env.hookEnable w.trace h) = true) :
    ∃ w' r, enable env (n + 1) i w = some (w', r) ∧ w'.undefined = true := by
  have hu := ((enableHooks_undefined env i (w.mods i).m_hooks w).2 h rest hh).2 hok
  rw [enable]
  simp only [hl, Bool.not_true, Bool.false_eq_true, if_false]
  rcases hr : enableHooks env i (w.mods i).m_hooks w with ⟨w1, r1⟩
  rw [hr] at hu
  simp only at hu
  cases r1 with
  | error e => exact ⟨_, _, rfl, hu⟩
  | ok u =>
    simp only
    have hp := applyPatches_undefined env (w1.mods i).m_patches w1
    rcases hq : applyPatches env (w1.mods i).m_patches w1 with ⟨w2, r2⟩
    rw [hq] at hp
    simp only at hp
    cases r2 with
    | error e => exact ⟨_, _, rfl, hp.trans hu⟩
    | ok u2 => exact ⟨_, _, rfl, hp.trans hu⟩

/-- On a loaded mod without hooks, `enable` does nothing that C++ leaves undefined. -/
theorem enable_no_hooks_defined (env : Env) (n : Nat) (i : ModId) (w : World)
    (hl : (w.mods i).m_binaryLoaded = true) (hh : (w.mods i).m_hooks = []) :
    ∃ w' r, enable env (n + 1) i w = some (w', r) ∧ w'.undefined = w.undefined := by
  rw [enable]
  simp only [hl, Bool.not_true, Bool.false_eq_true, if_false, hh, enableHooks]
  have hp := applyPatches_undefined env (w.mods i).m_patches w
  rcases hq : applyPatches env (w.mods i).m_patches w with ⟨w2, r2⟩
  rw [hq] at hp
  simp only at hp
  cases r2 with
  | error e => exact ⟨_, _, rfl, hp⟩
  | ok u2 => exact ⟨_, _, rfl, hp⟩

/-- C10 (failing input): mod A is loaded and disabled and owns the hooks 1 and 2, each
once; every hook can be enabled. This is the state of A after `loadBinary`, `addHook` of
hook 1 and of hook 2, and `disable`, a run whose behaviour is defined. `enable` enables
hook 1, and `enableHook` pushes hook 1 onto the collection, now 1, 2, 1, that the loop of
`enable` is still iterating. From there on the behaviour of the run is undefined: there
is no defined result "success with enabled = true". -/
theorem enable_invalidates_hook_iteration :
    (loadBinary envOk 16 "A" worldSolo).map
        (fun r => (r.2,
          (disable envOk "A" (addHook envOk "A" 2 (addHook envOk "A" 1 r.1).1).1).1.mods "A",
          (disable envOk "A" (addHook envOk "A" 2 (addHook envOk "A" 1 r.1).1).1).1.undefined)) =
      some (.ok (), (worldLoadedDisabled [1, 2] []).mods "A", false) ∧
    ((worldLoadedDisabled [1, 2] []).mods "A").m_binaryLoaded = true ∧
    ((worldLoadedDisabled [1, 2] []).mods "A").m_enabled = false ∧
    ((worldLoadedDisabled [1, 2] []).mods "A").m_hooks = [1, 2] ∧
    (worldLoadedDisabled [1, 2] []).undefined = false ∧
    (((enableHook envOk "A" 1 (worldLoadedDisabled [1, 2] [])).1.mods "A").m_hooks,
      (enableHook envOk "A" 1 (worldLoadedDisabled [1, 2] [])).2) = ([1, 2, 1], .ok ()) ∧
    (enable envOk 1 "A" (worldLoadedDisabled [1, 2] [])).map (fun r => r.1.undefined) =
      some true :=
  ⟨rfl, rfl, rfl, rfl, rfl, rfl, rfl⟩

/-! ## Patches restore the original bytes (C7) -/

theorem readMemory_writeBytes (memory : Nat → Nat) (address : Nat) (data : List Nat) :
    readMemory (writeBytes memory address data) address data.length = data := by
  apply List.ext_getElem
  · simp [readMemory]
  · intro k h1 h2
    simp only [readMemory, List.getElem_map, List.getElem_range, writeBytes]
    have h3 : address ≤ address + k ∧ address + k < address + data.length := by omega
    rw [if_pos h3]
    simp [List.getD_eq_getElem?_getD, List.getElem?_eq_getElem h2]

theorem Patch.restore_memory (env : Env) (p : Patch) (w w1 : World)
    (h : p.restore env w = (w1, true)) :
    readMemory w1.memory p.m_address p.m_original.length = p.m_original := by
  unfold Patch.restore at h
  dsimp only at h
  simp only [Prod.mk.injEq] at h
  obtain ⟨h1, h2⟩ := h
  rw [h2] at h1
  simp only [if_true] at h1
  rw [← h1]
  exact readMemory_writeBytes _ _ _

theorem runPatchOps_append (env : Env) (p : Patch) : ∀ (ops ops' : List PatchOp) (w : World),
    runPatchOps env p (ops ++ ops') w =
      (runPatchOps env p ops w).bind (runPatchOps env p ops') := by
  intro ops
  induction ops with
  | nil => intro ops' w; rfl
  | cons op ops ih =>
    intro ops' w
    cases op with
    | apply =>
      simp only [List.cons_append, runPatchOps]
      rcases p.apply env w with ⟨w1, b⟩
      cases b
      · rfl
      · exact ih ops' w1
    | restore =>
      simp only [List.cons_append, runPatchOps]
      rcases p.restore env w with ⟨w1, b⟩
      cases b
      · rfl
      · exact ih ops' w1

theorem patch_ok (env : Env) (i : ModId) (address : Nat) (data : List Nat) (w w1 : World)
    (p : Patch) (h : patch env i address data w = (w1, .ok p)) :
    p.m_address = address ∧ p.m_original = readMemory w.memory address data.length := by
  unfold patch at h
  dsimp only at h
  split at h
  · simp at h
  · simp only [Prod.mk.injEq, Except.ok.injEq] at h
    rw [← h.2]
    exact ⟨rfl, rfl⟩

/-- C7: after `Mod::patch(address, data)` succeeds, any sequence of successful `apply()`
and `restore()` calls on the patch that ends with `restore()` leaves at
`[address, address + data.size())` the bytes that were there when `patch` was called.
The same holds when the sequence is followed by a successful `Mod::unpatch`. -/
theorem patch_restore_original (env : Env) (i : ModId) (address : Nat) (data : List Nat)
    (w w1 : World) (p : Patch) (h : patch env i address data w = (w1, .ok p)) :
    (∀ ops w2, runPatchOps env p (ops ++ [.restore]) w1 = some w2 →
      readMemory w2.memory address data.length = readMemory w.memory address data.length) ∧
    (∀ ops w2 w3, runPatchOps env p ops w1 = some w2 → unpatch env i p w2 = (w3, .ok ()) →
      readMemory w3.memory address data.length = readMemory w.memory address data.length) := by
  obtain ⟨ha, ho⟩ := patch_ok env i address data w w1 p h
  have hlen : p.m_original.length = data.length := by rw [ho]; simp [readMemory]
  constructor
  · intro ops w2 hr
    rw [runPatchOps_append] at hr
    rcases hops : runPatchOps env p ops w1 with _ | w'
    · simp [hops] at hr
    · simp only [hops, Option.some_bind, runPatchOps] at hr
      rcases hres : p.restore env w' with ⟨w'', b⟩
      rw [hres] at hr
      cases b
      · simp at hr
      · simp only [Option.some.injEq] at hr
        subst hr
        have := Patch.restore_memory env p w' w'' hres
        rw [ha, hlen] at this
        rw [this, ho]
  · intro ops w2 w3 _ hu
    unfold unpatch at hu
    rcases hres : p.restore env w2 with ⟨w'', b⟩
    rw [hres] at hu
    cases b
    · simp at hu
    · simp only [Prod.mk.injEq, and_true] at hu
      have := Patch.restore_memory env p w2 w'' hres
      rw [ha, hlen] at this
      rw [← hu]
      simpa [ho] using this

/-- C7 (witness): the bytes at 4096 are `[0x55, 0x8B]`; after `patch(4096, [0x90, 0x90])`
they are `[0x90, 0x90]`; after apply and restore, and also after restore, apply and
`unpatch`, they are `[0x55, 0x8B]` again. -/
theorem patch_restore_original_witness :
    readMemory worldPatch.memory 4096 2 = [85, 139] ∧
    readMemory worldPatched.memory 4096 2 = [144, 144] ∧
    patch envOk "A" 4096 [144, 144] worldPatch = (worldPatched, .ok patchNop) ∧
    readMemory ((runPatchOps envOk patchNop ([.apply] ++ [.restore]) worldPatched).getD
        worldPatched).memory 4096 [144, 144].length =
      readMemory worldPatch.memory 4096 [144, 144].length ∧
    readMemory (unpatch envOk "A" patchNop
        ((runPatchOps envOk patchNop [.restore, .apply] worldPatched).getD
          worldPatched)).1.memory 4096 [144, 144].length =
      readMemory worldPatch.memory 4096 [144, 144].length :=
  ⟨rfl, rfl, rfl,
    (patch_restore_original envOk "A" 4096 [144, 144] worldPatch worldPatched patchNop rfl).1
      [.apply] _ rfl,
    (patch_restore_original envOk "A" 4096 [144, 144] worldPatch worldPatched patchNop rfl).2
      [.restore, .apply] _ _ rfl rfl⟩

/-! ## Settings pass through a load and save cycle (C8) -/

theorem objGet_objSet (js : List (String × Json)) (a k : String) (x : Json) :
    objGet (objSet js a x) k = if a = k then some x else objGet js k := by
  induction js with
  | nil => simp [objSet, objGet]
  | cons kv js ih =>
    obtain ⟨k', v'⟩ := kv
    by_cases h : k' = a
    · subst h
      simp only [objSet, if_true, objGet]
      by_cases h' : k' = k <;> simp [h']
    · simp only [objSet, if_neg h, objGet, ih]
      by_cases h' : k' = k
      · subst h'
        simp [h, Ne.symm h]
      · simp [h']

theorem savePrevious_absent (covered : List String) (k : String) :
    ∀ (items js : List (String × Json)), k ∉ items.map Prod.fst →
      objGet (savePrevious covered items js) k = objGet js k := by
  intro items
  induction items with
  | nil => intro js _; rfl
  | cons kv items ih =>
    intro js hk
    obtain ⟨k', v'⟩ := kv
    simp only [List.map_cons, List.mem_cons, not_or] at hk
    simp only [savePrevious]
    split
    · exact ih js hk.2
    · rw [ih _ hk.2, objGet_objSet, if_neg (Ne.symm hk.1)]

theorem savePrevious_present (covered : List String) (k : String) (v : Json)
    (hk : k ∉ covered) :
    ∀ (items js : List (String × Json)), (items.map Prod.fst).Nodup →
      objGet items k = some v → objGet (savePrevious covered items js) k = some v := by
  intro items
  induction items with
  | nil => intro js _ h; simp [objGet] at h
  | cons kv items ih =>
    intro js hnd h
    obtain ⟨k', v'⟩ := kv
    simp only [List.map_cons, List.nodup_cons] at hnd
    simp only [objGet] at h
    by_cases hkk : k' = k
    · subst hkk
      simp only [if_true, Option.some.injEq] at h
      subst h
      simp only [savePrevious, if_neg hk]
      rw [savePrevious_absent covered k' items _ hnd.1, objGet_objSet, if_pos rfl]
    · rw [if_neg hkk] at h
      simp only [savePrevious]
      split
      · exact ih js hnd.2 h
      · exact ih _ hnd.2 h

theorem saveSettings_mods (env : Env) (i : ModId) :
    ∀ (keys : List String) (w : World) (js : List (String × Json)),
      (saveSettings env i keys w js).1.mods = w.mods := by
  intro keys
  induction keys with
  | nil => intro w js; rfl
  | cons key keys ih => intro w js; simp only [saveSettings, ih, World.log_mods]

theorem saveSettings_known (env : Env) (i : ModId) :
    ∀ (keys : List String) (w : World) (js : List (String × Json)),
      (saveSettings env i keys w js).1.known = w.known := by
  intro keys
  induction keys with
  | nil => intro w js; rfl
  | cons key keys ih => intro w js; simp only [saveSettings, ih, World.log_known]

theorem saveSettings_trace (env : Env) (i : ModId) :
    ∀ (keys : List String) (w : World) (js : List (String × Json)),
      ∃ ext, (saveSettings env i keys w js).1.trace = w.trace ++ ext := by
  intro keys
  induction keys with
  | nil => intro w js; exact ⟨[], by simp [saveSettings]⟩
  | cons key keys ih =>
    intro w js
    obtain ⟨ext, h⟩ := ih (w.log (.settingSave i key
      (env.settingSave w.trace i key ((objGet js key).getD Json.null)).1))
      (objSet js key (env.settingSave w.trace i key ((objGet js key).getD Json.null)).2)
    exact ⟨Effect.settingSave i key
      (env.settingSave w.trace i key ((objGet js key).getD Json.null)).1 :: ext,
      by simp only [saveSettings, h, World.log_trace, List.append_assoc, List.singleton_append]⟩

theorem settingsJson_trace (env : Env) (i : ModId) (w : World) :
    ∃ ext, (settingsJson env i w).1.trace = w.trace ++ ext := by
  obtain ⟨ext, h⟩ := saveSettings_trace env i ((w.log (.event i .DataSaved)).mods i).m_settings
    (w.log (.event i .DataSaved)) []
  exact ⟨Effect.event i .DataSaved :: ext, by
    simp only [settingsJson, h, World.log_trace, List.append_assoc, List.singleton_append]⟩

theorem settingsJson_snd (env : Env) (i : ModId) (w : World) :
    (settingsJson env i w).2 =
      .object (savePrevious (w.mods i).m_settings (w.mods i).m_savedSettingsData.items
        (saveSettings env i (w.mods i).m_settings (w.log (.event i .DataSaved)) []).2) := by
  simp only [settingsJson, saveSettings_mods, World.log_mods]

theorem saveData_trace (env : Env) (i : ModId) (w : World) :
    ∃ ok e2, (saveData env i w).1.trace =
      (settingsJson env i w).1.trace ++
        [.writeString (pathJoin (w.mods i).m_saveDirPath "settings.json")
          (env.dump (settingsJson env i w).2) ok] ++ [e2] := by
  have h : ((settingsJson env i w).1.mods i).m_saveDirPath = (w.mods i).m_saveDirPath := by
    simp only [settingsJson, saveSettings_mods, World.log_mods]
  rw [← h]
  exact ⟨_, _, rfl⟩

theorem settingsJson_mods (env : Env) (i : ModId) (w : World) :
    (settingsJson env i w).1.mods = w.mods := by
  simp [settingsJson, saveSettings_mods]

theorem settingsJson_known (env : Env) (i : ModId) (w : World) :
    (settingsJson env i w).1.known = w.known := by
  simp [settingsJson, saveSettings_known]

theorem saveData_mods (env : Env) (i : ModId) (w : World) :
    (saveData env i w).1.mods = w.mods := by
  simp [saveData, settingsJson_mods]

theorem saveData_known (env : Env) (i : ModId) (w : World) :
    (saveData env i w).1.known = w.known := by
  simp [saveData, settingsJson_known]

theorem loadSettings_mods (env : Env) (i : ModId) :
    ∀ (items : List (String × Json)) (w : World), (loadSettings env i items w).mods = w.mods := by
  intro items
  induction items with
  | nil => intro w; rfl
  | cons kv items ih =>
    intro w
    obtain ⟨k, v⟩ := kv
    simp only [loadSettings]
    split
    · rw [ih]; rfl
    · exact ih w

/-- After `loadSavedFile` the fields of the mod that `saveData` reads for
`settings.json` are what they were. -/
theorem loadSavedFile_settings (env : Env) (i : ModId) (w : World) :
    ((loadSavedFile env i w).1.mods i).m_savedSettingsData = (w.mods i).m_savedSettingsData ∧
    ((loadSavedFile env i w).1.mods i).m_settings = (w.mods i).m_settings ∧
    ((loadSavedFile env i w).1.mods i).m_saveDirPath = (w.mods i).m_saveDirPath := by
  unfold loadSavedFile
  dsimp only
  split
  · split
    · exact ⟨rfl, rfl, rfl⟩
    · split
      · exact ⟨rfl, rfl, rfl⟩
      · simp
  · exact ⟨rfl, rfl, rfl⟩

/-- When `settings.json` exists, can be read and parses to `json`, `loadData` leaves
`json` in `m_savedSettingsData`, whatever the setting handlers and `saved.json` do. -/
theorem loadData_savedSettingsData (env : Env) (i : ModId) (w : World) (text : String)
    (json : Json)
    (hex : env.fileExists (w.trace ++ [.event i .DataLoaded])
      (pathJoin (w.mods i).m_saveDirPath "settings.json") = true)
    (hrd : env.readString (w.trace ++ [.event i .DataLoaded,
        .fileExists (pathJoin (w.mods i).m_saveDirPath "settings.json") true])
      (pathJoin (w.mods i).m_saveDirPath "settings.json") = .ok text)
    (hparse : env.parse text = .ok json) :
    ((loadData env i w).1.mods i).m_savedSettingsData = json ∧
    ((loadData env i w).1.mods i).m_settings = (w.mods i).m_settings ∧
    ((loadData env i w).1.mods i).m_saveDirPath = (w.mods i).m_saveDirPath := by
  have h1 : loadSettingsFile env i (w.log (.event i .DataLoaded)) =
      (loadSettings env i (rootItems json)
        (((w.log (.event i .DataLoaded)).log
          (.fileExists (pathJoin (w.mods i).m_saveDirPath "settings.json") true)).log
          (.readString (pathJoin (w.mods i).m_saveDirPath "settings.json") true) |>.modify i
            (fun m => { m with m_savedSettingsData := json })), .ok ()) := by
    unfold loadSettingsFile
    simp only [World.log_mods, World.log_trace, hex, if_true, List.append_assoc,
      List.singleton_append, hrd, hparse, isOk]
  unfold loadData
  rw [h1]
  dsimp only
  obtain ⟨a, b, c⟩ := loadSavedFile_settings env i (loadSettings env i (rootItems json)
    (((w.log (.event i .DataLoaded)).log
      (.fileExists (pathJoin (w.mods i).m_saveDirPath "settings.json") true)).log
      (.readString (pathJoin (w.mods i).m_saveDirPath "settings.json") true) |>.modify i
        (fun m => { m with m_savedSettingsData := json })))
  rw [a, b, c, loadSettings_mods]
  simp

/-- C8: let `settings.json` exist, be readable and parse to an object `J` without
repeated keys, and let `k` be a key of `J`, with value `v`, for which no setting value
is registered. Then `saveData` run after `loadData` hands to `writeString`, for
`settings.json`, the dump of an object that maps `k` to `v`. -/
theorem settings_passthrough (env : Env) (i : ModId) (w : World) (text : String)
    (J : List (String × Json)) (k : String) (v : Json)
    (hex : env.fileExists (w.trace ++ [.event i .DataLoaded])
      (pathJoin (w.mods i).m_saveDirPath "settings.json") = true)
    (hrd : env.readString (w.trace ++ [.event i .DataLoaded,
        .fileExists (pathJoin (w.mods i).m_saveDirPath "settings.json") true])
      (pathJoin (w.mods i).m_saveDirPath "settings.json") = .ok text)
    (hparse : env.parse text = .ok (.object J))
    (hnodup : (J.map Prod.fst).Nodup)
    (hk : objGet J k = some v)
    (hreg : k ∉ (w.mods i).m_settings) :
    ∃ obj ok pre post, objGet obj k = some v ∧
      (saveData env i (loadData env i w).1).1.trace =
        (loadData env i w).1.trace ++ pre ++
          [.writeString (pathJoin (w.mods i).m_saveDirPath "settings.json")
            (env.dump (.object obj)) ok] ++ post := by
  obtain ⟨hs, hset, hdir⟩ := loadData_savedSettingsData env i w text (.object J) hex hrd hparse
  obtain ⟨ok, e2, ht⟩ := saveData_trace env i (loadData env i w).1
  obtain ⟨ext, hext⟩ := settingsJson_trace env i (loadData env i w).1
  rw [hext, settingsJson_snd, hs, hset, hdir] at ht
  exact ⟨_, ok, ext, [e2], savePrevious_present _ k v hreg J _ hnodup hk, ht⟩

/-- C8 (witness): `settings.json` holds the keys "volume" (a registered setting) and
"stale" (not registered); after `loadData` and `saveData` the written object still maps
"stale" to its value. -/
theorem settings_passthrough_witness :
    ∃ obj ok pre post, objGet obj "stale" = some (.string "kept") ∧
      (saveData envSettings "A" (loadData envSettings "A" (worldLoaded [] [])).1).1.trace =
        (loadData envSettings "A" (worldLoaded [] [])).1.trace ++ pre ++
          [.writeString (pathJoin ((worldLoaded [] []).mods "A").m_saveDirPath "settings.json")
            (envSettings.dump (.object obj)) ok] ++ post :=
  settings_passthrough envSettings "A" (worldLoaded [] []) "text"
    [("volume", .number 3), ("stale", .string "kept")] "stale" (.string "kept")
    rfl rfl rfl (by decide) rfl (by decide)

/-! ## Elementary changes: soft changes -/

theorem SoftOn.soft_refl (i : ModId) (w : World) : SoftOn i w w :=
  ⟨rfl, fun _ _ => rfl, rfl, rfl, rfl, fun _ => ⟨rfl, rfl⟩⟩

theorem SoftOn.of_mods (i : ModId) (w w' : World) (hm : w'.mods = w.mods)
    (hk : w'.known = w.known) : SoftOn i w w' := by
  refine ⟨hk, fun j _ => by rw [hm], ?_, ?_, ?_, fun _ => ⟨?_, ?_⟩⟩ <;> rw [hm]

theorem SoftOn.soft_trans {i : ModId} {w w' w'' : World} (h : SoftOn i w w') (h' : SoftOn i w' w'') :
    SoftOn i w w'' := by
  obtain ⟨a1, a2, a3, a4, a5, a6⟩ := h
  obtain ⟨b1, b2, b3, b4, b5, b6⟩ := h'
  refine ⟨b1.trans a1, fun j hj => (b2 j hj).trans (a2 j hj), b3.trans a3, b4.trans a4,
    b5.trans a5, fun hl => ?_⟩
  obtain ⟨c1, c2⟩ := a6 hl
  obtain ⟨d1, d2⟩ := b6 (a4.trans hl)
  exact ⟨d1.trans c1, d2.trans c2⟩

theorem SoftOn.info {i : ModId} {w w' : World} (h : SoftOn i w w') (j : ModId) :
    (w'.mods j).m_info = (w.mods j).m_info := by
  by_cases hj : j = i
  · subst hj; exact h.2.2.1
  · rw [h.2.1 j hj]

theorem SoftOn.loaded {i : ModId} {w w' : World} (h : SoftOn i w w') (j : ModId) :
    (w'.mods j).m_binaryLoaded = (w.mods j).m_binaryLoaded := by
  by_cases hj : j = i
  · subst hj; exact h.2.2.2.1
  · rw [h.2.1 j hj]

theorem SoftOn.enabled {i : ModId} {w w' : World} (h : SoftOn i w w') (j : ModId) :
    (w'.mods j).m_enabled = (w.mods j).m_enabled := by
  by_cases hj : j = i
  · subst hj; exact h.2.2.2.2.1
  · rw [h.2.1 j hj]

theorem SoftOn.unresolved {i : ModId} {w w' : World} (h : SoftOn i w w') (j : ModId) :
    hasUnresolvedDependencies w' j = hasUnresolvedDependencies w j :=
  hasUnresolvedDependencies_congr w w' j h.info

theorem SoftOn.step {i : ModId} {w w' : World} (h : SoftOn i w w') : PassStep w w' :=
  ⟨h.1, i, h.2.1, .soft h.2.2.1 h.2.2.2.1 h.2.2.2.2.1 h.2.2.2.2.2⟩

theorem SoftOn.steps {i : ModId} {w w' : World} (h : SoftOn i w w') : PassSteps w w' :=
  Relation.ReflTransGen.single h.step

theorem PassSteps.steps_refl (w : World) : PassSteps w w := Relation.ReflTransGen.refl

theorem PassSteps.steps_trans {w w' w'' : World} (h : PassSteps w w') (h' : PassSteps w' w'') :
    PassSteps w w'' := Relation.ReflTransGen.trans h h'

/-- A change of the state of mod `i` that satisfies `SoftOn`. -/
theorem SoftOn.soft_modify (i : ModId) (w : World) (f : Mod → Mod)
    (hi : (f (w.mods i)).m_info = (w.mods i).m_info)
    (hl : (f (w.mods i)).m_binaryLoaded = (w.mods i).m_binaryLoaded)
    (he : (f (w.mods i)).m_enabled = (w.mods i).m_enabled)
    (ho : (w.mods i).m_binaryLoaded = false →
      (f (w.mods i)).m_hooks = (w.mods i).m_hooks ∧
      (f (w.mods i)).m_patches = (w.mods i).m_patches) :
    SoftOn i w (w.modify i f) := by
  refine ⟨rfl, fun j hj => World.modify_other _ _ _ _ hj, ?_, ?_, ?_, ?_⟩
  · rw [World.modify_self]; exact hi
  · rw [World.modify_self]; exact hl
  · rw [World.modify_self]; exact he
  · rw [World.modify_self]; exact ho

/-! ## Elementary changes: what they preserve -/

theorem DepsGrow.grow_refl (w : World) (ds : List Dependency) : DepsGrow w ds ds :=
  ⟨rfl, fun _ d h => ⟨d, h, rfl, rfl, Or.inl rfl⟩⟩

/-- A dependency with a cached mod is never changed. -/
theorem DepsGrow.keep {w : World} {ds ds' : List Dependency} (h : DepsGrow w ds ds') (k : Nat)
    (d : Dependency) (hk : ds[k]? = some d) (hm : d.mod ≠ none) : ds'[k]? = some d := by
  obtain ⟨d', h1, h2, h3, h4⟩ := h.2 k d hk
  rw [h1]
  have h5 : d'.mod = d.mod := by
    rcases h4 with h4 | ⟨h4, -⟩
    · exact h4
    · exact absurd h4 hm
  cases d; cases d'
  simp only at h2 h3 h5
  simp [h2, h3, h5]

theorem ModStep.mod_version {w : World} {i : ModId} {m m' : Mod} (h : ModStep w i m m') :
    m'.m_info.version = m.m_info.version := by
  cases h with
  | soft hi => rw [hi]
  | resolve hv => exact hv
  | load hi => rw [hi]
  | unload hi => rw [hi]
  | enable hi => rw [hi]
  | disable hi => rw [hi]

theorem ModStep.mod_deps {w : World} {i : ModId} {m m' : Mod} (h : ModStep w i m m') :
    DepsGrow w m.m_info.dependencies m'.m_info.dependencies := by
  cases h with
  | soft hi => rw [hi]; exact DepsGrow.grow_refl _ _
  | resolve _ _ _ hd => exact hd
  | load hi => rw [hi]; exact DepsGrow.grow_refl _ _
  | unload hi => rw [hi]; exact DepsGrow.grow_refl _ _
  | enable hi => rw [hi]; exact DepsGrow.grow_refl _ _
  | disable hi => rw [hi]; exact DepsGrow.grow_refl _ _

theorem PassStep.step_version {w w' : World} (h : PassStep w w') (j : ModId) :
    (w'.mods j).m_info.version = (w.mods j).m_info.version := by
  obtain ⟨-, i, ho, hs⟩ := h
  by_cases hj : j = i
  · subst hj; exact hs.mod_version
  · rw [ho j hj]

theorem PassStep.step_deps {w w' : World} (h : PassStep w w') (j : ModId) :
    DepsGrow w (w.mods j).m_info.dependencies (w'.mods j).m_info.dependencies := by
  obtain ⟨-, i, ho, hs⟩ := h
  by_cases hj : j = i
  · subst hj; exact hs.mod_deps
  · rw [ho j hj]; exact DepsGrow.grow_refl _ _

theorem PassStep.isResolved {w w' : World} (h : PassStep w w') (d : Dependency) :
    d.isResolved w' = d.isResolved w := by
  unfold Dependency.isResolved
  cases d.mod with
  | none => rfl
  | some j => simp only [h.step_version j]

theorem Dependency.isResolved_mod (w : World) (d : Dependency) (h : d.isResolved w = true) :
    d.mod ≠ none := by
  unfold Dependency.isResolved at h
  intro hn
  rw [hn] at h
  cases h

/-- A resolved dependency stays as it is, and stays resolved. -/
theorem PassStep.depAt_keep {w w' : World} (h : PassStep w w') (j : ModId) (k : Nat)
    (d : Dependency) (hk : depAt w j k = some d) (hr : d.isResolved w = true) :
    depAt w' j k = some d ∧ d.isResolved w' = true :=
  ⟨(h.step_deps j).keep k d hk (d.isResolved_mod w hr), by rw [h.isResolved d]; exact hr⟩

theorem PassStep.step_depResolved_mono {w w' : World} (h : PassStep w w') (j : ModId) (k : Nat)
    (hr : depResolved w j k = true) : depResolved w' j k = true := by
  unfold depResolved at hr ⊢
  cases hk : depAt w j k with
  | none =>
    have : depAt w' j k = none := by
      unfold depAt at hk ⊢
      rw [List.getElem?_eq_none_iff] at hk ⊢
      rw [(h.step_deps j).1]; exact hk
    rw [this]
  | some d =>
    rw [hk] at hr
    simp only at hr
    obtain ⟨h1, h2⟩ := h.depAt_keep j k d hk hr
    rw [h1]; exact h2

theorem hasUnresolvedDependencies_eq_false_iff (w : World) (j : ModId) :
    hasUnresolvedDependencies w j = false ↔
      ∀ k, k < (w.mods j).m_info.dependencies.length → depResolved w j k = true := by
  unfold hasUnresolvedDependencies depResolved depAt
  rw [List.any_eq_false]
  constructor
  · intro h k hk
    rw [List.getElem?_eq_getElem hk]
    simpa using h _ (List.getElem_mem hk)
  · intro h d hd
    obtain ⟨k, hk, rfl⟩ := List.getElem_of_mem hd
    have := h k hk
    rw [List.getElem?_eq_getElem hk] at this
    simpa using this

theorem PassStep.step_unresolved_mono {w w' : World} (h : PassStep w w') (j : ModId)
    (hr : hasUnresolvedDependencies w j = false) : hasUnresolvedDependencies w' j = false := by
  rw [hasUnresolvedDependencies_eq_false_iff] at hr ⊢
  intro k hk
  rw [(h.step_deps j).1] at hk
  exact h.step_depResolved_mono j k (hr k hk)

theorem depResolved_false_unresolved (w : World) (i : ModId) (k : Nat)
    (h : depResolved w i k = false) : hasUnresolvedDependencies w i = true := by
  cases hu : hasUnresolvedDependencies w i with
  | true => rfl
  | false =>
    rw [hasUnresolvedDependencies_eq_false_iff] at hu
    by_cases hk : k < (w.mods i).m_info.dependencies.length
    · rw [hu k hk] at h; cases h
    · unfold depResolved depAt at h
      rw [List.getElem?_eq_none_iff.mpr (Nat.le_of_not_lt hk)] at h
      cases h

/-! ## Dependencies that cannot be resolved -/

theorem Dependency.permUnres_isResolved (w : World) (d : Dependency)
    (h : d.permUnres w = true) : d.isResolved w = false := by
  unfold Dependency.permUnres at h
  unfold Dependency.isResolved
  cases hm : d.mod with
  | none => rfl
  | some j => rw [hm] at h; simpa using h

theorem getLoadedMod_congr (w w' : World) (h : w'.known = w.known) (id : ModId) :
    getLoadedMod w' id = getLoadedMod w id := by
  unfold getLoadedMod; rw [h]

theorem PassStep.step_permUnres {w w' : World} (h : PassStep w w') (d : Dependency) :
    d.permUnres w' = d.permUnres w := by
  unfold Dependency.permUnres
  rw [getLoadedMod_congr w w' h.1]
  cases d.mod with
  | some j => simp only [h.step_version j]
  | none =>
    simp only
    cases getLoadedMod w d.id with
    | none => rfl
    | some j => simp only [h.step_version j]

/-- Whether a dependency can be resolved is not changed by the elementary changes. -/
theorem PassStep.step_depPermUnres {w w' : World} (h : PassStep w w') (j : ModId) (k : Nat) :
    depPermUnres w' j k = depPermUnres w j k := by
  unfold depPermUnres
  cases hk : depAt w j k with
  | none =>
    have : depAt w' j k = none := by
      unfold depAt at hk ⊢
      rw [List.getElem?_eq_none_iff] at hk ⊢
      rw [(h.step_deps j).1]; exact hk
    rw [this]
  | some d =>
    obtain ⟨d', h1, h2, h3, h4⟩ := (h.step_deps j).2 k d hk
    have h1' : depAt w' j k = some d' := h1
    rw [h1']
    simp only
    rw [h.step_permUnres d']
    rcases h4 with h4 | ⟨h4, m, h5, h6, h7⟩
    · have : d' = d := by
        cases d; cases d'
        simp only at h2 h3 h4
        simp [h2, h3, h4]
      rw [this]
    · unfold Dependency.permUnres
      rw [h5, h4, h6, h3]

theorem hasPermUnres_iff (w : World) (j : ModId) :
    hasPermUnres w j = true ↔ ∃ k, depPermUnres w j k = true := by
  unfold hasPermUnres depPermUnres depAt
  rw [List.any_eq_true]
  constructor
  · rintro ⟨d, hd, hp⟩
    obtain ⟨k, hk, rfl⟩ := List.getElem_of_mem hd
    exact ⟨k, by rw [List.getElem?_eq_getElem hk]; exact hp⟩
  · rintro ⟨k, hk⟩
    cases hd : (w.mods j).m_info.dependencies[k]? with
    | none => rw [hd] at hk; cases hk
    | some d => rw [hd] at hk; exact ⟨d, List.getElem?_mem hd, hk⟩

theorem PassStep.step_hasPermUnres {w w' : World} (h : PassStep w w') (j : ModId) :
    hasPermUnres w' j = hasPermUnres w j := by
  rw [Bool.eq_iff_iff, hasPermUnres_iff, hasPermUnres_iff]
  constructor <;> rintro ⟨k, hk⟩ <;> refine ⟨k, ?_⟩
  · rw [← h.step_depPermUnres j k]; exact hk
  · rw [h.step_depPermUnres j k]; exact hk

theorem PassSteps.steps_depPermUnres {w w' : World} (h : PassSteps w w') (j : ModId) (k : Nat) :
    depPermUnres w' j k = depPermUnres w j k := by
  induction h with
  | refl => rfl
  | tail _ hbc ih => exact (hbc.step_depPermUnres j k).trans ih

theorem PassSteps.steps_hasPermUnres {w w' : World} (h : PassSteps w w') (j : ModId) :
    hasPermUnres w' j = hasPermUnres w j := by
  induction h with
  | refl => rfl
  | tail _ hbc ih => exact (hbc.step_hasPermUnres j).trans ih

theorem SoftOn.permUnres {i : ModId} {w w' : World} (h : SoftOn i w w') (j : ModId) :
    hasPermUnres w' j = hasPermUnres w j :=
  h.step.step_hasPermUnres j

theorem depPermUnres_depResolved (w : World) (i : ModId) (k : Nat)
    (h : depPermUnres w i k = true) : depResolved w i k = false := by
  unfold depPermUnres at h
  unfold depResolved
  cases hd : depAt w i k with
  | none => rw [hd] at h; cases h
  | some d => rw [hd] at h; exact d.permUnres_isResolved w h

theorem hasPermUnres_unresolved (w : World) (i : ModId) (h : hasPermUnres w i = true) :
    hasUnresolvedDependencies w i = true := by
  obtain ⟨k, hk⟩ := (hasPermUnres_iff w i).1 h
  exact depResolved_false_unresolved w i k (depPermUnres_depResolved w i k hk)

theorem PassSteps.known {w w' : World} (h : PassSteps w w') : w'.known = w.known := by
  induction h with
  | refl => rfl
  | tail _ hbc ih => exact hbc.1.trans ih

theorem PassSteps.steps_version {w w' : World} (h : PassSteps w w') (j : ModId) :
    (w'.mods j).m_info.version = (w.mods j).m_info.version := by
  induction h with
  | refl => rfl
  | tail _ hbc ih => exact (hbc.step_version j).trans ih

theorem PassSteps.length {w w' : World} (h : PassSteps w w') (j : ModId) :
    (w'.mods j).m_info.dependencies.length = (w.mods j).m_info.dependencies.length := by
  induction h with
  | refl => rfl
  | tail _ hbc ih => exact (hbc.step_deps j).1.trans ih

theorem PassSteps.steps_depResolved_mono {w w' : World} (h : PassSteps w w') (j : ModId) (k : Nat)
    (hr : depResolved w j k = true) : depResolved w' j k = true := by
  induction h with
  | refl => exact hr
  | tail _ hbc ih => exact hbc.step_depResolved_mono j k ih

theorem PassSteps.steps_unresolved_mono {w w' : World} (h : PassSteps w w') (j : ModId)
    (hr : hasUnresolvedDependencies w j = false) : hasUnresolvedDependencies w' j = false := by
  induction h with
  | refl => exact hr
  | tail _ hbc ih => exact hbc.step_unresolved_mono j ih

/-- An unresolved dependency has been unresolved all along. -/
theorem PassSteps.unresolved_before {w w' : World} (h : PassSteps w w') (j : ModId)
    (hr : hasUnresolvedDependencies w' j = true) : hasUnresolvedDependencies w j = true := by
  cases hu : hasUnresolvedDependencies w j with
  | true => rfl
  | false => rw [h.steps_unresolved_mono j hu] at hr; cases hr

/-- The registry invariant is preserved: a mod is only loaded when all its dependencies
are resolved, and resolved dependencies stay resolved. -/
theorem PassStep.step_loadedResolved {w w' : World} (h : PassStep w w') (hw : LoadedResolved w) :
    LoadedResolved w' := by
  intro j hj
  obtain ⟨-, i, ho, hs⟩ := id h
  by_cases hji : j = i
  · subst hji
    cases hs with
    | soft _ hl => exact h.step_unresolved_mono j (hw j (hl ▸ hj))
    | resolve _ _ _ _ hl => exact h.step_unresolved_mono j (hw j (hl ▸ hj))
    | load _ _ _ _ hu => exact h.step_unresolved_mono j hu
    | unload _ _ _ _ _ _ _ hl => rw [hl] at hj; cases hj
    | enable _ hl => exact h.step_unresolved_mono j (hw j hl)
    | disable _ hl => exact h.step_unresolved_mono j (hw j (hl ▸ hj))
  · rw [ho j hji] at hj
    exact h.step_unresolved_mono j (hw j hj)

theorem PassSteps.steps_loadedResolved {w w' : World} (h : PassSteps w w') (hw : LoadedResolved w) :
    LoadedResolved w' := by
  induction h with
  | refl => exact hw
  | tail _ hbc ih => exact hbc.step_loadedResolved ih

/-- A mod that is disabled and not loaded stays so, and gets no hooks or patches. -/
theorem PassStep.step_unloaded_stays {w w' : World} (h : PassStep w w') (j : ModId)
    (he : (w.mods j).m_enabled = false) (hl : (w.mods j).m_binaryLoaded = false) :
    (w'.mods j).m_enabled = false ∧ (w'.mods j).m_binaryLoaded = false ∧
    (w'.mods j).m_hooks = (w.mods j).m_hooks ∧ (w'.mods j).m_patches = (w.mods j).m_patches := by
  obtain ⟨-, i, ho, hs⟩ := h
  by_cases hji : j = i
  · subst hji
    cases hs with
    | soft _ hl' he' hh => exact ⟨he'.trans he, hl'.trans hl, (hh hl).1, (hh hl).2⟩
    | resolve _ _ _ _ hl' he' hh hp => exact ⟨he'.trans he, hl'.trans hl, hh, hp⟩
    | load _ _ he' => rw [he] at he'; cases he'
    | unload _ _ hl0 => rw [hl] at hl0; cases hl0
    | enable _ hl' => rw [hl] at hl'; cases hl'
    | disable _ hl' he' hh hp => exact ⟨he', hl'.trans hl, hh, hp⟩
  · rw [ho j hji]; exact ⟨he, hl, rfl, rfl⟩

theorem PassSteps.steps_unloaded_stays {w w' : World} (h : PassSteps w w') (j : ModId)
    (he : (w.mods j).m_enabled = false) (hl : (w.mods j).m_binaryLoaded = false) :
    (w'.mods j).m_enabled = false ∧ (w'.mods j).m_binaryLoaded = false ∧
    (w'.mods j).m_hooks = (w.mods j).m_hooks ∧ (w'.mods j).m_patches = (w.mods j).m_patches := by
  induction h with
  | refl => exact ⟨he, hl, rfl, rfl⟩
  | tail _ hbc ih =>
    obtain ⟨a, b, c, d⟩ := hbc.step_unloaded_stays j ih.1 ih.2.1
    exact ⟨a, b, c.trans ih.2.2.1, d.trans ih.2.2.2⟩

/-- A loaded mod whose dependencies are all resolved stays loaded. -/
theorem PassStep.step_loaded_stays {w w' : World} (h : PassStep w w') (j : ModId)
    (hl : (w.mods j).m_binaryLoaded = true) (hu : hasUnresolvedDependencies w j = false) :
    (w'.mods j).m_binaryLoaded = true := by
  obtain ⟨-, i, ho, hs⟩ := h
  by_cases hji : j = i
  · subst hji
    cases hs with
    | soft _ hl' => exact hl'.trans hl
    | resolve _ _ _ _ hl' => exact hl'.trans hl
    | load _ _ _ _ _ hl' => exact hl'
    | unload _ hu' => rw [hasPermUnres_unresolved _ _ hu'] at hu; cases hu
    | enable _ _ hl' => exact hl'
    | disable _ hl' => exact hl'.trans hl
  · rw [ho j hji]; exact hl

theorem PassSteps.steps_loaded_stays {w w' : World} (h : PassSteps w w') (j : ModId)
    (hl : (w.mods j).m_binaryLoaded = true) (hu : hasUnresolvedDependencies w j = false) :
    (w'.mods j).m_binaryLoaded = true := by
  induction h with
  | refl => exact hl
  | tail hab hbc ih => exact hbc.step_loaded_stays j ih (PassSteps.steps_unresolved_mono hab j hu)

/-- A mod that is not loaded and still has an unresolved dependency at the end was never
loaded in between. -/
theorem PassSteps.not_loaded_stays {w w' : World} (h : PassSteps w w') (j : ModId)
    (hl : (w.mods j).m_binaryLoaded = false) (hu : hasUnresolvedDependencies w' j = true) :
    (w'.mods j).m_binaryLoaded = false := by
  induction h with
  | refl => exact hl
  | tail hab hbc ih =>
    have hub := PassSteps.unresolved_before (Relation.ReflTransGen.single hbc) j hu
    have hlb := ih hub
    obtain ⟨-, i, ho, hs⟩ := hbc
    by_cases hji : j = i
    · subst hji
      cases hs with
      | soft _ hl' => exact hl'.trans hlb
      | resolve _ _ _ _ hl' => exact hl'.trans hlb
      | load _ _ _ _ hu' => rw [hub] at hu'; cases hu'
      | unload _ _ _ _ _ _ _ hl' => exact hl'
      | enable _ hl' => rw [hlb] at hl'; cases hl'
      | disable _ hl' => exact hl'.trans hlb
    · rw [ho j hji]; exact hlb

/-! ## The operations as sequences of elementary changes -/

theorem createTempDir_soft (env : Env) (i : ModId) (w : World) :
    SoftOn i w (createTempDir env i w).1 := by
  obtain ⟨h1, -, -, -, h5, ⟨p, hp⟩, -⟩ := createTempDir_frame env i w
  refine ⟨h1, h5, ?_, ?_, ?_, fun _ => ⟨?_, ?_⟩⟩ <;> rw [hp]

theorem enableHook_soft (env : Env) (i : ModId) (h : Hook) (w : World)
    (hl : (w.mods i).m_binaryLoaded = true) : SoftOn i w (enableHook env i h w).1 := by
  rcases hr : env.hookEnable w.trace h with e | u
  · rw [enableHook_error env i h w e hr]
    exact SoftOn.of_mods i _ _ rfl rfl
  · rw [enableHook_ok env i h w u hr]
    exact (SoftOn.of_mods i w (w.log (.hookEnable h true)) rfl rfl).soft_trans
      (SoftOn.soft_modify i _ _ rfl rfl rfl (fun h' => by
        rw [World.log_mods, hl] at h'; cases h'))

theorem enableHooks_soft (env : Env) (i : ModId) : ∀ (hs : List Hook) (w : World),
    (w.mods i).m_binaryLoaded = true → SoftOn i w (enableHooks env i hs w).1 := by
  intro hs
  induction hs with
  | nil => intro w _; exact SoftOn.soft_refl i w
  | cons h hs ih =>
    intro w hl
    have h1 := enableHook_soft env i h w hl
    rcases hh : enableHook env i h w with ⟨w1, r⟩
    rw [hh] at h1
    cases r with
    | error e => simpa [enableHooks, hh] using h1
    | ok u =>
      simp only [enableHooks, hh]
      have h2 : SoftOn i w1 { w1 with undefined := true } := SoftOn.of_mods i _ _ rfl rfl
      exact (h1.soft_trans h2).soft_trans
        (ih { w1 with undefined := true } ((h1.loaded i).trans hl))

theorem patch_soft (env : Env) (i : ModId) (address : Nat) (data : List Nat) (w : World)
    (hl : (w.mods i).m_binaryLoaded = true) : SoftOn i w (patch env i address data w).1 := by
  unfold patch
  dsimp only
  have hm := Patch.apply_mods env
    { m_address := address, m_original := readMemory w.memory address data.length,
      m_owner := i, m_patch := data } w
  have hk := Patch.apply_known env
    { m_address := address, m_original := readMemory w.memory address data.length,
      m_owner := i, m_patch := data } w
  rcases hp : Patch.apply env
    { m_address := address, m_original := readMemory w.memory address data.length,
      m_owner := i, m_patch := data } w with ⟨w1, b⟩
  rw [hp] at hm hk
  simp only at hm hk
  cases b
  · exact SoftOn.of_mods i _ _ hm hk
  · exact (SoftOn.of_mods i w w1 hm hk).soft_trans
      (SoftOn.soft_modify i _ _ rfl rfl rfl (fun h' => by
        rw [hm, hl] at h'; cases h'))

theorem addHook_soft (env : Env) (i : ModId) (h : Hook) (w : World)
    (hl : (w.mods i).m_binaryLoaded = true) : SoftOn i w (addHook env i h w).1 := by
  unfold addHook
  split
  · have h1 := enableHook_soft env i h w hl
    rcases hh : enableHook env i h w with ⟨w1, r⟩
    rw [hh] at h1
    cases r with
    | error e => exact h1.soft_trans (SoftOn.of_mods i _ _ rfl rfl)
    | ok u => exact h1
  · exact SoftOn.of_mods i _ _ rfl rfl

theorem runCalls_soft (env : Env) (i : ModId) : ∀ (cs : List ModCall) (w : World),
    (w.mods i).m_binaryLoaded = true → SoftOn i w (runCalls env i cs w) := by
  intro cs
  induction cs with
  | nil => intro w _; exact SoftOn.soft_refl i w
  | cons c cs ih =>
    intro w hl
    cases c with
    | addHook h =>
      have h1 := addHook_soft env i h w hl
      exact h1.soft_trans (ih _ ((h1.loaded i).trans hl))
    | patch address data =>
      have h1 := patch_soft env i address data w hl
      exact h1.soft_trans (ih _ ((h1.loaded i).trans hl))

theorem disableHooks_mods (env : Env) : ∀ (hs : List Hook) (w : World),
    (disableHooks env hs w).1.mods = w.mods ∧ (disableHooks env hs w).1.known = w.known := by
  intro hs
  induction hs with
  | nil => intro w; exact ⟨rfl, rfl⟩
  | cons h hs ih =>
    intro w
    simp only [disableHooks, disableHook]
    cases env.hookDisable w.trace h with
    | error e => exact ⟨rfl, rfl⟩
    | ok u => exact ih _

theorem restorePatches_mods (env : Env) : ∀ (ps : List Patch) (w : World),
    (restorePatches env ps w).1.mods = w.mods ∧
    (restorePatches env ps w).1.known = w.known := by
  intro ps
  induction ps with
  | nil => intro w; exact ⟨rfl, rfl⟩
  | cons p ps ih =>
    intro w
    have hm := Patch.restore_mods env p w
    have hk := Patch.restore_known env p w
    rcases hp : p.restore env w with ⟨w1, b⟩
    rw [hp] at hm hk
    cases b
    · simpa [restorePatches, hp] using ⟨hm, hk⟩
    · simp only [restorePatches, hp]
      exact ⟨(ih w1).1.trans hm, (ih w1).2.trans hk⟩

/-- What `disable` changes: at most `m_enabled` of the mod, which is false after a
success. -/
theorem disable_frame (env : Env) (i : ModId) (w : World) :
    (disable env i w).1.known = w.known ∧
    (∀ j, j ≠ i → (disable env i w).1.mods j = w.mods j) ∧
    ((disable env i w).1.mods i).m_info = (w.mods i).m_info ∧
    ((disable env i w).1.mods i).m_binaryLoaded = (w.mods i).m_binaryLoaded ∧
    ((disable env i w).1.mods i).m_hooks = (w.mods i).m_hooks ∧
    ((disable env i w).1.mods i).m_patches = (w.mods i).m_patches ∧
    (((disable env i w).1.mods i).m_enabled = (w.mods i).m_enabled ∨
      ((disable env i w).1.mods i).m_enabled = false) ∧
    ((disable env i w).2 = .ok () → ((disable env i w).1.mods i).m_enabled = false) := by
  unfold disable
  split
  · next h =>
    refine ⟨rfl, fun _ _ => rfl, rfl, rfl, rfl, rfl, Or.inl rfl, fun _ => ?_⟩
    simpa using h
  · split
    · refine ⟨rfl, fun _ _ => rfl, rfl, rfl, rfl, rfl, Or.inl rfl, fun h => ?_⟩
      cases h
    · dsimp only
      have h1 := disableHooks_mods env ((w.log (.event i .Disabled)).mods i).m_hooks
        (w.log (.event i .Disabled))
      rcases hd : disableHooks env ((w.log (.event i .Disabled)).mods i).m_hooks
        (w.log (.event i .Disabled)) with ⟨w1, r1⟩
      rw [hd] at h1
      simp only [World.log_mods, World.log_known] at h1
      obtain ⟨h1m, h1k⟩ := h1
      cases r1 with
      | error e =>
        simp only
        rw [h1m, h1k]
        exact ⟨rfl, fun _ _ => rfl, rfl, rfl, rfl, rfl, Or.inl rfl, fun h => by cases h⟩
      | ok u =>
        simp only
        have h2 := restorePatches_mods env (w1.mods i).m_patches w1
        rcases hr : restorePatches env (w1.mods i).m_patches w1 with ⟨w2, r2⟩
        rw [hr] at h2
        simp only at h2
        obtain ⟨h2m, h2k⟩ := h2
        cases r2 with
        | error e =>
          simp only
          rw [h2m, h2k, h1m, h1k]
          exact ⟨rfl, fun _ _ => rfl, rfl, rfl, rfl, rfl, Or.inl rfl, fun h => by cases h⟩
        | ok u =>
          simp only
          refine ⟨by rw [World.modify_known, h2k, h1k], fun j hj => ?_, ?_, ?_, ?_, ?_,
            Or.inr ?_, fun _ => ?_⟩
          · rw [World.modify_other _ _ _ _ hj, h2m, h1m]
          all_goals rw [World.modify_self, h2m, h1m]

theorem disable_steps (env : Env) (i : ModId) (w : World) (hu : hasPermUnres w i = true) :
    PassSteps w (disable env i w).1 := by
  obtain ⟨h1, h2, h3, h4, h5, h6, h7, -⟩ := disable_frame env i w
  rcases h7 with h7 | h7
  · exact SoftOn.steps ⟨h1, h2, h3, h4, h7, fun _ => ⟨h5, h6⟩⟩
  · exact Relation.ReflTransGen.single ⟨h1, i, h2, .disable h3 h4 h7 h5 h6 hu⟩

theorem DepsGrow.grow_modify (w : World) (ds : List Dependency) (k : Nat) (dep : Dependency)
    (j : ModId) (hk : ds[k]? = some dep) (hm : dep.mod = none)
    (hg : getLoadedMod w dep.id = some j)
    (hc : dep.version.compare (w.mods j).m_info.version = true) :
    DepsGrow w ds (ds.modify (fun d => { d with mod := some j }) k) := by
  refine ⟨List.length_modify _ _ _, fun k' d hd => ?_⟩
  rw [List.getElem?_modify, hd]
  by_cases hkk : k = k'
  · subst hkk
    rw [hk] at hd
    injection hd with hd
    subst hd
    exact ⟨{ dep with mod := some j }, by simp, rfl, rfl, Or.inr ⟨hm, j, rfl, hg, hc⟩⟩
  · exact ⟨d, by simp [hkk], rfl, rfl, Or.inl rfl⟩

theorem lookupDependency_steps (i : ModId) (k : Nat) (w : World) :
    PassSteps w (lookupDependency i k w) := by
  unfold lookupDependency
  split
  · exact PassSteps.steps_refl w
  · next dep hdep =>
    split
    · exact PassSteps.steps_refl w
    · next hmod =>
      split
      · exact PassSteps.steps_refl w
      · next j hg =>
        split
        · next hc =>
          refine Relation.ReflTransGen.single ⟨rfl, i, fun j hj => ?_, ?_⟩
          · exact World.modify_other _ _ _ _ hj
          · unfold setDepMod
            rw [World.modify_self]
            exact .resolve rfl rfl rfl (DepsGrow.grow_modify w _ k dep _ hdep hmod hg hc)
              rfl rfl rfl rfl
        · exact PassSteps.steps_refl w

/-- After the lookup, the dependency is resolved or cannot be resolved at all. -/
theorem lookupDependency_resolved_or_perm (i : ModId) (k : Nat) (w : World) :
    depResolved (lookupDependency i k w) i k = true ∨
    depPermUnres (lookupDependency i k w) i k = true := by
  have hv := fun j => PassSteps.steps_version (lookupDependency_steps i k w) j
  unfold lookupDependency at hv ⊢
  cases hd : depAt w i k with
  | none =>
    left
    simp only [depResolved, hd]
  | some dep =>
    simp only [hd] at hv ⊢
    cases hm : dep.mod with
    | some j =>
      simp only
      cases hc : dep.version.compare (w.mods j).m_info.version with
      | true => left; simp only [depResolved, hd, Dependency.isResolved, hm, hc]
      | false => right; simp [depPermUnres, hd, Dependency.permUnres, hm, hc]
    | none =>
      simp only [hm] at hv ⊢
      cases hg : getLoadedMod w dep.id with
      | none => right; simp [depPermUnres, hd, Dependency.permUnres, hm, hg]
      | some j =>
        simp only [hg] at hv ⊢
        cases hc : dep.version.compare (w.mods j).m_info.version with
        | false =>
          right
          simp [depPermUnres, hd, Dependency.permUnres, hm, hg, hc]
        | true =>
          left
          simp only [hc, if_true] at hv ⊢
          have hat : depAt (setDepMod w i k (some j)) i k = some { dep with mod := some j } := by
            unfold depAt at hd ⊢
            unfold setDepMod
            rw [World.modify_self]
            simp [List.getElem?_modify, hd]
          simp only [depResolved, hat, Dependency.isResolved, hv j, hc]

theorem updateDependency_steps (upd load : ModId → World → Option (World × Result))
    (hupd : ∀ j w w' r, upd j w = some (w', r) → PassSteps w w')
    (hload : ∀ j w w' r, load j w = some (w', r) → (w.mods j).m_enabled = true →
      PassSteps w w')
    (i : ModId) (k : Nat) (w w' : World) (r : Result)
    (h : updateDependency upd load i k w = some (w', r)) : PassSteps w w' := by
  unfold updateDependency at h
  split at h
  · simp only [Option.some.injEq, Prod.mk.injEq] at h
    rw [← h.1]; exact PassSteps.steps_refl w
  · next j _ =>
    split at h
    · cases h
    · next w1 e hu =>
      simp only [Option.some.injEq, Prod.mk.injEq] at h
      rw [← h.1]; exact hupd j w w1 _ hu
    · next w1 u hu =>
      have s1 := hupd j w w1 _ hu
      split at h
      · split at h
        · next hen =>
          split at h
          · cases h
          · next w2 e hl =>
            simp only [Option.some.injEq, Prod.mk.injEq] at h
            rw [← h.1]; exact s1.trans (hload j w1 w2 _ hl hen)
          · next w2 u2 hl =>
            simp only [Option.some.injEq, Prod.mk.injEq] at h
            rw [← h.1]; exact s1.trans (hload j w1 w2 _ hl hen)
        · simp only [Option.some.injEq, Prod.mk.injEq] at h
          rw [← h.1]; exact s1
      · simp only [Option.some.injEq, Prod.mk.injEq] at h
        rw [← h.1]; exact s1

theorem updateDependenciesLoop_steps (upd load unload : ModId → World → Option (World × Result))
    (hupd : ∀ j w w' r, upd j w = some (w', r) → PassSteps w w')
    (hload : ∀ j w w' r, load j w = some (w', r) → (w.mods j).m_enabled = true →
      PassSteps w w')
    (hunload : ∀ j w w' r, unload j w = some (w', r) →
      hasPermUnres w j = true → PassSteps w w')
    (i : ModId) : ∀ (ks : List Nat) (b : Bool) (w w' : World) (r : Except String Bool),
      updateDependenciesLoop upd load unload i ks b w = some (w', r) → PassSteps w w' := by
  intro ks
  induction ks with
  | nil =>
    intro b w w' r h
    simp only [updateDependenciesLoop, Option.some.injEq, Prod.mk.injEq] at h
    rw [← h.1]; exact PassSteps.steps_refl w
  | cons k ks ih =>
    intro b w w' r h
    rw [updateDependenciesLoop] at h
    have s0 := lookupDependency_steps i k w
    split at h
    · cases h
    · next w1 e hd =>
      simp only [Option.some.injEq, Prod.mk.injEq] at h
      rw [← h.1]
      exact s0.trans (updateDependency_steps upd load hupd hload i k _ w1 _ hd)
    · next w1 u hd =>
      have s01 := updateDependency_steps upd load hupd hload i k _ w1 _ hd
      have s1 := s0.trans s01
      split at h
      · next hres =>
        have hres : depResolved w1 i k = false := by simpa using hres
        have hun : hasPermUnres w1 i = true := by
          rw [hasPermUnres_iff]
          refine ⟨k, ?_⟩
          rw [s01.steps_depPermUnres i k]
          rcases lookupDependency_resolved_or_perm i k w with h0 | h0
          · rw [s01.steps_depResolved_mono i k h0] at hres; cases hres
          · exact h0
        split at h
        · cases h
        · next w2 e hu =>
          simp only [Option.some.injEq, Prod.mk.injEq] at h
          rw [← h.1]; exact s1.trans (hunload i w1 w2 _ hu hun)
        · next w2 u2 hu =>
          exact (s1.trans (hunload i w1 w2 _ hu hun)).trans (ih true w2 w' r h)
      · exact s1.trans (ih b w1 w' r h)

theorem resolutionPass_steps (upd : ModId → World → Option (World × Result))
    (hupd : ∀ j w w' r, upd j w = some (w', r) → PassSteps w w') :
    ∀ (ks : List ModId) (w w' : World), resolutionPass upd ks w = some w' → PassSteps w w' := by
  intro ks
  induction ks with
  | nil =>
    intro w w' h
    simp only [resolutionPass, Option.some.injEq] at h
    rw [← h]; exact PassSteps.steps_refl w
  | cons k ks ih =>
    intro w w' h
    rw [resolutionPass] at h
    split at h
    · cases h
    · next w1 r hu => exact (hupd k w w1 r hu).trans (ih w1 w' h)

theorem deleteHooks_frame (i : ModId) (w : World) :
    SoftOn i w (deleteHooks i w) ∨ (w.mods i).m_binaryLoaded = false := by
  cases hl : (w.mods i).m_binaryLoaded with
  | false => exact Or.inr rfl
  | true =>
    left
    unfold deleteHooks
    refine ⟨rfl, fun j hj => World.modify_other _ _ _ _ hj, ?_, ?_, ?_, fun h' => ?_⟩
    · rw [World.modify_self]
    · rw [World.modify_self]
    · rw [World.modify_self]
    · rw [hl] at h'; cases h'

theorem deleteHooks_soft (i : ModId) (w : World) (hl : (w.mods i).m_binaryLoaded = true) :
    SoftOn i w (deleteHooks i w) := by
  rcases deleteHooks_frame i w with h | h
  · exact h
  · rw [hl] at h; cases h

theorem deletePatches_soft (i : ModId) (w : World) (hl : (w.mods i).m_binaryLoaded = true) :
    SoftOn i w (deletePatches i w) := by
  unfold deletePatches
  refine ⟨rfl, fun j hj => World.modify_other _ _ _ _ hj, ?_, ?_, ?_, fun h' => ?_⟩
  · rw [World.modify_self]
  · rw [World.modify_self]
  · rw [World.modify_self]
  · rw [hl] at h'; cases h'

theorem deleteHooks_hooks (i : ModId) (w : World) :
    ((deleteHooks i w).mods i).m_hooks = [] ∧
    ((deleteHooks i w).mods i).m_patches = (w.mods i).m_patches := by
  unfold deleteHooks
  rw [World.modify_self]
  exact ⟨rfl, rfl⟩

theorem deletePatches_patches (i : ModId) (w : World) :
    ((deletePatches i w).mods i).m_patches = [] ∧
    ((deletePatches i w).mods i).m_hooks = (w.mods i).m_hooks := by
  unfold deletePatches
  rw [World.modify_self]
  exact ⟨rfl, rfl⟩

theorem loadBinary_steps (env : Env) (n : Nat)
    (hall : ∀ w w', updateAllDependencies env n w = some w' → PassSteps w w')
    (hen : ∀ i w w' r, enable env n i w = some (w', r) →
      ((w.mods i).m_binaryLoaded = true ∨ (w.mods i).m_enabled = true) → PassSteps w w')
    (i : ModId) (w w' : World) (r : Result)
    (h : loadBinary env (n + 1) i w = some (w', r)) (he : (w.mods i).m_enabled = true) :
    PassSteps w w' := by
  rw [loadBinary] at h
  split at h
  · simp only [Option.some.injEq, Prod.mk.injEq] at h
    rw [← h.1]; exact PassSteps.steps_refl w
  · next hl =>
    have hl : (w.mods i).m_binaryLoaded = false := by simpa using hl
    have s1 := createTempDir_soft env i w
    split at h
    · next w1 e hc =>
      rw [hc] at s1
      simp only [Option.some.injEq, Prod.mk.injEq] at h
      rw [← h.1]; exact s1.steps
    · next w1 u hc =>
      rw [hc] at s1
      simp only at s1
      split at h
      · simp only [Option.some.injEq, Prod.mk.injEq] at h
        rw [← h.1]; exact s1.steps
      · next hu =>
        have hu : hasUnresolvedDependencies w1 i = false := by simpa using hu
        have s2 : SoftOn i w1 (loadPlatformBinary env i (w1.log (.provideNextMod i))).1 :=
          SoftOn.of_mods i _ _ rfl rfl
        split at h
        · next w2 e hp =>
          rw [hp] at s2
          simp only [Option.some.injEq, Prod.mk.injEq] at h
          rw [← h.1]; exact (s1.soft_trans s2).steps
        · next w2 u2 hp =>
          rw [hp] at s2
          simp only at s2 h
          have hl2 : (w2.mods i).m_binaryLoaded = false :=
            ((s1.soft_trans s2).loaded i).trans hl
          have he2 : (w2.mods i).m_enabled = true := ((s1.soft_trans s2).enabled i).trans he
          have hu2 : hasUnresolvedDependencies w2 i = false := (s2.unresolved i).trans hu
          have s3 : PassStep w2 (w2.modify i (fun m => { m with m_binaryLoaded := true })) := by
            refine ⟨rfl, i, fun j hj => World.modify_other _ _ _ _ hj, ?_⟩
            rw [World.modify_self]
            exact .load rfl hl2 he2 he2 hu2 rfl rfl rfl
          have hl3 : ((w2.modify i (fun m => { m with m_binaryLoaded := true })).mods
              i).m_binaryLoaded = true := by rw [World.modify_self]
          have hu3 : hasUnresolvedDependencies
              (w2.modify i (fun m => { m with m_binaryLoaded := true })) i = false :=
            s3.step_unresolved_mono i hu2
          generalize w2.modify i (fun m => { m with m_binaryLoaded := true }) = w3 at h s3 hl3 hu3
          have s4a : SoftOn i w3 (w3.log (.implicitLoadFunc i)) := SoftOn.of_mods i _ _ rfl rfl
          have s4b := runCalls_soft env i (env.implicitLoadFunc w3.trace i)
            (w3.log (.implicitLoadFunc i)) hl3
          generalize runCalls env i (env.implicitLoadFunc w3.trace i)
            (w3.log (.implicitLoadFunc i)) = w4 at h s4b
          have s4c : SoftOn i w4 (w4.log (.event i .Loaded)) := SoftOn.of_mods i _ _ rfl rfl
          split at h
          · cases h
          · next w5 ha =>
            have s35 : PassSteps w3 w5 := ((s4a.soft_trans s4b).soft_trans s4c).steps.trans (hall _ _ ha)
            have hl5 := s35.steps_loaded_stays i hl3 hu3
            exact ((s1.soft_trans s2).steps.trans (Relation.ReflTransGen.single s3)).trans
              (s35.trans (hen i w5 w' r h (Or.inl hl5)))

theorem enable_steps (env : Env) (n : Nat)
    (hload : ∀ i w w' r, loadBinary env n i w = some (w', r) → (w.mods i).m_enabled = true →
      PassSteps w w')
    (i : ModId) (w w' : World) (r : Result)
    (h : enable env (n + 1) i w = some (w', r))
    (hle : (w.mods i).m_binaryLoaded = true ∨ (w.mods i).m_enabled = true) :
    PassSteps w w' := by
  rw [enable] at h
  split at h
  · next hl =>
    have hl : (w.mods i).m_binaryLoaded = false := by simpa using hl
    rcases hle with hle | hle
    · rw [hl] at hle; cases hle
    · exact hload i w w' r h hle
  · next hl =>
    have hl : (w.mods i).m_binaryLoaded = true := by simpa using hl
    have s1 := enableHooks_soft env i (w.mods i).m_hooks w hl
    split at h
    · next w1 e hh =>
      rw [hh] at s1
      simp only [Option.some.injEq, Prod.mk.injEq] at h
      rw [← h.1]; exact s1.steps
    · next w1 u hh =>
      rw [hh] at s1
      simp only at s1
      have s2 : SoftOn i w1 (applyPatches env (w1.mods i).m_patches w1).1 :=
        SoftOn.of_mods i _ _ (applyPatches_mods env _ _) (applyPatches_known env _ _)
      split at h
      · next w2 e hp =>
        rw [hp] at s2
        simp only [Option.some.injEq, Prod.mk.injEq] at h
        rw [← h.1]; exact (s1.soft_trans s2).steps
      · next w2 u2 hp =>
        rw [hp] at s2
        simp only at s2
        simp only [Option.some.injEq, Prod.mk.injEq] at h
        rw [← h.1]
        have hl2 : (w2.mods i).m_binaryLoaded = true := ((s1.soft_trans s2).loaded i).trans hl
        refine ((s1.soft_trans s2).soft_trans (SoftOn.of_mods i w2 (w2.log (.event i .Enabled))
          rfl rfl)).steps.trans (Relation.ReflTransGen.single
            ⟨rfl, i, fun j hj => World.modify_other _ _ _ _ hj, ?_⟩)
        rw [World.modify_self]
        exact .enable rfl hl2 hl2 rfl rfl rfl

/-- The part of `unloadBinary` before the nested resolution pass: when it gets as far as
clearing `m_binaryLoaded`, the mod is disabled and has no hooks and patches. -/
theorem unloadBinary_steps (env : Env) (n : Nat)
    (hall : ∀ w w', updateAllDependencies env n w = some w' → PassSteps w w')
    (i : ModId) (w w' : World) (r : Result)
    (h : unloadBinary env (n + 1) i w = some (w', r))
    (hu : hasPermUnres w i = true) : PassSteps w w' := by
  rw [unloadBinary] at h
  split at h
  · simp only [Option.some.injEq, Prod.mk.injEq] at h
    rw [← h.1]; exact PassSteps.steps_refl w
  · next hl =>
    have hl : (w.mods i).m_binaryLoaded = true := by simpa using hl
    split at h
    · simp only [Option.some.injEq, Prod.mk.injEq] at h
      rw [← h.1]; exact PassSteps.steps_refl w
    · have s1 : SoftOn i w (saveData env i w).1 :=
        SoftOn.of_mods i _ _ (saveData_mods env i w) (saveData_known env i w)
      split at h
      · next w1 e hs =>
        rw [hs] at s1
        simp only [Option.some.injEq, Prod.mk.injEq] at h
        rw [← h.1]; exact s1.steps
      · next w1 u hs =>
        rw [hs] at s1
        simp only at s1
        have s2 := disable_steps env i w1 ((s1.permUnres i).trans hu)
        obtain ⟨d1, d2, d3, d4, d5, d6, -, d8⟩ := disable_frame env i w1
        split at h
        · next w2 e hd =>
          rw [hd] at s2
          simp only [Option.some.injEq, Prod.mk.injEq] at h
          rw [← h.1]; exact s1.steps.trans s2
        · next w2 u2 hd =>
          rw [hd] at s2 d1 d2 d3 d4 d5 d6 d8
          simp only at s2 d1 d2 d3 d4 d5 d6 d8 h
          have he2 : (w2.mods i).m_enabled = false := d8 trivial
          have hl2 : (w2.mods i).m_binaryLoaded = true := d4.trans ((s1.loaded i).trans hl)
          have hinfo2 : ∀ j, (w2.mods j).m_info = (w.mods j).m_info := by
            intro j
            by_cases hj : j = i
            · subst hj; exact d3.trans (s1.info j)
            · rw [d2 j hj]; exact s1.info j
          have hu2 : hasPermUnres w2 i = true := by
            rw [PassSteps.steps_hasPermUnres (s1.steps.trans s2) i]; exact hu
          have s3a : SoftOn i w2 (w2.log (.event i .Unloaded)) := SoftOn.of_mods i _ _ rfl rfl
          have s3b := deleteHooks_soft i (w2.log (.event i .Unloaded)) hl2
          have s3c := deletePatches_soft i (deleteHooks i (w2.log (.event i .Unloaded)))
            ((s3b.loaded i).trans hl2)
          have hh := (deletePatches_patches i (deleteHooks i (w2.log (.event i .Unloaded))))
          have hh' := (deleteHooks_hooks i (w2.log (.event i .Unloaded)))
          have s3 := (s3a.soft_trans s3b).soft_trans s3c
          generalize deletePatches i (deleteHooks i (w2.log (.event i .Unloaded))) = w7
            at h s3 hh
          have s4 : SoftOn i w7 (unloadPlatformBinary env i w7).1 := SoftOn.of_mods i _ _ rfl rfl
          have hh8 : ((unloadPlatformBinary env i w7).1.mods i).m_hooks = [] ∧
              ((unloadPlatformBinary env i w7).1.mods i).m_patches = [] :=
            ⟨hh.2.trans hh'.1, hh.1⟩
          split at h
          · next w8 e hp =>
            rw [hp] at s4
            simp only [Option.some.injEq, Prod.mk.injEq] at h
            rw [← h.1]; exact (s1.steps.trans s2).trans (s3.soft_trans s4).steps
          · next w8 u8 hp =>
            rw [hp] at s4 hh8
            simp only at s4 hh8 h
            have s24 := s3.soft_trans s4
            have hu8 : hasPermUnres w8 i = true := by
              rw [s24.permUnres i]; exact hu2
            have s5 : PassStep w8 (w8.modify i (fun m => { m with m_binaryLoaded := false })) := by
              refine ⟨rfl, i, fun j hj => World.modify_other _ _ _ _ hj, ?_⟩
              rw [World.modify_self]
              exact .unload rfl hu8 ((s24.loaded i).trans hl2) ((s24.enabled i).trans he2)
                ((s24.enabled i).trans he2) hh8.1 hh8.2 rfl
            split at h
            · cases h
            · next w9 ha =>
              simp only [Option.some.injEq, Prod.mk.injEq] at h
              rw [← h.1]
              exact (((s1.steps.trans s2).trans s24.steps).trans
                (Relation.ReflTransGen.single s5)).trans (hall _ _ ha)

theorem updateDependencies_steps (env : Env) (n : Nat)
    (hupd : ∀ j w w' r, updateDependencies env n j w = some (w', r) → PassSteps w w')
    (hload : ∀ j w w' r, loadBinary env n j w = some (w', r) → (w.mods j).m_enabled = true →
      PassSteps w w')
    (hunload : ∀ j w w' r, unloadBinary env n j w = some (w', r) →
      hasPermUnres w j = true → PassSteps w w')
    (i : ModId) (w w' : World) (r : Result)
    (h : updateDependencies env (n + 1) i w = some (w', r)) : PassSteps w w' := by
  rw [updateDependencies] at h
  split at h
  · cases h
  · next w1 e hloop =>
    simp only [Option.some.injEq, Prod.mk.injEq] at h
    rw [← h.1]
    exact updateDependenciesLoop_steps _ _ _ hupd hload hunload i _ _ _ _ _ hloop
  · next w1 b hloop =>
    have s1 := updateDependenciesLoop_steps _ _ _ hupd hload hunload i _ _ _ _ _ hloop
    split at h
    · split at h
      · next hen =>
        split at h
        · cases h
        · next w2 e hl =>
          simp only [Option.some.injEq, Prod.mk.injEq] at h
          rw [← h.1]; exact s1.trans (hload i w1 w2 _ hl hen)
        · next w2 u hl =>
          simp only [Option.some.injEq, Prod.mk.injEq] at h
          rw [← h.1]; exact s1.trans (hload i w1 w2 _ hl hen)
      · simp only [Option.some.injEq, Prod.mk.injEq] at h
        rw [← h.1]; exact s1
    · simp only [Option.some.injEq, Prod.mk.injEq] at h
      rw [← h.1]; exact s1

/-- Every run of the recursive operations is a sequence of elementary changes. -/
theorem passSim (env : Env) : ∀ n, PassSim env n := by
  intro n
  induction n with
  | zero =>
    refine ⟨?_, ?_, ?_, ?_, ?_⟩
    · intro i w w' r h; simp [updateDependencies] at h
    · intro w w' h; simp [updateAllDependencies] at h
    · intro i w w' r h; simp [loadBinary] at h
    · intro i w w' r h; simp [unloadBinary] at h
    · intro i w w' r h; simp [enable] at h
  | succ n ih =>
    obtain ⟨ihU, ihA, ihL, ihN, ihE⟩ := ih
    refine ⟨?_, ?_, ?_, ?_, ?_⟩
    · exact updateDependencies_steps env n ihU ihL ihN
    · intro w w' h
      rw [updateAllDependencies] at h
      exact resolutionPass_steps _ ihU _ _ _ h
    · exact loadBinary_steps env n ihA ihE
    · exact unloadBinary_steps env n ihA
    · exact enable_steps env n ihL

theorem updateAllDependencies_steps (env : Env) (n : Nat) (w w' : World)
    (h : updateAllDependencies env n w = some w') : PassSteps w w' :=
  (passSim env n).2.1 w w' h

theorem updateDependencies_passSteps (env : Env) (n : Nat) (i : ModId) (w w' : World)
    (r : Result) (h : updateDependencies env n i w = some (w', r)) : PassSteps w w' :=
  (passSim env n).1 i w w' r h

/-! ## The registry invariant after a resolution pass (C1) -/

/-- In `worldBothLoaded` every loaded mod has all its declared dependencies resolved. -/
theorem loadedResolved_worldBothLoaded : LoadedResolved worldBothLoaded := by
  intro j _
  unfold worldBothLoaded mkWorld hasUnresolvedDependencies
  dsimp only
  split <;> rfl

/-- A successful `enable` or `loadBinary` leaves the mod loaded. -/
theorem enable_loadBinary_ok_loaded (env : Env) : ∀ (n : Nat) (i : ModId) (w w' : World),
    (enable env n i w = some (w', .ok ()) → (w'.mods i).m_binaryLoaded = true) ∧
    (loadBinary env n i w = some (w', .ok ()) → (w'.mods i).m_binaryLoaded = true) := by
  intro n
  induction n with
  | zero =>
    intro i w w'
    exact ⟨fun h => by simp [enable] at h, fun h => by simp [loadBinary] at h⟩
  | succ n ih =>
    intro i w w'
    constructor
    · intro h
      rw [enable] at h
      split at h
      · exact (ih i w w').2 h
      · next hl =>
        have hl : (w.mods i).m_binaryLoaded = true := by simpa using hl
        have s1 := enableHooks_soft env i (w.mods i).m_hooks w hl
        split at h
        · simp at h
        · next w1 u hh =>
          rw [hh] at s1
          simp only at s1
          have s2 : SoftOn i w1 (applyPatches env (w1.mods i).m_patches w1).1 :=
            SoftOn.of_mods i _ _ (applyPatches_mods env _ _) (applyPatches_known env _ _)
          split at h
          · simp at h
          · next w2 u2 hp =>
            rw [hp] at s2
            simp only at s2
            simp only [Option.some.injEq, Prod.mk.injEq, and_true] at h
            rw [← h, World.modify_self]
            exact ((s1.soft_trans s2).loaded i).trans hl
    · intro h
      rw [loadBinary] at h
      split at h
      · next hl =>
        simp only [Option.some.injEq, Prod.mk.injEq, and_true] at h
        rw [← h]; exact hl
      · split at h
        · simp at h
        · split at h
          · simp at h
          · split at h
            · simp at h
            · simp only at h
              split at h
              · cases h
              · next w5 _ => exact (ih i w5 w').1 h

/-- How `unloadBinary` succeeds: either the mod was not loaded and nothing happens, or the
mod reaches a state in which it is disabled, not loaded and without hooks and patches,
and the nested resolution pass runs from there. -/
theorem unloadBinary_ok_inv (env : Env) (n : Nat) (i : ModId) (w w' : World)
    (h : unloadBinary env (n + 1) i w = some (w', .ok ())) :
    ((w.mods i).m_binaryLoaded = false ∧ w' = w) ∨
    ((w.mods i).m_binaryLoaded = true ∧
      ∃ w8, (w8.mods i).m_enabled = false ∧ (w8.mods i).m_binaryLoaded = false ∧
        (w8.mods i).m_hooks = [] ∧ (w8.mods i).m_patches = [] ∧
        updateAllDependencies env n w8 = some w') := by
  rw [unloadBinary] at h
  split at h
  · next hl =>
    simp only [Option.some.injEq, Prod.mk.injEq, and_true] at h
    exact Or.inl ⟨by simpa using hl, h.symm⟩
  · next hl =>
    have hl : (w.mods i).m_binaryLoaded = true := by simpa using hl
    right
    refine ⟨hl, ?_⟩
    split at h
    · simp at h
    · have s1 : SoftOn i w (saveData env i w).1 :=
        SoftOn.of_mods i _ _ (saveData_mods env i w) (saveData_known env i w)
      split at h
      · simp at h
      · next w1 u hs =>
        rw [hs] at s1
        simp only at s1
        obtain ⟨d1, d2, d3, d4, d5, d6, -, d8⟩ := disable_frame env i w1
        split at h
        · simp at h
        · next w2 u2 hd =>
          rw [hd] at d1 d2 d3 d4 d5 d6 d8
          simp only at d1 d2 d3 d4 d5 d6 d8 h
          have he2 : (w2.mods i).m_enabled = false := d8 trivial
          have hl2 : (w2.mods i).m_binaryLoaded = true := d4.trans ((s1.loaded i).trans hl)
          have s3a : SoftOn i w2 (w2.log (.event i .Unloaded)) := SoftOn.of_mods i _ _ rfl rfl
          have s3b := deleteHooks_soft i (w2.log (.event i .Unloaded)) hl2
          have s3c := deletePatches_soft i (deleteHooks i (w2.log (.event i .Unloaded)))
            ((s3b.loaded i).trans hl2)
          have hh := (deletePatches_patches i (deleteHooks i (w2.log (.event i .Unloaded))))
          have hh' := (deleteHooks_hooks i (w2.log (.event i .Unloaded)))
          have s3 := (s3a.soft_trans s3b).soft_trans s3c
          generalize deletePatches i (deleteHooks i (w2.log (.event i .Unloaded))) = w7
            at h s3 hh
          have s4 : SoftOn i w7 (unloadPlatformBinary env i w7).1 := SoftOn.of_mods i _ _ rfl rfl
          have hh8 : ((unloadPlatformBinary env i w7).1.mods i).m_hooks = [] ∧
              ((unloadPlatformBinary env i w7).1.mods i).m_patches = [] :=
            ⟨hh.2.trans hh'.1, hh.1⟩
          split at h
          · simp at h
          · next w8 u8 hp =>
            rw [hp] at s4 hh8
            simp only at s4 hh8 h
            have s24 := s3.soft_trans s4
            split at h
            · cases h
            · next w9 ha =>
              simp only [Option.some.injEq, Prod.mk.injEq, and_true] at h
              rw [← h]
              refine ⟨_, ?_, ?_, ?_, ?_, ha⟩
              · rw [World.modify_self]; exact (s24.enabled i).trans he2
              · rw [World.modify_self]
              · rw [World.modify_self]; exact hh8.1
              · rw [World.modify_self]; exact hh8.2

/-- After a successful `unloadBinary` the mod is not loaded; when it was loaded before,
it is also disabled and owns no hooks and patches. -/
theorem unloadBinary_ok_unloaded (env : Env) (n : Nat) (i : ModId) (w w' : World)
    (h : unloadBinary env n i w = some (w', .ok ())) :
    (w'.mods i).m_binaryLoaded = false ∧
    ((w.mods i).m_binaryLoaded = true →
      (w'.mods i).m_enabled = false ∧ (w'.mods i).m_hooks = [] ∧ (w'.mods i).m_patches = []) := by
  cases n with
  | zero => simp [unloadBinary] at h
  | succ n =>
    rcases unloadBinary_ok_inv env n i w w' h with ⟨hl, hw⟩ | ⟨hl, w8, h1, h2, h3, h4, ha⟩
    · subst hw
      exact ⟨hl, fun hl' => by rw [hl] at hl'; cases hl'⟩
    · obtain ⟨a, b, c, d⟩ := PassSteps.steps_unloaded_stays (updateAllDependencies_steps env n w8 w' ha) i h1 h2
      exact ⟨b, fun _ => ⟨a, c.trans h3, d.trans h4⟩⟩

/-! ### Runs whose behaviour is defined -/

theorem StaysUndefined.stays_refl (w : World) : StaysUndefined w w := fun h => h

theorem StaysUndefined.stays_trans {w w' w'' : World} (h : StaysUndefined w w')
    (h' : StaysUndefined w' w'') : StaysUndefined w w'' := fun hw => h' (h hw)

theorem StaysUndefined.of_eq {w w' : World} (h : w'.undefined = w.undefined) :
    StaysUndefined w w' := fun hw => h.trans hw

theorem createTempDir_undefined (env : Env) (i : ModId) (w : World) :
    (createTempDir env i w).1.undefined = w.undefined := by
  unfold createTempDir
  dsimp only
  repeat' split
  all_goals rfl

theorem Patch.apply_undefined (env : Env) (p : Patch) (w : World) :
    (p.apply env w).1.undefined = w.undefined := by
  unfold Patch.apply
  dsimp only
  split <;> rfl

theorem Patch.restore_undefined (env : Env) (p : Patch) (w : World) :
    (p.restore env w).1.undefined = w.undefined := by
  unfold Patch.restore
  dsimp only
  split <;> rfl

theorem patch_undefined (env : Env) (i : ModId) (address : Nat) (data : List Nat) (w : World) :
    (patch env i address data w).1.undefined = w.undefined := by
  unfold patch
  dsimp only
  have h0 := Patch.apply_undefined env
    { m_address := address, m_original := readMemory w.memory address data.length,
      m_owner := i, m_patch := data } w
  split
  · next w1 hp => rw [hp] at h0; exact h0
  · next w1 hp => rw [hp] at h0; exact h0

theorem enableHook_undefined (env : Env) (i : ModId) (h : Hook) (w : World) :
    (enableHook env i h w).1.undefined = w.undefined := by
  unfold enableHook
  dsimp only
  split <;> rfl

theorem addHook_undefined (env : Env) (i : ModId) (h : Hook) (w : World) :
    (addHook env i h w).1.undefined = w.undefined := by
  unfold addHook
  have := enableHook_undefined env i h w
  split
  · split
    · next w1 e he => rw [he] at this; exact this
    · next w1 u he => rw [he] at this; exact this
  · rfl

theorem runCalls_undefined (env : Env) (i : ModId) : ∀ (cs : List ModCall) (w : World),
    (runCalls env i cs w).undefined = w.undefined := by
  intro cs
  induction cs with
  | nil => intro w; rfl
  | cons c cs ih =>
    intro w
    cases c with
    | addHook h => simp only [runCalls, ih, addHook_undefined]
    | patch a d => simp only [runCalls, ih, patch_undefined]

theorem disableHooks_undefined (env : Env) : ∀ (hs : List Hook) (w : World),
    (disableHooks env hs w).1.undefined = w.undefined := by
  intro hs
  induction hs with
  | nil => intro w; rfl
  | cons h hs ih =>
    intro w
    rw [disableHooks]
    have h0 : (disableHook env h w).1.undefined = w.undefined := rfl
    split
    · next w1 e he => rw [he] at h0; exact h0
    · next w1 u he => rw [he] at h0; exact (ih w1).trans h0

theorem restorePatches_undefined (env : Env) : ∀ (ps : List Patch) (w : World),
    (restorePatches env ps w).1.undefined = w.undefined := by
  intro ps
  induction ps with
  | nil => intro w; rfl
  | cons p ps ih =>
    intro w
    rw [restorePatches]
    have h0 := Patch.restore_undefined env p w
    split
    · next w1 he => rw [he] at h0; exact h0
    · next w1 he => rw [he] at h0; exact (ih w1).trans h0

theorem disable_undefined (env : Env) (i : ModId) (w : World) :
    (disable env i w).1.undefined = w.undefined := by
  unfold disable
  split
  · rfl
  · split
    · rfl
    · dsimp only
      have h0 := disableHooks_undefined env ((w.log (.event i .Disabled)).mods i).m_hooks
        (w.log (.event i .Disabled))
      split
      · next w1 e he => rw [he] at h0; exact h0
      · next w1 u he =>
        rw [he] at h0
        have h1 := restorePatches_undefined env (w1.mods i).m_patches w1
        split
        · next w2 e hr => rw [hr] at h1; exact h1.trans h0
        · next w2 u2 hr => rw [hr] at h1; exact h1.trans h0

theorem saveSettings_undefined (env : Env) (i : ModId) :
    ∀ (keys : List String) (w : World) (json : List (String × Json)),
      (saveSettings env i keys w json).1.undefined = w.undefined := by
  intro keys
  induction keys with
  | nil => intro w json; rfl
  | cons key keys ih =>
    intro w json
    simp only [saveSettings, ih, World.log_undefined]

theorem saveData_undefined (env : Env) (i : ModId) (w : World) :
    (saveData env i w).1.undefined = w.undefined := by
  unfold saveData settingsJson
  simp only [World.log_undefined, saveSettings_undefined]

theorem deletePatches_undefined (i : ModId) (w : World) :
    (deletePatches i w).undefined = w.undefined := rfl

theorem deleteHooks_undefined (i : ModId) (w : World) :
    (deleteHooks i w).undefined = (w.undefined || !decide (w.mods i).m_hooks.Nodup) := rfl

theorem lookupDependency_undefined (i : ModId) (k : Nat) (w : World) :
    (lookupDependency i k w).undefined = w.undefined := by
  unfold lookupDependency
  repeat' split
  all_goals rfl

theorem updateDependency_stays (upd load : ModId → World → Option (World × Result))
    (hupd : ∀ j w w' r, upd j w = some (w', r) → StaysUndefined w w')
    (hload : ∀ j w w' r, load j w = some (w', r) → StaysUndefined w w')
    (i : ModId) (k : Nat) (w w' : World) (r : Result)
    (h : updateDependency upd load i k w = some (w', r)) : StaysUndefined w w' := by
  unfold updateDependency at h
  split at h
  · simp only [Option.some.injEq, Prod.mk.injEq] at h
    rw [← h.1]; exact StaysUndefined.stays_refl w
  · next j hj =>
    split at h
    · cases h
    · next w1 e hu =>
      simp only [Option.some.injEq, Prod.mk.injEq] at h
      rw [← h.1]; exact hupd j w w1 _ hu
    · next w1 u hu =>
      have s1 := hupd j w w1 _ hu
      split at h
      · split at h
        · split at h
          · cases h
          · next w2 e hl =>
            simp only [Option.some.injEq, Prod.mk.injEq] at h
            rw [← h.1]; exact s1.stays_trans (hload j w1 w2 _ hl)
          · next w2 u2 hl =>
            simp only [Option.some.injEq, Prod.mk.injEq] at h
            rw [← h.1]; exact s1.stays_trans (hload j w1 w2 _ hl)
        · simp only [Option.some.injEq, Prod.mk.injEq] at h
          rw [← h.1]; exact s1
      · simp only [Option.some.injEq, Prod.mk.injEq] at h
        rw [← h.1]; exact s1

theorem updateDependenciesLoop_stays (upd load unload : ModId → World → Option (World × Result))
    (hupd : ∀ j w w' r, upd j w = some (w', r) → StaysUndefined w w')
    (hload : ∀ j w w' r, load j w = some (w', r) → StaysUndefined w w')
    (hunload : ∀ j w w' r, unload j w = some (w', r) → StaysUndefined w w')
    (i : ModId) : ∀ (ks : List Nat) (b : Bool) (w w' : World) (r : Except String Bool),
      updateDependenciesLoop upd load unload i ks b w = some (w', r) → StaysUndefined w w' := by
  intro ks
  induction ks with
  | nil =>
    intro b w w' r h
    simp only [updateDependenciesLoop, Option.some.injEq, Prod.mk.injEq] at h
    rw [← h.1]; exact StaysUndefined.stays_refl w
  | cons k ks ih =>
    intro b w w' r h
    rw [updateDependenciesLoop] at h
    have s0 : StaysUndefined w (lookupDependency i k w) :=
      StaysUndefined.of_eq (lookupDependency_undefined i k w)
    split at h
    · cases h
    · next w1 e hd =>
      simp only [Option.some.injEq, Prod.mk.injEq] at h
      rw [← h.1]
      exact s0.stays_trans (updateDependency_stays upd load hupd hload i k _ w1 _ hd)
    · next w1 u hd =>
      have s1 := s0.stays_trans (updateDependency_stays upd load hupd hload i k _ w1 _ hd)
      split at h
      · split at h
        · cases h
        · next w2 e hu =>
          simp only [Option.some.injEq, Prod.mk.injEq] at h
          rw [← h.1]; exact s1.stays_trans (hunload i w1 w2 _ hu)
        · next w2 u2 hu =>
          exact (s1.stays_trans (hunload i w1 w2 _ hu)).stays_trans (ih true w2 w' r h)
      · exact s1.stays_trans (ih b w1 w' r h)

theorem resolutionPass_stays (upd : ModId → World → Option (World × Result))
    (hupd : ∀ j w w' r, upd j w = some (w', r) → StaysUndefined w w') :
    ∀ (is : List ModId) (w w' : World), resolutionPass upd is w = some w' →
      StaysUndefined w w' := by
  intro is
  induction is with
  | nil =>
    intro w w' h
    simp only [resolutionPass, Option.some.injEq] at h
    rw [← h]; exact StaysUndefined.stays_refl w
  | cons i is ih =>
    intro w w' h
    rw [resolutionPass] at h
    split at h
    · cases h
    · next w1 r hu => exact (hupd i w w1 r hu).stays_trans (ih w1 w' h)

/-- The flag `undefined` is never cleared by the recursive operations. -/
theorem undefined_stays (env : Env) : ∀ n,
    (∀ i w w' r, updateDependencies env n i w = some (w', r) → StaysUndefined w w') ∧
    (∀ w w', updateAllDependencies env n w = some w' → StaysUndefined w w') ∧
    (∀ i w w' r, loadBinary env n i w = some (w', r) → StaysUndefined w w') ∧
    (∀ i w w' r, unloadBinary env n i w = some (w', r) → StaysUndefined w w') ∧
    (∀ i w w' r, enable env n i w = some (w', r) → StaysUndefined w w') := by
  intro n
  induction n with
  | zero =>
    refine ⟨?_, ?_, ?_, ?_, ?_⟩
    · intro i w w' r h; simp [updateDependencies] at h
    · intro w w' h; simp [updateAllDependencies] at h
    · intro i w w' r h; simp [loadBinary] at h
    · intro i w w' r h; simp [unloadBinary] at h
    · intro i w w' r h; simp [enable] at h
  | succ n ih =>
    obtain ⟨ihU, ihA, ihL, ihN, ihE⟩ := ih
    refine ⟨?_, ?_, ?_, ?_, ?_⟩
    · intro i w w' r h
      rw [updateDependencies] at h
      split at h
      · cases h
      · next w1 e hloop =>
        simp only [Option.some.injEq, Prod.mk.injEq] at h
        rw [← h.1]
        exact updateDependenciesLoop_stays _ _ _ ihU ihL ihN i _ _ _ _ _ hloop
      · next w1 b hloop =>
        have s1 := updateDependenciesLoop_stays _ _ _ ihU ihL ihN i _ _ _ _ _ hloop
        split at h
        · split at h
          · split at h
            · cases h
            · next w2 e hl =>
              simp only [Option.some.injEq, Prod.mk.injEq] at h
              rw [← h.1]; exact s1.stays_trans (ihL i w1 w2 _ hl)
            · next w2 u hl =>
              simp only [Option.some.injEq, Prod.mk.injEq] at h
              rw [← h.1]; exact s1.stays_trans (ihL i w1 w2 _ hl)
          · simp only [Option.some.injEq, Prod.mk.injEq] at h
            rw [← h.1]; exact s1
        · simp only [Option.some.injEq, Prod.mk.injEq] at h
          rw [← h.1]; exact s1
    · intro w w' h
      rw [updateAllDependencies] at h
      exact resolutionPass_stays _ ihU _ _ _ h
    · intro i w w' r h
      rw [loadBinary] at h
      split at h
      · simp only [Option.some.injEq, Prod.mk.injEq] at h
        rw [← h.1]; exact StaysUndefined.stays_refl w
      · have h1 := createTempDir_undefined env i w
        split at h
        · next w1 e hc =>
          rw [hc] at h1
          simp only [Option.some.injEq, Prod.mk.injEq] at h
          rw [← h.1]; exact StaysUndefined.of_eq h1
        · next w1 u hc =>
          rw [hc] at h1
          simp only at h1
          split at h
          · simp only [Option.some.injEq, Prod.mk.injEq] at h
            rw [← h.1]; exact StaysUndefined.of_eq h1
          · have h2 : (loadPlatformBinary env i (w1.log (.provideNextMod i))).1.undefined =
                w1.undefined := rfl
            split at h
            · next w2 e hp =>
              rw [hp] at h2
              simp only [Option.some.injEq, Prod.mk.injEq] at h
              rw [← h.1]; exact StaysUndefined.of_eq (h2.trans h1)
            · next w2 u2 hp =>
              rw [hp] at h2
              simp only at h2 h
              split at h
              · cases h
              · next w5 ha =>
                have s4 : StaysUndefined w w5 := by
                  refine StaysUndefined.stays_trans (StaysUndefined.of_eq ?_) (ihA _ w5 ha)
                  simp only [World.log_undefined, runCalls_undefined, World.modify_undefined]
                  exact h2.trans h1
                exact s4.stays_trans (ihE i w5 w' r h)
    · intro i w w' r h
      rw [unloadBinary] at h
      split at h
      · simp only [Option.some.injEq, Prod.mk.injEq] at h
        rw [← h.1]; exact StaysUndefined.stays_refl w
      · split at h
        · simp only [Option.some.injEq, Prod.mk.injEq] at h
          rw [← h.1]; exact StaysUndefined.stays_refl w
        · have h1 := saveData_undefined env i w
          split at h
          · next w1 e hs =>
            rw [hs] at h1
            simp only [Option.some.injEq, Prod.mk.injEq] at h
            rw [← h.1]; exact StaysUndefined.of_eq h1
          · next w1 u hs =>
            rw [hs] at h1
            simp only at h1
            have h2 := disable_undefined env i w1
            split at h
            · next w2 e hd =>
              rw [hd] at h2
              simp only [Option.some.injEq, Prod.mk.injEq] at h
              rw [← h.1]; exact StaysUndefined.of_eq (h2.trans h1)
            · next w2 u2 hd =>
              rw [hd] at h2
              simp only at h2 h
              have s3 : StaysUndefined w
                  (unloadPlatformBinary env i
                    (deletePatches i (deleteHooks i (w2.log (.event i .Unloaded))))).1 := by
                intro hw
                show ((w2.log (.event i .Unloaded)).undefined ||
                  !decide ((w2.log (.event i .Unloaded)).mods i).m_hooks.Nodup) = true
                rw [World.log_undefined, h2, h1, hw]
                rfl
              split at h
              · next w8 e hp =>
                rw [hp] at s3
                simp only [Option.some.injEq, Prod.mk.injEq] at h
                rw [← h.1]; exact s3
              · next w8 u8 hp =>
                rw [hp] at s3
                simp only at s3 h
                split at h
                · cases h
                · next w9 ha =>
                  simp only [Option.some.injEq, Prod.mk.injEq] at h
                  rw [← h.1]
                  exact fun hw => ihA _ w9 ha (s3 hw)
    · intro i w w' r h
      rw [enable] at h
      split at h
      · exact ihL i w w' r h
      · have h1 := enableHooks_undefined_mono env i (w.mods i).m_hooks w
        split at h
        · next w1 e he =>
          rw [he] at h1
          simp only [Option.some.injEq, Prod.mk.injEq] at h
          rw [← h.1]; exact h1
        · next w1 u he =>
          rw [he] at h1
          simp only at h1 h
          have h2 := applyPatches_undefined env (w1.mods i).m_patches w1
          split at h
          · next w2 e hp =>
            rw [hp] at h2
            simp only [Option.some.injEq, Prod.mk.injEq] at h
            rw [← h.1]; exact fun hw => h2.trans (h1 hw)
          · next w2 u2 hp =>
            rw [hp] at h2
            simp only [Option.some.injEq, Prod.mk.injEq] at h h2
            rw [← h.1]; exact fun hw => h2.trans (h1 hw)

/-- A successful `unloadBinary` on a loaded mod whose run is defined started in a defined
run and found no hook twice in the hook collection: every owned hook was deleted once. -/
theorem unloadBinary_ok_defined (env : Env) (n : Nat) (i : ModId) (w w' : World)
    (h : unloadBinary env n i w = some (w', .ok ())) (hd : w'.undefined = false)
    (hl : (w.mods i).m_binaryLoaded = true) :
    w.undefined = false ∧ (w.mods i).m_hooks.Nodup := by
  cases n with
  | zero => simp [unloadBinary] at h
  | succ n =>
    rw [unloadBinary] at h
    simp only [hl, Bool.not_true, Bool.false_eq_true, if_false] at h
    split at h
    · simp at h
    · have h1 := saveData_undefined env i w
      have m1 := saveData_mods env i w
      split at h
      · simp at h
      · next w1 u hs =>
        rw [hs] at h1 m1
        simp only at h1 m1
        have h2 := disable_undefined env i w1
        obtain ⟨-, -, -, -, d5, -, -, -⟩ := disable_frame env i w1
        split at h
        · simp at h
        · next w2 u2 hd2 =>
          rw [hd2] at h2 d5
          simp only at h2 d5 h
          have h3 : (unloadPlatformBinary env i
              (deletePatches i (deleteHooks i (w2.log (.event i .Unloaded))))).1.undefined =
              (w.undefined || !decide (w.mods i).m_hooks.Nodup) := by
            show ((w2.log (.event i .Unloaded)).undefined ||
              !decide ((w2.log (.event i .Unloaded)).mods i).m_hooks.Nodup) = _
            rw [World.log_undefined, World.log_mods, h2, h1, d5, m1]
          split at h
          · simp at h
          · next w8 u8 hp =>
            rw [hp] at h3
            simp only at h3 h
            split at h
            · cases h
            · next w9 ha =>
              simp only [Option.some.injEq, Prod.mk.injEq, and_true] at h
              subst h
              have h8 : w8.undefined = false := by
                cases h8 : w8.undefined with
                | false => rfl
                | true =>
                  have := (undefined_stays env n).2.1 _ _ ha
                    (show (w8.modify i _).undefined = true from h8)
                  rw [hd] at this
                  cases this
              rw [h8] at h3
              have h3 := h3.symm
              simp only [Bool.or_eq_false_iff, Bool.not_eq_false', decide_eq_true_eq] at h3
              exact h3

/-- A successful `enable`, and a successful `loadBinary` on a mod that was not loaded, in
a run whose behaviour is defined, return with an empty hook collection: had the mod owned
a hook when the hook loop of `enable` ran, the loop would have enabled it and pushed it
onto the collection it iterates. -/
theorem enable_loadBinary_ok_defined (env : Env) : ∀ (n : Nat),
    (∀ (i : ModId) (w w' : World), enable env n i w = some (w', .ok ()) →
      w'.undefined = false → (w'.mods i).m_hooks = []) ∧
    (∀ (i : ModId) (w w' : World), loadBinary env n i w = some (w', .ok ()) →
      w'.undefined = false → (w.mods i).m_binaryLoaded = false → (w'.mods i).m_hooks = []) := by
  intro n
  induction n with
  | zero =>
    exact ⟨fun i w w' h => by simp [enable] at h, fun i w w' h => by simp [loadBinary] at h⟩
  | succ n ih =>
    obtain ⟨ihE, ihL⟩ := ih
    constructor
    · intro i w5 w' h hd
      rw [enable] at h
      split at h
      · next hl5 => exact ihL i w5 w' h hd (by simpa using hl5)
      · split at h
        · simp at h
        · next w6 u6 he =>
          have hm := applyPatches_mods env (w6.mods i).m_patches w6
          have hu := applyPatches_undefined env (w6.mods i).m_patches w6
          split at h
          · simp at h
          · next w7 u7 hp =>
            rw [hp] at hm hu
            simp only at hm hu
            simp only [Option.some.injEq, Prod.mk.injEq, and_true] at h
            subst h
            have hd6 : w6.undefined = false := by
              rw [← hu]; exact hd
            rw [World.modify_self]
            simp only [World.log_mods]
            rw [hm]
            obtain ⟨h0, h1⟩ := enableHooks_undefined env i (w5.mods i).m_hooks w5
            cases hh : (w5.mods i).m_hooks with
            | nil =>
              rw [hh] at he
              simp only [enableHooks, Prod.mk.injEq] at he
              rw [← he.1, hh]
            | cons g rest =>
              exfalso
              obtain ⟨-, h2⟩ := h1 g rest hh
              rcases hr : env.hookEnable w5.trace g with e | u
              · rw [hh] at he
                simp [enableHooks, enableHook_error env i g w5 e hr] at he
              · have := h2 (by rw [hr]; rfl)
                rw [he] at this
                simp only at this
                rw [hd6] at this
                cases this
    · intro i w w' h hd hl
      rw [loadBinary] at h
      simp only [hl, Bool.false_eq_true, if_false] at h
      split at h
      · simp at h
      · split at h
        · simp at h
        · split at h
          · simp at h
          · split at h
            · cases h
            · next w5 ha => exact ihE i w5 w' h hd

/-- Once the flag `hasUnresolved` is set it stays set. -/
theorem updateDependenciesLoop_flag (upd load unload : ModId → World → Option (World × Result))
    (i : ModId) : ∀ (ks : List Nat) (w w' : World) (b : Bool),
      updateDependenciesLoop upd load unload i ks true w = some (w', .ok b) → b = true := by
  intro ks
  induction ks with
  | nil =>
    intro w w' b h
    simp only [updateDependenciesLoop, Option.some.injEq, Prod.mk.injEq, Except.ok.injEq] at h
    exact h.2.symm
  | cons k ks ih =>
    intro w w' b h
    rw [updateDependenciesLoop] at h
    split at h
    · cases h
    · simp at h
    · split at h
      · split at h
        · cases h
        · simp at h
        · next w2 _ _ => exact ih w2 w' b h
      · next w1 _ _ _ => exact ih w1 w' b h

/-- When the loop ends with `hasUnresolved = false`, every dependency it went through is
resolved at the end. -/
theorem updateDependenciesLoop_resolved
    (upd load unload : ModId → World → Option (World × Result))
    (hupd : ∀ j w w' r, upd j w = some (w', r) → PassSteps w w')
    (hload : ∀ j w w' r, load j w = some (w', r) → (w.mods j).m_enabled = true →
      PassSteps w w')
    (hunload : ∀ j w w' r, unload j w = some (w', r) →
      hasPermUnres w j = true → PassSteps w w')
    (i : ModId) : ∀ (ks : List Nat) (b : Bool) (w w' : World),
      updateDependenciesLoop upd load unload i ks b w = some (w', .ok false) →
      ∀ k ∈ ks, depResolved w' i k = true := by
  intro ks
  induction ks with
  | nil => intro b w w' _ k hk; cases hk
  | cons k ks ih =>
    intro b w w' h k' hk'
    rw [updateDependenciesLoop] at h
    split at h
    · cases h
    · simp at h
    · next w1 u hd =>
      split at h
      · split at h
        · cases h
        · simp at h
        · next w2 _ _ =>
          have := updateDependenciesLoop_flag upd load unload i ks w2 w' false h
          cases this
      · next hres =>
        have hres : depResolved w1 i k = true := by simpa using hres
        rcases List.mem_cons.mp hk' with hk' | hk'
        · subst hk'
          exact (updateDependenciesLoop_steps upd load unload hupd hload hunload i ks b w1 w' _
            h).steps_depResolved_mono i k' hres
        · exact ih b w1 w' h k' hk'

/-- When the loop ends with `hasUnresolved = true`, the forced `unloadBinary` has
succeeded at some point. -/
theorem updateDependenciesLoop_unloaded
    (upd load unload : ModId → World → Option (World × Result))
    (hupd : ∀ j w w' r, upd j w = some (w', r) → PassSteps w w')
    (hload : ∀ j w w' r, load j w = some (w', r) → (w.mods j).m_enabled = true →
      PassSteps w w')
    (hunload : ∀ j w w' r, unload j w = some (w', r) →
      hasPermUnres w j = true → PassSteps w w')
    (i : ModId)
    (hok : ∀ w w', unload i w = some (w', .ok ()) → (w'.mods i).m_binaryLoaded = false) :
    ∀ (ks : List Nat) (b : Bool) (w w' : World),
      updateDependenciesLoop upd load unload i ks b w = some (w', .ok true) →
      b = true ∨ ∃ wu, (wu.mods i).m_binaryLoaded = false ∧ PassSteps wu w' := by
  intro ks
  induction ks with
  | nil =>
    intro b w w' h
    simp only [updateDependenciesLoop, Option.some.injEq, Prod.mk.injEq, Except.ok.injEq] at h
    exact Or.inl h.2
  | cons k ks ih =>
    intro b w w' h
    rw [updateDependenciesLoop] at h
    split at h
    · cases h
    · simp at h
    · next w1 u hd =>
      split at h
      · split at h
        · cases h
        · simp at h
        · next w2 u2 hu =>
          exact Or.inr ⟨w2, hok w1 w2 hu,
            updateDependenciesLoop_steps upd load unload hupd hload hunload i ks true w2 w' _ h⟩
      · exact ih b w1 w' h

/-- When `updateDependencies` on a mod returns success and the mod is left with an
unresolved declared dependency, the mod is not loaded. -/
theorem updateDependencies_ok_unresolved (env : Env) (n : Nat) (i : ModId)
    (w w' : World) (h : updateDependencies env n i w = some (w', .ok ()))
    (hu : hasUnresolvedDependencies w' i = true) : (w'.mods i).m_binaryLoaded = false := by
  cases n with
  | zero => simp [updateDependencies] at h
  | succ n =>
    obtain ⟨hU, -, hL, hN, -⟩ := passSim env n
    rw [updateDependencies] at h
    split at h
    · cases h
    · simp at h
    · next w1 b hloop =>
      have s1 := updateDependenciesLoop_steps _ _ _ hU hL hN i _ _ _ _ _ hloop
      cases b with
      | false =>
        exfalso
        have hres := updateDependenciesLoop_resolved _ _ _ hU hL hN i _ _ _ _ hloop
        have hu1 : hasUnresolvedDependencies w1 i = false := by
          rw [hasUnresolvedDependencies_eq_false_iff]
          intro k hk
          rw [s1.length i] at hk
          exact hres k (List.mem_range.mpr hk)
        have s2 : PassSteps w1 w' := by
          simp only [Bool.not_false, if_true] at h
          split at h
          · next hen =>
            split at h
            · cases h
            · simp at h
            · next w2 u hl =>
              simp only [Option.some.injEq, Prod.mk.injEq, and_true] at h
              rw [← h]; exact hL i w1 w2 _ hl hen
          · simp only [Option.some.injEq, Prod.mk.injEq, and_true] at h
            rw [← h]; exact PassSteps.steps_refl w1
        rw [s2.steps_unresolved_mono i hu1] at hu
        cases hu
      | true =>
        simp only [Bool.not_true, Bool.false_eq_true, if_false, Option.some.injEq,
          Prod.mk.injEq, and_true] at h
        subst h
        rcases updateDependenciesLoop_unloaded _ _ _ hU hL hN i
          (fun a a' ha => (unloadBinary_ok_unloaded env n i a a' ha).1) _ _ _ _ hloop with
          hb | ⟨wu, hwu, su⟩
        · cases hb
        · exact su.not_loaded_stays i hwu hu

/-- A failed `unloadBinary` leaves the mod as loaded as it was. -/
theorem unloadBinary_error_loaded (env : Env) (n : Nat) (i : ModId) (w w' : World)
    (e : String) (h : unloadBinary env n i w = some (w', .error e)) :
    (w'.mods i).m_binaryLoaded = (w.mods i).m_binaryLoaded := by
  cases n with
  | zero => simp [unloadBinary] at h
  | succ n =>
    rw [unloadBinary] at h
    split at h
    · simp at h
    · next hl =>
      have hl : (w.mods i).m_binaryLoaded = true := by simpa using hl
      split at h
      · simp only [Option.some.injEq, Prod.mk.injEq] at h
        rw [← h.1]
      · have s1 : SoftOn i w (saveData env i w).1 :=
          SoftOn.of_mods i _ _ (saveData_mods env i w) (saveData_known env i w)
        split at h
        · next w1 e1 hs =>
          rw [hs] at s1
          simp only [Option.some.injEq, Prod.mk.injEq] at h
          rw [← h.1]; exact s1.loaded i
        · next w1 u hs =>
          rw [hs] at s1
          simp only at s1
          obtain ⟨-, -, -, d4, -, -, -, -⟩ := disable_frame env i w1
          split at h
          · next w2 e2 hd =>
            rw [hd] at d4
            simp only [Option.some.injEq, Prod.mk.injEq] at h
            rw [← h.1]; exact d4.trans (s1.loaded i)
          · next w2 u2 hd =>
            rw [hd] at d4
            simp only at d4 h
            have hl2 : (w2.mods i).m_binaryLoaded = true := d4.trans ((s1.loaded i).trans hl)
            have s3a : SoftOn i w2 (w2.log (.event i .Unloaded)) := SoftOn.of_mods i _ _ rfl rfl
            have s3b := deleteHooks_soft i (w2.log (.event i .Unloaded)) hl2
            have s3c := deletePatches_soft i (deleteHooks i (w2.log (.event i .Unloaded)))
              ((s3b.loaded i).trans hl2)
            have s3 := (s3a.soft_trans s3b).soft_trans s3c
            generalize deletePatches i (deleteHooks i (w2.log (.event i .Unloaded))) = w7
              at h s3
            have s4 : SoftOn i w7 (unloadPlatformBinary env i w7).1 :=
              SoftOn.of_mods i _ _ rfl rfl
            split at h
            · next w8 e8 hp =>
              rw [hp] at s4
              simp only [Option.some.injEq, Prod.mk.injEq] at h
              rw [← h.1]
              exact (((s3.soft_trans s4).loaded i).trans hl2).trans hl.symm
            · split at h
              · cases h
              · simp at h

/-- The hook loop of `disable`: either every hook is disabled, in order, or the loop stops
at the first hook that fails. Only the trace changes. -/
theorem disableHooks_spec (env : Env) : ∀ (hs : List Hook) (w : World),
    ((disableHooks env hs w).2 = .ok () ∧
      (disableHooks env hs w).1.trace =
        w.trace ++ hs.map (fun h => Effect.hookDisable h true)) ∨
    (∃ k h e, hs[k]? = some h ∧ (disableHooks env hs w).2 = .error e ∧
      (disableHooks env hs w).1.trace =
        w.trace ++ (hs.take k).map (fun h => Effect.hookDisable h true) ++
          [.hookDisable h false]) := by
  intro hs
  induction hs with
  | nil => intro w; left; simp [disableHooks]
  | cons h hs ih =>
    intro w
    rcases hr : env.hookDisable w.trace h with e | u
    · right
      refine ⟨0, h, e, by simp, ?_⟩
      simp [disableHooks, disableHook, hr, isOk]
    · simp only [disableHooks, disableHook, hr, isOk]
      rcases ih (w.log (.hookDisable h true)) with ⟨h1, h2⟩ | ⟨k, g, e, h0, h1, h2⟩
      · left
        refine ⟨h1, ?_⟩
        rw [h2]; simp
      · right
        refine ⟨k + 1, g, e, by simpa using h0, h1, ?_⟩
        rw [h2]; simp

/-- The patch loop of `disable`: either every patch is restored, in order, or the loop
stops at the first patch that fails, with an error naming its address. -/
theorem restorePatches_spec (env : Env) : ∀ (ps : List Patch) (w : World),
    ((restorePatches env ps w).2 = .ok () ∧
      (restorePatches env ps w).1.trace =
        w.trace ++ ps.map (fun p => Effect.patchRestore p true)) ∨
    (∃ k p, ps[k]? = some p ∧
      (restorePatches env ps w).2 =
        .error ("Unable to restore patch at " ++ toString p.m_address) ∧
      (restorePatches env ps w).1.trace =
        w.trace ++ (ps.take k).map (fun p => Effect.patchRestore p true) ++
          [.patchRestore p false]) := by
  intro ps
  induction ps with
  | nil => intro w; left; simp [restorePatches]
  | cons p ps ih =>
    intro w
    have ht := Patch.restore_trace env p w
    rcases hp : p.restore env w with ⟨w1, b⟩
    rw [hp] at ht
    cases b
    · right
      refine ⟨0, p, by simp, ?_⟩
      simpa [restorePatches, hp] using ht
    · simp only [restorePatches, hp]
      rcases ih w1 with ⟨h1, h2⟩ | ⟨k, q, h0, h1, h2⟩
      · left
        refine ⟨h1, ?_⟩
        rw [h2, ht]; simp
      · right
        refine ⟨k + 1, q, by simpa using h0, h1, ?_⟩
        rw [h2, ht]; simp

/-- C12: on an enabled mod with `supportsDisabling = false`, `disable` returns the error
"Mod does not support disabling" and leaves the whole world as it is: no notification,
no hook disabled, no patch restored, no field of the mod changed. -/
theorem disable_unsupported (env : Env) (i : ModId) (w : World)
    (he : (w.mods i).m_enabled = true) (hs : (w.mods i).m_info.supportsDisabling = false) :
    disable env i w = (w, .error "Mod does not support disabling") := by
  unfold disable
  simp [he, hs]

/-- C12 (witness): the statement at mod A of `worldNoDisable`. -/
theorem disable_unsupported_witness :
    ((worldNoDisable.mods "A").m_enabled = true ∧
      (worldNoDisable.mods "A").m_info.supportsDisabling = false) ∧
    disable envOk "A" worldNoDisable = (worldNoDisable, .error "Mod does not support disabling") :=
  ⟨⟨rfl, rfl⟩, disable_unsupported envOk "A" worldNoDisable rfl rfl⟩

/-! ## Uninstalling a mod that does not support disabling (C15) -/

/-- C15: on a mod with `supportsDisabling = false`, `uninstall` does nothing but attempt to
delete the package file: the only new effect is that attempt, no mod changes (so
`m_enabled`, `m_binaryLoaded`, hooks and patches are unchanged), and the result is an
error exactly when the deletion fails. -/
theorem uninstall_unsupported (env : Env) (n : Nat) (i : ModId) (w : World)
    (hs : (w.mods i).m_info.supportsDisabling = false) :
    ∃ w' r, uninstall env n i w = some (w', r) ∧
      w'.mods = w.mods ∧ w'.known = w.known ∧ w'.memory = w.memory ∧
      w'.trace = w.trace ++
        [.removeFile (w.mods i).m_info.path (env.removeFile w.trace (w.mods i).m_info.path)] ∧
      (isOk r = false ↔ env.removeFile w.trace (w.mods i).m_info.path = false) := by
  refine ⟨(removePackage env i w).1, (removePackage env i w).2, by simp [uninstall, hs],
    rfl, rfl, rfl, rfl, ?_⟩
  unfold removePackage
  dsimp only
  cases env.removeFile w.trace (w.mods i).m_info.path <;> simp [isOk]

/-- C15 (witness): in `envStuck` the package file of A cannot be deleted; `uninstall`
returns an error and A is still loaded, enabled and owns its hooks and patch. -/
theorem uninstall_unsupported_witness :
    (uninstall envStuck 0 "A" worldNoDisable).map
        (fun r => (isOk r.2, (r.1.mods "A").m_enabled, (r.1.mods "A").m_binaryLoaded,
          (r.1.mods "A").m_hooks, r.1.trace)) =
      some (false, true, true, [1, 2, 3], [.removeFile "mod.geode" false]) ∧
    (worldNoDisable.mods "A").m_info.supportsDisabling = false ∧
    ∃ w' r, uninstall envStuck 0 "A" worldNoDisable = some (w', r) ∧
      w'.mods = worldNoDisable.mods ∧ w'.known = worldNoDisable.known ∧
      w'.memory = worldNoDisable.memory ∧
      w'.trace = worldNoDisable.trace ++
        [.removeFile (worldNoDisable.mods "A").m_info.path
          (envStuck.removeFile worldNoDisable.trace (worldNoDisable.mods "A").m_info.path)] ∧
      (isOk r = false ↔
        envStuck.removeFile worldNoDisable.trace (worldNoDisable.mods "A").m_info.path =
          false) :=
  ⟨rfl, rfl, uninstall_unsupported envStuck 0 "A" worldNoDisable rfl⟩

/-! ## Operations on a mod that is already in the target state (C17) -/

/-- C17: `loadBinary` on a loaded mod, `unloadBinary` on a mod that is not loaded and
`disable` on a mod that is not enabled return success and leave the whole world as it
is: no field changes, the trace gets no notification, and no resolution pass runs. -/
theorem noop_in_target_state (env : Env) (n : Nat) (i : ModId) (w : World) :
    ((w.mods i).m_binaryLoaded = true → loadBinary env (n + 1) i w = some (w, .ok ())) ∧
    ((w.mods i).m_binaryLoaded = false → unloadBinary env (n + 1) i w = some (w, .ok ())) ∧
    ((w.mods i).m_enabled = false → disable env i w = (w, .ok ())) := by
  refine ⟨fun h => ?_, fun h => ?_, fun h => ?_⟩
  · rw [loadBinary]; simp [h]
  · rw [unloadBinary]; simp [h]
  · unfold disable; simp [h]

/-- C17 (witness): A is loaded in `worldNoDisable`; A is neither loaded nor enabled in
`worldSolo`. -/
theorem noop_in_target_state_witness :
    ((worldNoDisable.mods "A").m_binaryLoaded = true ∧
      loadBinary envOk 1 "A" worldNoDisable = some (worldNoDisable, .ok ())) ∧
    ((worldSolo.mods "A").m_binaryLoaded = false ∧
      unloadBinary envOk 1 "A" worldSolo = some (worldSolo, .ok ())) ∧
    ((worldSolo.mods "A").m_enabled = false ∧ disable envOk "A" worldSolo = (worldSolo, .ok ())) :=
  ⟨⟨rfl, (noop_in_target_state envOk 0 "A" worldNoDisable).1 rfl⟩,
    ⟨rfl, (noop_in_target_state envOk 0 "A" worldSolo).2.1 rfl⟩,
    ⟨rfl, (noop_in_target_state envOk 0 "A" worldSolo).2.2 rfl⟩⟩

/-! ## Adding a hook (C19) -/

/-- C19: when the loader is ready to hook, `addHook` installs the hook; on success the
hook is appended to the hook collection of the mod and returned, on failure the hook is
deleted, the collection is unchanged and the error "Can't create hook" is returned. When
the loader is not ready, the hook is appended to the pending queue of the loader
together with the mod, nothing is installed (the trace is unchanged), no mod is changed
and the hook is returned. -/
theorem addHook_spec (env : Env) (i : ModId) (h : Hook) (w : World) :
    (w.readyToHook = true → ∀ u, env.hookEnable w.trace h = .ok u →
      addHook env i h w =
        ((w.log (.hookEnable h true)).modify i
          (fun m => { m with m_hooks := m.m_hooks ++ [h] }), .ok h)) ∧
    (w.readyToHook = true → ∀ e, env.hookEnable w.trace h = .error e →
      addHook env i h w =
        ((w.log (.hookEnable h false)).log (.deleteHook h), .error "Can\x27t create hook") ∧
      (addHook env i h w).1.mods = w.mods) ∧
    (w.readyToHook = false →
      addHook env i h w = ({ w with internalHooks := w.internalHooks ++ [(h, i)] }, .ok h) ∧
      (addHook env i h w).1.mods = w.mods ∧ (addHook env i h w).1.trace = w.trace) := by
  refine ⟨fun hr u hu => ?_, fun hr e he => ?_, fun hr => ?_⟩
  · simp [addHook, hr, enableHook_ok env i h w u hu]
  · have : addHook env i h w =
        ((w.log (.hookEnable h false)).log (.deleteHook h), .error "Can\x27t create hook") := by
      simp [addHook, hr, enableHook_error env i h w e he]
    rw [this]
    exact ⟨rfl, rfl⟩
  · have : addHook env i h w =
        ({ w with internalHooks := w.internalHooks ++ [(h, i)] }, .ok h) := by
      simp [addHook, hr]
    rw [this]
    exact ⟨rfl, rfl, rfl⟩

/-- C19 (witness): in `envFailing` hook 1 can be installed and hook 2 cannot; in
`worldNotReady` hook 1 is queued. -/
theorem addHook_spec_witness :
    (((addHook envFailing "A" 1 worldSolo).2,
        ((addHook envFailing "A" 1 worldSolo).1.mods "A").m_hooks) = (.ok 1, [1]) ∧
      ((addHook envFailing "A" 2 worldSolo).2,
        ((addHook envFailing "A" 2 worldSolo).1.mods "A").m_hooks) =
        (.error "Can\x27t create hook", []) ∧
      ((addHook envFailing "A" 1 worldNotReady).2,
        ((addHook envFailing "A" 1 worldNotReady).1.mods "A").m_hooks,
        (addHook envFailing "A" 1 worldNotReady).1.internalHooks,
        (addHook envFailing "A" 1 worldNotReady).1.trace) = (.ok 1, [], [(1, "A")], [])) ∧
    (worldSolo.readyToHook = true ∧ envFailing.hookEnable worldSolo.trace 1 = .ok () ∧
      addHook envFailing "A" 1 worldSolo =
        ((worldSolo.log (.hookEnable 1 true)).modify "A"
          (fun m => { m with m_hooks := m.m_hooks ++ [1] }), .ok 1)) ∧
    (worldSolo.readyToHook = true ∧
      envFailing.hookEnable worldSolo.trace 2 = .error "no such function" ∧
      addHook envFailing "A" 2 worldSolo =
        ((worldSolo.log (.hookEnable 2 false)).log (.deleteHook 2),
          .error "Can\x27t create hook") ∧
      (addHook envFailing "A" 2 worldSolo).1.mods = worldSolo.mods) ∧
    (worldNotReady.readyToHook = false ∧
      addHook envFailing "A" 1 worldNotReady =
        ({ worldNotReady with internalHooks := worldNotReady.internalHooks ++ [(1, "A")] },
          .ok 1) ∧
      (addHook envFailing "A" 1 worldNotReady).1.mods = worldNotReady.mods ∧
      (addHook envFailing "A" 1 worldNotReady).1.trace = worldNotReady.trace) :=
  ⟨⟨rfl, rfl, rfl⟩,
    ⟨rfl, rfl, (addHook_spec envFailing "A" 1 worldSolo).1 rfl () rfl⟩,
    ⟨rfl, rfl, (addHook_spec envFailing "A" 2 worldSolo).2.1 rfl "no such function" rfl⟩,
    ⟨rfl, (addHook_spec envFailing "A" 1 worldNotReady).2.2 rfl⟩⟩

/-! ## A failing `enable` at the end of `loadBinary` (C16) -/

/-- C16: take a mod that is not loaded and has no unresolved dependency, for which
`createTempDir` and `loadPlatformBinary` succeed. When the nested resolution pass returns
and the final `enable` returns the error `e`, `loadBinary` returns that same error `e`
(with the world `enable` produced), and the mod is left with `m_binaryLoaded = true`:
the load is not rolled back. -/
theorem loadBinary_enable_fails (env : Env) (n : Nat) (i : ModId) (w w1 w2 w5 w' : World)
    (e : String)
    (hl : (w.mods i).m_binaryLoaded = false)
    (hu : hasUnresolvedDependencies w i = false)
    (hc : createTempDir env i w = (w1, .ok ()))
    (hp : loadPlatformBinary env i (w1.log (.provideNextMod i)) = (w2, .ok ()))
    (ha : updateAllDependencies env n
      ((runCalls env i
        (env.implicitLoadFunc (w2.modify i (fun m => { m with m_binaryLoaded := true })).trace i)
        ((w2.modify i (fun m => { m with m_binaryLoaded := true })).log
          (.implicitLoadFunc i))).log (.event i .Loaded)) = some w5)
    (he : enable env n i w5 = some (w', .error e)) :
    loadBinary env (n + 1) i w = some (w', .error e) ∧
    (w5.mods i).m_binaryLoaded = true ∧ (w'.mods i).m_binaryLoaded = true := by
  have s1 := createTempDir_soft env i w
  rw [hc] at s1
  simp only at s1
  have hu1 : hasUnresolvedDependencies w1 i = false := (s1.unresolved i).trans hu
  have s2 : SoftOn i w1 (loadPlatformBinary env i (w1.log (.provideNextMod i))).1 :=
    SoftOn.of_mods i _ _ rfl rfl
  rw [hp] at s2
  simp only at s2
  have hu2 : hasUnresolvedDependencies w2 i = false := (s2.unresolved i).trans hu1
  have hinfo3 : ∀ j, ((w2.modify i (fun m => { m with m_binaryLoaded := true })).mods
      j).m_info = (w2.mods j).m_info := by
    intro j
    by_cases hj : j = i
    · subst hj; rw [World.modify_self]
    · rw [World.modify_other _ _ _ _ hj]
  have hl3 : ((w2.modify i (fun m => { m with m_binaryLoaded := true })).mods
      i).m_binaryLoaded = true := by rw [World.modify_self]
  have hu3 : hasUnresolvedDependencies
      (w2.modify i (fun m => { m with m_binaryLoaded := true })) i = false := by
    rw [hasUnresolvedDependencies_congr w2 _ i hinfo3]; exact hu2
  have hload : loadBinary env (n + 1) i w = some (w', .error e) := by
    rw [loadBinary]
    simp only [hl, hc, hu1, hp, ha, he, Bool.false_eq_true, if_false]
  refine ⟨hload, ?_⟩
  generalize w2.modify i (fun m => { m with m_binaryLoaded := true }) = w3 at ha hl3 hu3
  have s4a : SoftOn i w3 (w3.log (.implicitLoadFunc i)) := SoftOn.of_mods i _ _ rfl rfl
  have s4b := runCalls_soft env i (env.implicitLoadFunc w3.trace i)
    (w3.log (.implicitLoadFunc i)) hl3
  generalize runCalls env i (env.implicitLoadFunc w3.trace i)
    (w3.log (.implicitLoadFunc i)) = w4 at ha s4b
  have s4c : SoftOn i w4 (w4.log (.event i .Loaded)) := SoftOn.of_mods i _ _ rfl rfl
  have s35 : PassSteps w3 w5 :=
    ((s4a.soft_trans s4b).soft_trans s4c).steps.trans (updateAllDependencies_steps env n _ _ ha)
  have hl5 := PassSteps.steps_loaded_stays s35 i hl3 hu3
  have hu5 := PassSteps.steps_unresolved_mono s35 i hu3
  have s5 : PassSteps w5 w' := (passSim env n).2.2.2.2 i w5 w' _ he (Or.inl hl5)
  exact ⟨hl5, PassSteps.steps_loaded_stays s5 i hl5 hu5⟩

/-- C16 (witness): A owns hook 2, which `envFailing` cannot enable. `loadBinary` on A
loads the binary, runs the entry point, posts Loaded, and returns the error of `enable`;
A stays loaded and is not enabled. -/
theorem loadBinary_enable_fails_witness :
    ((worldUnloadedHook.mods "A").m_binaryLoaded = false ∧
      hasUnresolvedDependencies worldUnloadedHook "A" = false ∧
      enable envFailing 15 "A" worldUnloadedHookPass =
        some (worldUnloadedHookAfter, .error "no such function") ∧
      worldUnloadedHookAfter.trace.filter Effect.isBinaryLoad =
        [.loadPlatformBinary "A" true, .implicitLoadFunc "A"] ∧
      (worldUnloadedHookAfter.mods "A").m_enabled = false) ∧
    loadBinary envFailing 16 "A" worldUnloadedHook =
      some (worldUnloadedHookAfter, .error "no such function") ∧
    (worldUnloadedHookPass.mods "A").m_binaryLoaded = true ∧
    (worldUnloadedHookAfter.mods "A").m_binaryLoaded = true :=
  ⟨⟨rfl, rfl, rfl, rfl, rfl⟩,
    loadBinary_enable_fails envFailing 15 "A" worldUnloadedHook worldUnloadedHookTemp
      worldUnloadedHookBinary worldUnloadedHookPass worldUnloadedHookAfter "no such function"
      rfl rfl rfl rfl rfl rfl⟩

/-! ## Enabled mods are loaded (C14) -/

theorem KeepsLoaded.keeps_refl (w : World) : KeepsLoaded w w := fun _ h => h

theorem KeepsLoaded.keeps_trans {w w' w'' : World} (h : KeepsLoaded w w')
    (h' : KeepsLoaded w' w'') : KeepsLoaded w w'' := fun j hj => h' j (h j hj)

theorem KeepsLoaded.of_flags {w w' : World}
    (h : ∀ j, (w'.mods j).m_enabled = false ∨ (w'.mods j).m_binaryLoaded = true ∨
      ((w'.mods j).m_enabled = (w.mods j).m_enabled ∧
        (w'.mods j).m_binaryLoaded = (w.mods j).m_binaryLoaded)) : KeepsLoaded w w' := by
  intro j hj
  unfold wasSuccesfullyLoaded at hj ⊢
  rcases h j with h | h | ⟨h1, h2⟩
  · simp [h]
  · simp [h]
  · rw [h1, h2]; exact hj

theorem KeepsLoaded.keeps_of_mods {w w' : World} (h : w'.mods = w.mods) : KeepsLoaded w w' :=
  KeepsLoaded.of_flags (fun j => Or.inr (Or.inr (by rw [h]; exact ⟨rfl, rfl⟩)))

theorem SoftOn.keepsLoaded {i : ModId} {w w' : World} (h : SoftOn i w w') : KeepsLoaded w w' :=
  KeepsLoaded.of_flags (fun j => Or.inr (Or.inr ⟨h.enabled j, h.loaded j⟩))

theorem PassStep.step_keepsLoaded {w w' : World} (h : PassStep w w') : KeepsLoaded w w' := by
  obtain ⟨-, i, ho, hs⟩ := h
  refine KeepsLoaded.of_flags (fun j => ?_)
  by_cases hji : j = i
  · subst hji
    cases hs with
    | soft _ hl he => exact Or.inr (Or.inr ⟨he, hl⟩)
    | resolve _ _ _ _ hl he => exact Or.inr (Or.inr ⟨he, hl⟩)
    | load _ _ _ _ _ hl => exact Or.inr (Or.inl hl)
    | unload _ _ _ _ he' => exact Or.inl he'
    | enable _ _ hl' => exact Or.inr (Or.inl hl')
    | disable _ _ he' => exact Or.inl he'
  · rw [ho j hji]; exact Or.inr (Or.inr ⟨rfl, rfl⟩)

theorem PassSteps.steps_keepsLoaded {w w' : World} (h : PassSteps w w') : KeepsLoaded w w' := by
  induction h with
  | refl => exact KeepsLoaded.keeps_refl _
  | tail _ hbc ih => exact ih.keeps_trans hbc.step_keepsLoaded

theorem KeepsLoaded.setLoaded (i : ModId) (w : World) :
    KeepsLoaded w (w.modify i (fun m => { m with m_binaryLoaded := true })) := by
  refine KeepsLoaded.of_flags (fun j => ?_)
  by_cases hji : j = i
  · subst hji; rw [World.modify_self]; exact Or.inr (Or.inl rfl)
  · rw [World.modify_other _ _ _ _ hji]; exact Or.inr (Or.inr ⟨rfl, rfl⟩)

theorem KeepsLoaded.setUnloaded (i : ModId) (w : World) (he : (w.mods i).m_enabled = false) :
    KeepsLoaded w (w.modify i (fun m => { m with m_binaryLoaded := false })) := by
  refine KeepsLoaded.of_flags (fun j => ?_)
  by_cases hji : j = i
  · subst hji; rw [World.modify_self]; exact Or.inl he
  · rw [World.modify_other _ _ _ _ hji]; exact Or.inr (Or.inr ⟨rfl, rfl⟩)

theorem disable_keepsLoaded (env : Env) (i : ModId) (w : World) :
    KeepsLoaded w (disable env i w).1 := by
  obtain ⟨-, h2, -, h4, -, -, h7, -⟩ := disable_frame env i w
  refine KeepsLoaded.of_flags (fun j => ?_)
  by_cases hji : j = i
  · subst hji
    rcases h7 with h7 | h7
    · exact Or.inr (Or.inr ⟨h7, h4⟩)
    · exact Or.inl h7
  · rw [h2 j hji]; exact Or.inr (Or.inr ⟨rfl, rfl⟩)

/-- The structure of `loadBinary` on a mod that is not loaded: either it fails before
the binary is loaded, with soft changes only, or it sets `m_binaryLoaded` on a mod without
unresolved dependencies and goes on with a sequence of elementary changes. -/
theorem loadBinary_inv (env : Env) (n : Nat) (i : ModId) (w w' : World) (r : Result)
    (h : loadBinary env (n + 1) i w = some (w', r))
    (hl : (w.mods i).m_binaryLoaded = false) :
    (SoftOn i w w' ∧ r ≠ .ok ()) ∨
    ∃ w2, SoftOn i w w2 ∧ hasUnresolvedDependencies w2 i = false ∧
      PassSteps (w2.modify i (fun m => { m with m_binaryLoaded := true })) w' := by
  rw [loadBinary] at h
  simp only [hl, Bool.false_eq_true, if_false] at h
  have s1 := createTempDir_soft env i w
  split at h
  · next w1 e hc =>
    rw [hc] at s1
    simp only [Option.some.injEq, Prod.mk.injEq] at h
    rw [← h.1, ← h.2]; exact Or.inl ⟨s1, by simp⟩
  · next w1 u hc =>
    rw [hc] at s1
    simp only at s1
    split at h
    · simp only [Option.some.injEq, Prod.mk.injEq] at h
      rw [← h.1, ← h.2]; exact Or.inl ⟨s1, by simp⟩
    · next hu =>
      have hu : hasUnresolvedDependencies w1 i = false := by simpa using hu
      have s2 : SoftOn i w1 (loadPlatformBinary env i (w1.log (.provideNextMod i))).1 :=
        SoftOn.of_mods i _ _ rfl rfl
      split at h
      · next w2 e hp =>
        rw [hp] at s2
        simp only [Option.some.injEq, Prod.mk.injEq] at h
        rw [← h.1, ← h.2]; exact Or.inl ⟨s1.soft_trans s2, by simp⟩
      · next w2 u2 hp =>
        rw [hp] at s2
        simp only at s2 h
        right
        have hu2 : hasUnresolvedDependencies w2 i = false := (s2.unresolved i).trans hu
        refine ⟨w2, s1.soft_trans s2, hu2, ?_⟩
        have hinfo3 : ∀ j, ((w2.modify i (fun m => { m with m_binaryLoaded := true })).mods
            j).m_info = (w2.mods j).m_info := by
          intro j
          by_cases hj : j = i
          · subst hj; rw [World.modify_self]
          · rw [World.modify_other _ _ _ _ hj]
        have hl3 : ((w2.modify i (fun m => { m with m_binaryLoaded := true })).mods
            i).m_binaryLoaded = true := by rw [World.modify_self]
        have hu3 : hasUnresolvedDependencies
            (w2.modify i (fun m => { m with m_binaryLoaded := true })) i = false := by
          rw [hasUnresolvedDependencies_congr w2 _ i hinfo3]; exact hu2
        generalize w2.modify i (fun m => { m with m_binaryLoaded := true }) = w3 at h hl3 hu3
        have s4a : SoftOn i w3 (w3.log (.implicitLoadFunc i)) := SoftOn.of_mods i _ _ rfl rfl
        have s4b := runCalls_soft env i (env.implicitLoadFunc w3.trace i)
          (w3.log (.implicitLoadFunc i)) hl3
        generalize runCalls env i (env.implicitLoadFunc w3.trace i)
          (w3.log (.implicitLoadFunc i)) = w4 at h s4b
        have s4c : SoftOn i w4 (w4.log (.event i .Loaded)) := SoftOn.of_mods i _ _ rfl rfl
        split at h
        · cases h
        · next w5 ha =>
          have s35 : PassSteps w3 w5 := ((s4a.soft_trans s4b).soft_trans s4c).steps.trans
            (updateAllDependencies_steps env n _ _ ha)
          have hl5 := PassSteps.steps_loaded_stays s35 i hl3 hu3
          exact s35.trans ((passSim env n).2.2.2.2 i w5 w' r h (Or.inl hl5))

theorem loadBinary_keepsLoaded (env : Env) (n : Nat) (i : ModId) (w w' : World) (r : Result)
    (h : loadBinary env n i w = some (w', r)) : KeepsLoaded w w' := by
  cases n with
  | zero => simp [loadBinary] at h
  | succ n =>
    cases hl : (w.mods i).m_binaryLoaded with
    | true =>
      rw [loadBinary] at h
      simp only [hl, if_true, Option.some.injEq, Prod.mk.injEq] at h
      rw [← h.1]; exact KeepsLoaded.keeps_refl w
    | false =>
      rcases loadBinary_inv env n i w w' r h hl with ⟨s, -⟩ | ⟨w2, s, -, p⟩
      · exact s.keepsLoaded
      · exact (s.keepsLoaded.keeps_trans (KeepsLoaded.setLoaded i w2)).keeps_trans
          p.steps_keepsLoaded

theorem enable_keepsLoaded (env : Env) (n : Nat) (i : ModId) (w w' : World) (r : Result)
    (h : enable env n i w = some (w', r)) : KeepsLoaded w w' := by
  cases n with
  | zero => simp [enable] at h
  | succ n =>
    cases hl : (w.mods i).m_binaryLoaded with
    | true => exact ((passSim env (n + 1)).2.2.2.2 i w w' r h (Or.inl hl)).steps_keepsLoaded
    | false =>
      rw [enable] at h
      simp only [hl, Bool.not_false, if_true] at h
      exact loadBinary_keepsLoaded env n i w w' r h

theorem unloadBinary_keepsLoaded (env : Env) (n : Nat) (i : ModId) (w w' : World) (r : Result)
    (h : unloadBinary env n i w = some (w', r)) : KeepsLoaded w w' := by
  cases n with
  | zero => simp [unloadBinary] at h
  | succ n =>
    rw [unloadBinary] at h
    split at h
    · simp only [Option.some.injEq, Prod.mk.injEq] at h
      rw [← h.1]; exact KeepsLoaded.keeps_refl w
    · next hl =>
      have hl : (w.mods i).m_binaryLoaded = true := by simpa using hl
      split at h
      · simp only [Option.some.injEq, Prod.mk.injEq] at h
        rw [← h.1]; exact KeepsLoaded.keeps_refl w
      · have s1 : SoftOn i w (saveData env i w).1 :=
          SoftOn.of_mods i _ _ (saveData_mods env i w) (saveData_known env i w)
        split at h
        · next w1 e hs =>
          rw [hs] at s1
          simp only [Option.some.injEq, Prod.mk.injEq] at h
          rw [← h.1]; exact s1.keepsLoaded
        · next w1 u hs =>
          rw [hs] at s1
          simp only at s1
          have s2 := disable_keepsLoaded env i w1
          obtain ⟨-, -, -, d4, -, -, -, d8⟩ := disable_frame env i w1
          split at h
          · next w2 e hd =>
            rw [hd] at s2
            simp only [Option.some.injEq, Prod.mk.injEq] at h
            rw [← h.1]; exact s1.keepsLoaded.keeps_trans s2
          · next w2 u2 hd =>
            rw [hd] at s2 d4 d8
            simp only at s2 d4 d8 h
            have he2 : (w2.mods i).m_enabled = false := d8 trivial
            have hl2 : (w2.mods i).m_binaryLoaded = true := d4.trans ((s1.loaded i).trans hl)
            have s3a : SoftOn i w2 (w2.log (.event i .Unloaded)) := SoftOn.of_mods i _ _ rfl rfl
            have s3b := deleteHooks_soft i (w2.log (.event i .Unloaded)) hl2
            have s3c := deletePatches_soft i (deleteHooks i (w2.log (.event i .Unloaded)))
              ((s3b.loaded i).trans hl2)
            have s3 := (s3a.soft_trans s3b).soft_trans s3c
            generalize deletePatches i (deleteHooks i (w2.log (.event i .Unloaded))) = w7
              at h s3
            have s4 : SoftOn i w7 (unloadPlatformBinary env i w7).1 :=
              SoftOn.of_mods i _ _ rfl rfl
            split at h
            · next w8 e hp =>
              rw [hp] at s4
              simp only [Option.some.injEq, Prod.mk.injEq] at h
              rw [← h.1]
              exact (s1.keepsLoaded.keeps_trans s2).keeps_trans (s3.soft_trans s4).keepsLoaded
            · next w8 u8 hp =>
              rw [hp] at s4
              simp only at s4 h
              have s24 := s3.soft_trans s4
              have he8 : (w8.mods i).m_enabled = false := (s24.enabled i).trans he2
              split at h
              · cases h
              · next w9 ha =>
                simp only [Option.some.injEq, Prod.mk.injEq] at h
                rw [← h.1]
                exact (((s1.keepsLoaded.keeps_trans s2).keeps_trans s24.keepsLoaded).keeps_trans
                  (KeepsLoaded.setUnloaded i w8 he8)).keeps_trans
                  (updateAllDependencies_steps env n _ _ ha).steps_keepsLoaded

theorem uninstall_keepsLoaded (env : Env) (n : Nat) (i : ModId) (w w' : World) (r : Result)
    (h : uninstall env n i w = some (w', r)) : KeepsLoaded w w' := by
  have hrm : ∀ a : World, KeepsLoaded a (removePackage env i a).1 :=
    fun a => KeepsLoaded.keeps_of_mods rfl
  unfold uninstall at h
  split at h
  · have s1 := disable_keepsLoaded env i w
    split at h
    · next w1 e hd =>
      rw [hd] at s1
      simp only [Option.some.injEq, Prod.mk.injEq] at h
      rw [← h.1]; exact s1
    · next w1 u hd =>
      rw [hd] at s1
      simp only at s1
      split at h
      · split at h
        · cases h
        · next w2 e hu =>
          simp only [Option.some.injEq, Prod.mk.injEq] at h
          rw [← h.1]; exact s1.keeps_trans (unloadBinary_keepsLoaded env n i w1 w2 _ hu)
        · next w2 u2 hu =>
          simp only [Option.some.injEq] at h
          have := hrm w2
          rw [h] at this
          exact (s1.keeps_trans (unloadBinary_keepsLoaded env n i w1 w2 _ hu)).keeps_trans this
      · simp only [Option.some.injEq] at h
        have := hrm w1
        rw [h] at this
        exact s1.keeps_trans this
  · simp only [Option.some.injEq] at h
    have := hrm w
    rw [h] at this
    exact this

/-- C14: the predicate `wasSuccesfullyLoaded` ("enabled implies binary loaded") is
preserved by every lifecycle operation, for the mod the operation is called on and for
every other mod: if it holds for a mod before `loadBinary`, `unloadBinary`, `enable`,
`disable`, `uninstall` or `updateDependencies`, it holds for that mod in the world the
operation returns, whether the result is success or an error. -/
theorem lifecycle_keeps_wasSuccesfullyLoaded (env : Env) (n : Nat) (i : ModId)
    (w w' : World) (r : Result)
    (h : loadBinary env n i w = some (w', r) ∨ unloadBinary env n i w = some (w', r) ∨
      enable env n i w = some (w', r) ∨ disable env i w = (w', r) ∨
      uninstall env n i w = some (w', r) ∨ updateDependencies env n i w = some (w', r))
    (j : ModId) (hj : wasSuccesfullyLoaded w j = true) : wasSuccesfullyLoaded w' j = true := by
  rcases h with h | h | h | h | h | h
  · exact loadBinary_keepsLoaded env n i w w' r h j hj
  · exact unloadBinary_keepsLoaded env n i w w' r h j hj
  · exact enable_keepsLoaded env n i w w' r h j hj
  · have := disable_keepsLoaded env i w
    rw [h] at this
    exact this j hj
  · exact uninstall_keepsLoaded env n i w w' r h j hj
  · exact (updateDependencies_passSteps env n i w w' r h).steps_keepsLoaded j hj

/-- C14 (witness): `loadBinary` on A in `worldUnloadedHook` returns an error after the
binary has been loaded; A satisfies `wasSuccesfullyLoaded` before and after. -/
theorem lifecycle_keeps_wasSuccesfullyLoaded_witness :
    wasSuccesfullyLoaded worldUnloadedHook "A" = true ∧
    loadBinary envFailing 16 "A" worldUnloadedHook =
      some (worldUnloadedHookAfter, .error "no such function") ∧
    wasSuccesfullyLoaded worldUnloadedHookAfter "A" = true :=
  ⟨rfl, rfl, lifecycle_keeps_wasSuccesfullyLoaded envFailing 16 "A" worldUnloadedHook
    worldUnloadedHookAfter (.error "no such function") (Or.inl rfl) "A" rfl⟩

/-! ## Failures inside the dependency loop (C13) -/

/-- When the loop ends with `hasUnresolved = true`, the flag was set before or one of
the dependencies it went through cannot be resolved. -/
theorem updateDependenciesLoop_perm
    (upd load unload : ModId → World → Option (World × Result))
    (hupd : ∀ j w w' r, upd j w = some (w', r) → PassSteps w w')
    (hload : ∀ j w w' r, load j w = some (w', r) → (w.mods j).m_enabled = true →
      PassSteps w w')
    (hunload : ∀ j w w' r, unload j w = some (w', r) →
      hasPermUnres w j = true → PassSteps w w')
    (i : ModId) : ∀ (ks : List Nat) (b : Bool) (w w' : World),
      updateDependenciesLoop upd load unload i ks b w = some (w', .ok true) →
      b = true ∨ ∃ k ∈ ks, depPermUnres w' i k = true := by
  intro ks
  induction ks with
  | nil =>
    intro b w w' h
    simp only [updateDependenciesLoop, Option.some.injEq, Prod.mk.injEq, Except.ok.injEq] at h
    exact Or.inl h.2
  | cons k ks ih =>
    intro b w w' h
    rw [updateDependenciesLoop] at h
    split at h
    · cases h
    · simp at h
    · next w1 u hd =>
      have s01 := updateDependency_steps upd load hupd hload i k _ w1 _ hd
      split at h
      · next hres =>
        have hres : depResolved w1 i k = false := by simpa using hres
        have hp1 : depPermUnres w1 i k = true := by
          rw [s01.steps_depPermUnres i k]
          rcases lookupDependency_resolved_or_perm i k w with h0 | h0
          · rw [s01.steps_depResolved_mono i k h0] at hres; cases hres
          · exact h0
        have hun : hasPermUnres w1 i = true := (hasPermUnres_iff w1 i).2 ⟨k, hp1⟩
        split at h
        · cases h
        · simp at h
        · next w2 u2 hu =>
          right
          refine ⟨k, List.mem_cons_self _ _, ?_⟩
          have s12 := hunload i w1 w2 _ hu hun
          have s2 := updateDependenciesLoop_steps upd load unload hupd hload hunload i ks true
            w2 w' _ h
          rw [PassSteps.steps_depPermUnres (s12.trans s2) i k]; exact hp1
      · rcases ih b w1 w' h with hb | ⟨k', hk', hp⟩
        · exact Or.inl hb
        · exact Or.inr ⟨k', List.mem_cons_of_mem _ hk', hp⟩

/-- The flag `hasUnresolved` at the end of the loop of `updateDependencies` over all the
dependencies says whether the mod has an unresolved dependency then. -/
theorem updateDependenciesLoop_flag_eq (env : Env) (n : Nat) (i : ModId) (w w1 : World)
    (b : Bool)
    (h : updateDependenciesLoop (updateDependencies env n) (loadBinary env n)
      (unloadBinary env n) i (List.range (w.mods i).m_info.dependencies.length) false w =
        some (w1, .ok b)) :
    b = hasUnresolvedDependencies w1 i := by
  obtain ⟨hU, -, hL, hN, -⟩ := passSim env n
  cases b with
  | false =>
    have s1 := updateDependenciesLoop_steps _ _ _ hU hL hN i _ _ _ _ _ h
    have hres := updateDependenciesLoop_resolved _ _ _ hU hL hN i _ _ _ _ h
    symm
    rw [hasUnresolvedDependencies_eq_false_iff]
    intro k hk
    rw [s1.length i] at hk
    exact hres k (List.mem_range.mpr hk)
  | true =>
    rcases updateDependenciesLoop_perm _ _ _ hU hL hN i _ _ _ _ h with hb | ⟨k, -, hp⟩
    · cases hb
    · exact (hasPermUnres_unresolved w1 i ((hasPermUnres_iff w1 i).2 ⟨k, hp⟩)).symm

/-- C13 (counterexample): A is loaded, does not support unloading, and requires M (not
registered) and then C (registered, version in range). `updateDependencies` on A returns
the error of the forced `unloadBinary`, and the second dependency has not been evaluated:
its cached mod is still empty, although the lookup would resolve it. In `worldTwoDeps`,
where the binary of B cannot be loaded, `updateDependencies` on A returns that error, and
the dependency on C has not been evaluated either. -/
theorem updateDependencies_stops_at_failure :
    (updateDependencies envOk 16 "A" worldStuckDeps).map
        (fun r => (r.2, (r.1.mods "A").m_info.dependencies.map (fun d => d.mod))) =
      some (.error "Unable to unload mod: Mod does not support unloading", [none, none]) ∧
    depResolved (lookupDependency "A" 1 worldStuckDeps) "A" 1 = true ∧
    (updateDependencies envNoBinaryB 16 "A" worldTwoDeps).map
        (fun r => (r.2, (r.1.mods "A").m_info.dependencies.map (fun d => d.mod),
          (r.1.mods "A").m_binaryLoaded)) =
      some (.error "cannot open library", [some "B", none], false) ∧
    depResolved (lookupDependency "A" 1 worldTwoDeps) "A" 1 = true := by
  refine ⟨rfl, rfl, rfl, rfl⟩

/-- C13 (amended): in the loop of `updateDependencies` on mod `i`, a failure ends the
call at once. An error of the dependency's `updateDependencies` or `loadBinary` is the
result of the loop, whatever dependencies remain; an error of the forced `unloadBinary`
is the result of the loop with the prefix "Unable to unload mod: "; and an error of the
loop is the result of `updateDependencies`, without the final `loadBinary`. When no call
fails, the flag `hasUnresolved` at the end of the loop over all dependencies is true
exactly when the mod has an unresolved dependency then. -/
theorem updateDependencies_failure_ends_call (env : Env) (n : Nat) (i : ModId) :
    (∀ (k : Nat) (ks : List Nat) (b : Bool) (w w1 : World) (e : String),
      updateDependency (updateDependencies env n) (loadBinary env n) i k
        (lookupDependency i k w) = some (w1, .error e) →
      updateDependenciesLoop (updateDependencies env n) (loadBinary env n)
        (unloadBinary env n) i (k :: ks) b w = some (w1, .error e)) ∧
    (∀ (k : Nat) (ks : List Nat) (b : Bool) (w w1 w2 : World) (e : String),
      updateDependency (updateDependencies env n) (loadBinary env n) i k
        (lookupDependency i k w) = some (w1, .ok ()) →
      depResolved w1 i k = false →
      unloadBinary env n i w1 = some (w2, .error e) →
      updateDependenciesLoop (updateDependencies env n) (loadBinary env n)
        (unloadBinary env n) i (k :: ks) b w =
          some (w2, .error ("Unable to unload mod: " ++ e))) ∧
    (∀ (w w1 : World) (e : String),
      updateDependenciesLoop (updateDependencies env n) (loadBinary env n)
        (unloadBinary env n) i (List.range (w.mods i).m_info.dependencies.length) false w =
          some (w1, .error e) →
      updateDependencies env (n + 1) i w = some (w1, .error e)) ∧
    (∀ (w w1 : World) (b : Bool),
      updateDependenciesLoop (updateDependencies env n) (loadBinary env n)
        (unloadBinary env n) i (List.range (w.mods i).m_info.dependencies.length) false w =
          some (w1, .ok b) →
      b = hasUnresolvedDependencies w1 i) := by
  refine ⟨?_, ?_, ?_, ?_⟩
  · intro k ks b w w1 e h
    rw [updateDependenciesLoop, h]
  · intro k ks b w w1 w2 e h hres hu
    rw [updateDependenciesLoop, h]
    simp only [hres, Bool.not_false, if_true, hu]
  · intro w w1 e h
    rw [updateDependencies, h]
  · intro w w1 b h
    exact updateDependenciesLoop_flag_eq env n i w w1 b h

/-- C13 (witness): in `worldStuckDeps` the forced `unloadBinary` of A fails at the first
dependency and the loop over both dependencies returns that error; in
`worldLoadedMissingDep` no call fails and the flag at the end of the loop is true, as A
has an unresolved dependency. -/
theorem updateDependencies_failure_ends_call_witness :
    (updateDependency (updateDependencies envOk 15) (loadBinary envOk 15) "A" 0
        (lookupDependency "A" 0 worldStuckDeps) = some (worldStuckDeps, .ok ()) ∧
      depResolved worldStuckDeps "A" 0 = false ∧
      unloadBinary envOk 15 "A" worldStuckDeps =
        some (worldStuckDeps, .error "Mod does not support unloading") ∧
      updateDependenciesLoop (updateDependencies envOk 15) (loadBinary envOk 15)
        (unloadBinary envOk 15) "A" [0, 1] false worldStuckDeps =
          some (worldStuckDeps,
            .error ("Unable to unload mod: " ++ "Mod does not support unloading"))) ∧
    (updateDependenciesLoop (updateDependencies envOk 15) (loadBinary envOk 15)
        (unloadBinary envOk 15) "A"
        (List.range (worldLoadedMissingDep.mods "A").m_info.dependencies.length) false
        worldLoadedMissingDep = some (worldLoadedMissingDepAfter, .ok true) ∧
      true = hasUnresolvedDependencies worldLoadedMissingDepAfter "A") :=
  ⟨⟨rfl, rfl, rfl,
      (updateDependencies_failure_ends_call envOk 15 "A").2.1 0 [1] false worldStuckDeps
        worldStuckDeps worldStuckDeps "Mod does not support unloading" rfl rfl rfl⟩,
    ⟨rfl, (updateDependencies_failure_ends_call envOk 15 "A").2.2.2 worldLoadedMissingDep
      worldLoadedMissingDepAfter true rfl⟩⟩

/-! ## The order of loading (C18) -/

/-- An enabled mod whose dependencies can all be resolved stays enabled. -/
theorem PassStep.step_enabled_stays {w w' : World} (h : PassStep w w') (j : ModId)
    (he : (w.mods j).m_enabled = true) (hu : hasPermUnres w j = false) :
    (w'.mods j).m_enabled = true := by
  obtain ⟨-, i, ho, hs⟩ := h
  by_cases hji : j = i
  · subst hji
    cases hs with
    | soft _ _ he' => exact he'.trans he
    | resolve _ _ _ _ _ he' => exact he'.trans he
    | load _ _ _ he' => exact he'
    | unload _ hu' => rw [hu] at hu'; cases hu'
    | enable _ _ _ he' => exact he'
    | disable _ _ _ _ _ hu' => rw [hu] at hu'; cases hu'
  · rw [ho j hji]; exact he

theorem PassSteps.steps_enabled_stays {w w' : World} (h : PassSteps w w') (j : ModId)
    (he : (w.mods j).m_enabled = true) (hu : hasPermUnres w j = false) :
    (w'.mods j).m_enabled = true := by
  induction h with
  | refl => exact he
  | tail hab hbc ih =>
    exact hbc.step_enabled_stays j ih ((PassSteps.steps_hasPermUnres hab j).trans hu)

theorem hasPermUnres_of_resolved (w : World) (j : ModId)
    (h : hasUnresolvedDependencies w j = false) : hasPermUnres w j = false := by
  cases hp : hasPermUnres w j with
  | false => rfl
  | true => rw [hasPermUnres_unresolved w j hp] at h; cases h

theorem PassStep.step_resolvesTo {w w' : World} (h : PassStep w w') (i : ModId) (k : Nat)
    (b : ModId) (hr : ResolvesTo w i k b) : ResolvesTo w' i k b := by
  obtain ⟨d, hd, hm, hc⟩ := hr
  obtain ⟨d', h1, h2, h3, h4⟩ := (h.step_deps i).2 k d hd
  refine ⟨d', h1, ?_, by rw [h3, h.step_version b]; exact hc⟩
  rw [getLoadedMod_congr w w' h.1, h2]
  rcases h4 with h4 | ⟨h4, j, h5, h6, -⟩
  · rw [h4]; exact hm
  · rcases hm with hm | ⟨-, hm⟩
    · rw [h4] at hm; cases hm
    · rw [hm] at h6
      injection h6 with h6
      left; rw [h5, h6]

theorem PassSteps.steps_resolvesTo {w w' : World} (h : PassSteps w w') (i : ModId) (k : Nat)
    (b : ModId) (hr : ResolvesTo w i k b) : ResolvesTo w' i k b := by
  induction h with
  | refl => exact hr
  | tail _ hbc ih => exact hbc.step_resolvesTo i k b ih

/-- After the lookup, a dependency that resolves to `b` has cached `b`. -/
theorem lookupDependency_resolvesTo (i : ModId) (k : Nat) (b : ModId) (w : World)
    (hr : ResolvesTo w i k b) :
    (depAt (lookupDependency i k w) i k).bind (fun dep => dep.mod) = some b := by
  obtain ⟨d, hd, hm, hc⟩ := hr
  unfold lookupDependency
  simp only [hd]
  rcases hm with hm | ⟨hm, hg⟩
  · simp only [hm, hd, Option.some_bind]
  · simp only [hm, hg, hc, if_true]
    have hat : depAt (setDepMod w i k (some b)) i k = some { d with mod := some b } := by
      unfold depAt at hd ⊢
      unfold setDepMod
      rw [World.modify_self]
      simp [List.getElem?_modify, hd]
    rw [hat]
    rfl

/-- When the loop of `updateDependencies` succeeds and goes through a dependency that
resolves to an enabled mod `b` without unresolved dependencies, `b` is loaded at the end
of the loop. -/
theorem updateDependenciesLoop_loads (env : Env) (n : Nat) (i : ModId) (b : ModId)
    (k : Nat) : ∀ (ks : List Nat) (f f' : Bool) (w w' : World),
      updateDependenciesLoop (updateDependencies env n) (loadBinary env n)
        (unloadBinary env n) i ks f w = some (w', .ok f') →
      k ∈ ks → ResolvesTo w i k b → (w.mods b).m_enabled = true →
      hasUnresolvedDependencies w b = false → (w'.mods b).m_binaryLoaded = true := by
  obtain ⟨hU, -, hL, hN, -⟩ := passSim env n
  intro ks
  induction ks with
  | nil => intro f f' w w' _ hk; cases hk
  | cons k0 ks ih =>
    intro f f' w w' h hk hr he hu
    have hperm := hasPermUnres_of_resolved w b hu
    rw [updateDependenciesLoop] at h
    have s0 := lookupDependency_steps i k0 w
    split at h
    · cases h
    · simp at h
    · next w1 u hd =>
      have s01 := updateDependency_steps _ _ hU hL i k0 _ w1 _ hd
      have s1 := s0.trans s01
      -- the rest of the loop, from the world `wr`
      have hrest : ∀ wr, PassSteps w1 wr → ∀ fr,
          updateDependenciesLoop (updateDependencies env n) (loadBinary env n)
            (unloadBinary env n) i ks fr wr = some (w', .ok f') →
          (w'.mods b).m_binaryLoaded = true := by
        intro wr s1r fr hloop
        have sr := PassSteps.steps_trans s1 s1r
        have s2 := updateDependenciesLoop_steps _ _ _ hU hL hN i ks fr wr w' _ hloop
        rcases List.mem_cons.mp hk with hk | hk
        · subst hk
          have hb := lookupDependency_resolvesTo i k b w hr
          unfold updateDependency at hd
          rw [hb] at hd
          simp only at hd
          split at hd
          · cases hd
          · simp at hd
          · next wa ua hupd =>
            have sa := s0.trans (hU b _ wa _ hupd)
            have hua := PassSteps.steps_unresolved_mono sa b hu
            have hea := PassSteps.steps_enabled_stays sa b he hperm
            simp only [hua, hea, Bool.not_false, if_true] at hd
            split at hd
            · cases hd
            · simp at hd
            · next wb ub hload =>
              have hub := ub
              cases hub
              have hlb := (enable_loadBinary_ok_loaded env n b wa wb).2 hload
              simp only [Option.some.injEq, Prod.mk.injEq, and_true] at hd
              subst hd
              exact PassSteps.steps_loaded_stays (s1r.trans s2) b hlb
                (PassSteps.steps_unresolved_mono (hL b wa wb _ hload hea) b hua)
        · exact ih fr f' wr w' hloop hk (PassSteps.steps_resolvesTo sr i k b hr)
            (PassSteps.steps_enabled_stays sr b he hperm)
            (PassSteps.steps_unresolved_mono sr b hu)
      split at h
      · next hres =>
        have hres : depResolved w1 i k0 = false := by simpa using hres
        have hun : hasPermUnres w1 i = true := by
          rw [hasPermUnres_iff]
          refine ⟨k0, ?_⟩
          rw [PassSteps.steps_depPermUnres s01 i k0]
          rcases lookupDependency_resolved_or_perm i k0 w with h0 | h0
          · rw [PassSteps.steps_depResolved_mono s01 i k0 h0] at hres; cases hres
          · exact h0
        split at h
        · cases h
        · simp at h
        · next w2 u2 hunl => exact hrest w2 (hN i w1 w2 _ hunl hun) true h
      · exact hrest w1 (PassSteps.steps_refl w1) f h

set_option maxHeartbeats 0 in
/-- The run of `updateDependencies` on A in `worldEnabledDep`. -/
theorem updateDependencies_worldEnabledDep :
    updateDependencies envOk 10 "A" worldEnabledDep = some (worldEnabledDepAfter, .ok ()) :=
  rfl

set_option maxHeartbeats 0 in
/-- C18 (counterexample): A (enabled) requires B in 1.0.0 ..< 2.0.0, and B is registered
at 1.5.0, enabled and not loaded. `updateDependencies` on A succeeds and leaves both
loaded, and the binary of B is loaded first; but `loadBinary` on A is invoked, and runs
to its end (the Enabled event of A), before `loadBinary` on B has completed (the Enabled
event of B): the resolution pass inside `loadBinary` on B reaches A. -/
theorem loadBinary_dependent_inside_dependency :
    updateDependencies envOk 10 "A" worldEnabledDep = some (worldEnabledDepAfter, .ok ()) ∧
    worldEnabledDepAfter.trace.filter (fun e => e.isEvent || e.isBinaryLoad) =
      [.loadPlatformBinary "B" true, .implicitLoadFunc "B", .event "B" .Loaded,
        .loadPlatformBinary "A" true, .implicitLoadFunc "A", .event "A" .Loaded,
        .event "A" .Enabled, .event "B" .Enabled] :=
  ⟨updateDependencies_worldEnabledDep, rfl⟩

/-- C18 (amended): let a dependency of A resolve to an enabled mod B without unresolved
dependencies. When `updateDependencies` on A returns success, B is loaded at the end of
the loop over the dependencies of A, that is before `updateDependencies` makes its own
call of `loadBinary` on A, and B is loaded at the end; A is loaded at the end when A is
enabled and is left without unresolved dependencies. -/
theorem updateDependencies_loads_dependency (env : Env) (n : Nat) (a b : ModId) (k : Nat)
    (w w' : World)
    (h : updateDependencies env (n + 1) a w = some (w', .ok ()))
    (hr : ResolvesTo w a k b) (he : (w.mods b).m_enabled = true)
    (hu : hasUnresolvedDependencies w b = false) :
    (∃ w1 f, updateDependenciesLoop (updateDependencies env n) (loadBinary env n)
        (unloadBinary env n) a (List.range (w.mods a).m_info.dependencies.length) false w =
          some (w1, .ok f) ∧
      (w1.mods b).m_binaryLoaded = true ∧
      (w' = w1 ∨ loadBinary env n a w1 = some (w', .ok ()))) ∧
    (w'.mods b).m_binaryLoaded = true ∧
    ((w.mods a).m_enabled = true → hasUnresolvedDependencies w' a = false →
      (w'.mods a).m_binaryLoaded = true) := by
  obtain ⟨hU, -, hL, hN, -⟩ := passSim env n
  have hk : k ∈ List.range (w.mods a).m_info.dependencies.length := by
    obtain ⟨d, hd, -⟩ := hr
    unfold depAt at hd
    rw [List.mem_range]
    by_contra hlt
    rw [List.getElem?_eq_none_iff.mpr (Nat.le_of_not_lt hlt)] at hd
    cases hd
  have hall := PassSteps.steps_hasPermUnres (updateDependencies_passSteps env _ a w w' _ h) a
  rw [updateDependencies] at h
  split at h
  · cases h
  · simp at h
  · next w1 f hloop =>
    have s1 := updateDependenciesLoop_steps _ _ _ hU hL hN a _ _ _ _ _ hloop
    have hb1 := updateDependenciesLoop_loads env n a b k _ _ _ _ _ hloop hk hr he hu
    have hu1 := PassSteps.steps_unresolved_mono s1 b hu
    have hf := updateDependenciesLoop_flag_eq env n a w w1 f hloop
    cases f with
    | true =>
      simp only [Bool.not_true, Bool.false_eq_true, if_false, Option.some.injEq,
        Prod.mk.injEq, and_true] at h
      subst h
      refine ⟨⟨w1, true, hloop, hb1, Or.inl rfl⟩, hb1, fun _ hua => ?_⟩
      rw [hua] at hf; cases hf
    | false =>
      simp only [Bool.not_false, if_true] at h
      split at h
      · next hen =>
        split at h
        · cases h
        · simp at h
        · next w2 u2 hl =>
          simp only [Option.some.injEq, Prod.mk.injEq, and_true] at h
          subst h
          have hu2 := u2
          cases hu2
          refine ⟨⟨w1, false, hloop, hb1, Or.inr hl⟩, ?_, fun _ _ => ?_⟩
          · exact PassSteps.steps_loaded_stays (hL a w1 w2 _ hl hen) b hb1 hu1
          · exact (enable_loadBinary_ok_loaded env n a w1 w2).2 hl
      · next hen =>
        simp only [Option.some.injEq, Prod.mk.injEq, and_true] at h
        subst h
        refine ⟨⟨w1, false, hloop, hb1, Or.inl rfl⟩, hb1, fun hea hua => ?_⟩
        exfalso
        apply hen
        refine PassSteps.steps_enabled_stays s1 a hea ?_
        rw [← hall]
        exact hasPermUnres_of_resolved _ a hua

set_option maxHeartbeats 0 in
/-- C18 (witness): A requires B in 1.0.0 ..< 2.0.0 and B is registered at 1.5.0, enabled
and without dependencies; `updateDependencies` on A succeeds and both are loaded at the
end. -/
theorem updateDependencies_loads_dependency_witness :
    (ResolvesTo worldEnabledDep "A" 0 "B" ∧ (worldEnabledDep.mods "B").m_enabled = true ∧
      (worldEnabledDep.mods "B").m_binaryLoaded = false ∧
      hasUnresolvedDependencies worldEnabledDep "B" = false) ∧
    (worldEnabledDepAfter.mods "B").m_binaryLoaded = true ∧
    (worldEnabledDepAfter.mods "A").m_binaryLoaded = true :=
  ⟨⟨⟨requiresB, rfl, Or.inr ⟨rfl, rfl⟩, rfl⟩, rfl, rfl, rfl⟩,
    (updateDependencies_loads_dependency envOk 9 "A" "B" 0 worldEnabledDep
      worldEnabledDepAfter updateDependencies_worldEnabledDep
      ⟨requiresB, rfl, Or.inr ⟨rfl, rfl⟩, rfl⟩ rfl rfl).2.1,
    (updateDependencies_loads_dependency envOk 9 "A" "B" 0 worldEnabledDep
      worldEnabledDepAfter updateDependencies_worldEnabledDep
      ⟨requiresB, rfl, Or.inr ⟨rfl, rfl⟩, rfl⟩ rfl rfl).2.2 rfl rfl⟩

/-! ## Termination on registries without cycles (C20) -/

theorem getLoadedMod_mem (w : World) (id m : ModId) (h : getLoadedMod w id = some m) :
    m ∈ w.known := by
  unfold getLoadedMod at h
  split at h
  · next hm => injection h with h; rw [← h]; exact hm
  · cases h

theorem hasPermUnres_congr (w w' : World) (i : ModId)
    (h : ∀ j, (w'.mods j).m_info = (w.mods j).m_info) (hk : w'.known = w.known) :
    hasPermUnres w' i = hasPermUnres w i := by
  have hres : ∀ d : Dependency, d.permUnres w' = d.permUnres w := by
    intro d
    unfold Dependency.permUnres
    rw [getLoadedMod_congr w w' hk]
    cases d.mod with
    | some j => simp only [h j]
    | none =>
      simp only
      cases getLoadedMod w d.id with
      | none => rfl
      | some j => simp only [h j]
  simp [hasPermUnres, h i, hres]

theorem Acyclic.acyclic_congr {rank : ModId → Nat} {w w' : World} (hac : Acyclic rank w)
    (h : ∀ j, (w'.mods j).m_info = (w.mods j).m_info) (hk : w'.known = w.known) :
    Acyclic rank w' := by
  intro j hj d hd
  rw [hk] at hj
  rw [h j] at hd
  rw [hk, getLoadedMod_congr w w' hk]
  exact hac j hj d hd

theorem PassStep.step_acyclic {rank : ModId → Nat} {w w' : World} (h : PassStep w w')
    (hac : Acyclic rank w) : Acyclic rank w' := by
  intro j hj d' hd'
  rw [h.1] at hj
  obtain ⟨k, hk, hdk⟩ := List.getElem_of_mem hd'
  have hk0 : k < (w.mods j).m_info.dependencies.length := by
    rw [← (h.step_deps j).1]; exact hk
  obtain ⟨d'', h1, h2, h3, h4⟩ := (h.step_deps j).2 k _ (List.getElem?_eq_getElem hk0)
  rw [List.getElem?_eq_getElem hk, hdk] at h1
  injection h1 with h1
  subst h1
  have hmem := List.getElem_mem hk0
  obtain ⟨a1, a2⟩ := hac j hj _ hmem
  rw [h.1, getLoadedMod_congr w w' h.1, h2]
  refine ⟨fun m hm => ?_, a2⟩
  rcases h4 with h4 | ⟨-, j', h5, h6, -⟩
  · exact a1 m (h4 ▸ hm)
  · rw [h5] at hm
    injection hm with hm
    subst hm
    exact ⟨getLoadedMod_mem w _ _ h6, a2 _ h6⟩

theorem PassSteps.steps_acyclic {rank : ModId → Nat} {w w' : World} (h : PassSteps w w')
    (hac : Acyclic rank w) : Acyclic rank w' := by
  induction h with
  | refl => exact hac
  | tail _ hbc ih => exact hbc.step_acyclic ih

/-- A mod that cannot change `m_binaryLoaded` any more stays so. -/
theorem PassStep.step_canFlip {w w' : World} (h : PassStep w w') (j : ModId)
    (hf : canFlip w' j = true) : canFlip w j = true := by
  have hp := h.step_hasPermUnres j
  obtain ⟨-, i, ho, hs⟩ := h
  unfold canFlip at hf ⊢
  rw [hp] at hf
  by_cases hji : j = i
  · subst hji
    cases hs with
    | soft _ hl => rw [← hl]; exact hf
    | resolve _ _ _ _ hl => rw [← hl]; exact hf
    | load _ hl0 _ _ hu =>
      rw [hl0, hasPermUnres_of_resolved w j hu]; rfl
    | unload _ hu hl0 => rw [hl0, hu]; rfl
    | enable _ hl hl' => rw [hl]; rw [hl'] at hf; exact hf
    | disable _ hl => rw [← hl]; exact hf
  · rw [ho j hji] at hf; exact hf

theorem PassStep.step_potential {w w' : World} (h : PassStep w w') :
    potential w' ≤ potential w := by
  unfold potential
  rw [h.1]
  exact List.countP_mono_left (fun j _ hj => h.step_canFlip j hj)

theorem PassSteps.steps_potential {w w' : World} (h : PassSteps w w') :
    potential w' ≤ potential w := by
  induction h with
  | refl => exact Nat.le_refl _
  | tail _ hbc ih => exact Nat.le_trans hbc.step_potential ih

theorem Good.good_steps {rank : ModId → Nat} {R P : Nat} {w w' : World} (hg : Good rank R P w)
    (h : PassSteps w w') : Good rank R P w' :=
  ⟨h.steps_acyclic hg.1, fun j hj => hg.2.1 j (h.known ▸ hj),
    Nat.le_trans h.steps_potential hg.2.2⟩

theorem countP_flip {α : Type} (p q : α → Bool) (i : α) : ∀ (l : List α),
    (∀ x ∈ l, p x = true → q x = true) → i ∈ l → q i = true → p i = false →
    l.countP p + 1 ≤ l.countP q := by
  intro l
  induction l with
  | nil => intro _ hi; cases hi
  | cons a l ih =>
    intro h hi hq hp
    rw [List.countP_cons, List.countP_cons]
    have hmono : l.countP p ≤ l.countP q :=
      List.countP_mono_left (fun x hx hpx => h x (List.mem_cons_of_mem _ hx) hpx)
    have ha := h a (List.mem_cons_self _ _)
    rcases List.mem_cons.mp hi with hia | hil
    · subst hia
      simp only [hq, hp, if_true, Bool.false_eq_true, if_false]
      omega
    · have := ih (fun x hx hpx => h x (List.mem_cons_of_mem _ hx) hpx) hil hq hp
      cases hpa : p a with
      | false => simp only [Bool.false_eq_true, if_false]; split <;> omega
      | true => simp only [ha hpa, if_true]; omega

/-- Setting or clearing `m_binaryLoaded` on a mod that could still change it lowers the
potential. -/
theorem potential_flip (w : World) (i : ModId) (b : Bool) (hi : i ∈ w.known)
    (hl : (w.mods i).m_binaryLoaded = !b) (hu : hasPermUnres w i = !b) :
    potential (w.modify i (fun m => { m with m_binaryLoaded := b })) + 1 ≤ potential w := by
  have hinfo : ∀ j, ((w.modify i (fun m => { m with m_binaryLoaded := b })).mods j).m_info =
      (w.mods j).m_info := by
    intro j
    by_cases hj : j = i
    · subst hj; rw [World.modify_self]
    · rw [World.modify_other _ _ _ _ hj]
  have hperm := fun j => hasPermUnres_congr w _ j hinfo rfl
  unfold potential
  rw [World.modify_known]
  refine countP_flip _ _ i _ (fun j _ hj => ?_) hi ?_ ?_
  · unfold canFlip at hj ⊢
    by_cases hji : j = i
    · subst hji; rw [hl, hu]; simp
    · rw [hperm j, World.modify_other _ _ _ _ hji] at hj; exact hj
  · unfold canFlip; rw [hl, hu]; simp
  · unfold canFlip; rw [hperm i, World.modify_self, hu]; cases b <;> rfl

theorem Good.flip {rank : ModId → Nat} {R P : Nat} {w : World} (hg : Good rank R P w)
    (i : ModId) (b : Bool) (hi : i ∈ w.known)
    (hl : (w.mods i).m_binaryLoaded = !b) (hu : hasPermUnres w i = !b) :
    ∃ P', P = P' + 1 ∧
      Good rank R P' (w.modify i (fun m => { m with m_binaryLoaded := b })) := by
  have hp := potential_flip w i b hi hl hu
  have hP := hg.2.2
  refine ⟨P - 1, by omega, ?_, fun j hj => hg.2.1 j hj, by omega⟩
  refine hg.1.acyclic_congr (fun j => ?_) rfl
  by_cases hj : j = i
  · subst hj; rw [World.modify_self]
  · rw [World.modify_other _ _ _ _ hj]

theorem enable_total (env : Env) (n : Nat) (i : ModId) (w : World)
    (hl : (w.mods i).m_binaryLoaded = true) : ∃ x, enable env (n + 1) i w = some x := by
  rw [enable]
  simp only [hl, Bool.not_true, Bool.false_eq_true, if_false]
  split
  · exact ⟨_, rfl⟩
  · split
    · exact ⟨_, rfl⟩
    · exact ⟨_, rfl⟩

theorem loadBinary_total (env : Env) (rank : ModId → Nat) (R n : Nat)
    (ih : TotalAt env rank R n) (P : Nat) (w : World) (hg : Good rank R P w)
    (i : ModId) (hi : i ∈ w.known) (hn : (R + 3) * P + 2 ≤ n + 1) :
    ∃ x, loadBinary env (n + 1) i w = some x := by
  rw [loadBinary]
  split
  · exact ⟨_, rfl⟩
  · next hl =>
    have hl : (w.mods i).m_binaryLoaded = false := by simpa using hl
    have s1 := createTempDir_soft env i w
    split
    · exact ⟨_, rfl⟩
    · next w1 u hc =>
      rw [hc] at s1
      simp only at s1
      split
      · exact ⟨_, rfl⟩
      · next hu =>
        have hu : hasUnresolvedDependencies w1 i = false := by simpa using hu
        have s2 : SoftOn i w1 (loadPlatformBinary env i (w1.log (.provideNextMod i))).1 :=
          SoftOn.of_mods i _ _ rfl rfl
        split
        · exact ⟨_, rfl⟩
        · next w2 u2 hp =>
          rw [hp] at s2
          simp only at s2 ⊢
          have s12 := s1.soft_trans s2
          have hg2 := hg.good_steps s12.steps
          have hi2 : i ∈ w2.known := by rw [s12.1]; exact hi
          have hl2 : (w2.mods i).m_binaryLoaded = false := (s12.loaded i).trans hl
          have hu2 : hasUnresolvedDependencies w2 i = false := (s2.unresolved i).trans hu
          obtain ⟨P', hP, hg3⟩ := hg2.flip i true hi2 hl2 (hasPermUnres_of_resolved w2 i hu2)
          have hinfo3 : ∀ j, ((w2.modify i (fun m => { m with m_binaryLoaded := true })).mods
              j).m_info = (w2.mods j).m_info := by
            intro j
            by_cases hj : j = i
            · subst hj; rw [World.modify_self]
            · rw [World.modify_other _ _ _ _ hj]
          have hl3 : ((w2.modify i (fun m => { m with m_binaryLoaded := true })).mods
              i).m_binaryLoaded = true := by rw [World.modify_self]
          have hu3 : hasUnresolvedDependencies
              (w2.modify i (fun m => { m with m_binaryLoaded := true })) i = false := by
            rw [hasUnresolvedDependencies_congr w2 _ i hinfo3]; exact hu2
          generalize w2.modify i (fun m => { m with m_binaryLoaded := true }) = w3
            at hg3 hl3 hu3
          have s4a : SoftOn i w3 (w3.log (.implicitLoadFunc i)) := SoftOn.of_mods i _ _ rfl rfl
          have s4b := runCalls_soft env i (env.implicitLoadFunc w3.trace i)
            (w3.log (.implicitLoadFunc i)) hl3
          generalize runCalls env i (env.implicitLoadFunc w3.trace i)
            (w3.log (.implicitLoadFunc i)) = w4 at s4b
          have s4c : SoftOn i w4 (w4.log (.event i .Loaded)) := SoftOn.of_mods i _ _ rfl rfl
          have s34 := (s4a.soft_trans s4b).soft_trans s4c
          have hg4 := hg3.good_steps s34.steps
          subst hP
          rw [Nat.mul_succ] at hn
          obtain ⟨w5, ha⟩ := (ih P' _ hg4).2.1 (by omega)
          rw [ha]
          simp only
          have s35 : PassSteps w3 w5 := s34.steps.trans (updateAllDependencies_steps env n _ _ ha)
          have hl5 := PassSteps.steps_loaded_stays s35 i hl3 hu3
          obtain ⟨m, hm⟩ : ∃ m, n = m + 1 := ⟨n - 1, by omega⟩
          subst hm
          exact enable_total env m i w5 hl5

theorem unloadBinary_total (env : Env) (rank : ModId → Nat) (R n : Nat)
    (ih : TotalAt env rank R n) (P : Nat) (w : World) (hg : Good rank R P w)
    (i : ModId) (hi : i ∈ w.known) (hu : hasPermUnres w i = true)
    (hn : (R + 3) * P + 2 ≤ n + 1) :
    ∃ x, unloadBinary env (n + 1) i w = some x := by
  rw [unloadBinary]
  split
  · exact ⟨_, rfl⟩
  · next hl =>
    have hl : (w.mods i).m_binaryLoaded = true := by simpa using hl
    split
    · exact ⟨_, rfl⟩
    · have s1 : SoftOn i w (saveData env i w).1 :=
        SoftOn.of_mods i _ _ (saveData_mods env i w) (saveData_known env i w)
      split
      · exact ⟨_, rfl⟩
      · next w1 u hs =>
        rw [hs] at s1
        simp only at s1
        have s2 := disable_steps env i w1 ((s1.permUnres i).trans hu)
        obtain ⟨-, -, -, d4, -, -, -, -⟩ := disable_frame env i w1
        split
        · exact ⟨_, rfl⟩
        · next w2 u2 hd =>
          rw [hd] at s2 d4
          simp only at s2 d4 ⊢
          have s02 : PassSteps w w2 := s1.steps.trans s2
          have hl2 : (w2.mods i).m_binaryLoaded = true := d4.trans ((s1.loaded i).trans hl)
          have s3a : SoftOn i w2 (w2.log (.event i .Unloaded)) := SoftOn.of_mods i _ _ rfl rfl
          have s3b := deleteHooks_soft i (w2.log (.event i .Unloaded)) hl2
          have s3c := deletePatches_soft i (deleteHooks i (w2.log (.event i .Unloaded)))
            ((s3b.loaded i).trans hl2)
          have s3 := (s3a.soft_trans s3b).soft_trans s3c
          generalize deletePatches i (deleteHooks i (w2.log (.event i .Unloaded))) = w7 at s3
          have s4 : SoftOn i w7 (unloadPlatformBinary env i w7).1 :=
            SoftOn.of_mods i _ _ rfl rfl
          split
          · exact ⟨_, rfl⟩
          · next w8 u8 hp =>
            rw [hp] at s4
            simp only at s4 ⊢
            have s08 : PassSteps w w8 := s02.trans (s3.soft_trans s4).steps
            have hg8 := hg.good_steps s08
            have hi8 : i ∈ w8.known := by rw [PassSteps.known s08]; exact hi
            have hl8 : (w8.mods i).m_binaryLoaded = true :=
              (((s3.soft_trans s4).loaded i).trans hl2)
            have hu8 : hasPermUnres w8 i = true := (PassSteps.steps_hasPermUnres s08 i).trans hu
            obtain ⟨P', hP, hg9⟩ := hg8.flip i false hi8 hl8 hu8
            subst hP
            rw [Nat.mul_succ] at hn
            obtain ⟨w9, ha⟩ := (ih P' _ hg9).2.1 (by omega)
            rw [ha]
            exact ⟨_, rfl⟩

theorem updateDependency_total (env : Env) (rank : ModId → Nat) (R n : Nat)
    (ih : TotalAt env rank R n) (P : Nat) (w : World) (hg : Good rank R P w)
    (i : ModId) (hi : i ∈ w.known) (k : Nat) (hn : (R + 3) * P + rank i + 2 ≤ n) :
    ∃ x, updateDependency (updateDependencies env n) (loadBinary env n) i k w = some x := by
  unfold updateDependency
  cases hb : (depAt w i k).bind (fun dep => dep.mod) with
  | none => exact ⟨_, rfl⟩
  | some j =>
    simp only
    obtain ⟨d, hd, hm⟩ : ∃ d, depAt w i k = some d ∧ d.mod = some j := by
      cases hd : depAt w i k with
      | none => rw [hd] at hb; cases hb
      | some d => rw [hd] at hb; exact ⟨d, rfl, hb⟩
    obtain ⟨hjk, hjr⟩ := (hg.1 i hi d (List.getElem?_mem hd)).1 j hm
    obtain ⟨⟨w1, r1⟩, hu⟩ := (ih P w hg).1 j hjk (by omega)
    rw [hu]
    cases r1 with
    | error e => exact ⟨_, rfl⟩
    | ok u =>
      simp only
      split
      · split
        · next hen =>
          have s1 := updateDependencies_passSteps env n j w w1 _ hu
          have hj1 : j ∈ w1.known := by rw [PassSteps.known s1]; exact hjk
          obtain ⟨⟨w2, r2⟩, hl⟩ := (ih P w1 (hg.good_steps s1)).2.2.1 j hj1 hen (by omega)
          rw [hl]
          cases r2 <;> exact ⟨_, rfl⟩
        · exact ⟨_, rfl⟩
      · exact ⟨_, rfl⟩

theorem updateDependenciesLoop_total (env : Env) (rank : ModId → Nat) (R n : Nat)
    (ih : TotalAt env rank R n) (P : Nat) (i : ModId)
    (hn : (R + 3) * P + rank i + 2 ≤ n) :
    ∀ (ks : List Nat) (f : Bool) (w : World), Good rank R P w → i ∈ w.known →
      ∃ x, updateDependenciesLoop (updateDependencies env n) (loadBinary env n)
        (unloadBinary env n) i ks f w = some x := by
  obtain ⟨hU, -, hL, hN, -⟩ := passSim env n
  intro ks
  induction ks with
  | nil => intro f w _ _; exact ⟨_, rfl⟩
  | cons k ks ih' =>
    intro f w hg hi
    rw [updateDependenciesLoop]
    have s0 := lookupDependency_steps i k w
    have hg0 := hg.good_steps s0
    have hi0 : i ∈ (lookupDependency i k w).known := by rw [PassSteps.known s0]; exact hi
    obtain ⟨⟨w1, r1⟩, hd⟩ := updateDependency_total env rank R n ih P _ hg0 i hi0 k hn
    rw [hd]
    cases r1 with
    | error e => exact ⟨_, rfl⟩
    | ok u =>
      simp only
      have s01 := updateDependency_steps _ _ hU hL i k _ w1 _ hd
      have hg1 := hg0.good_steps s01
      have hi1 : i ∈ w1.known := by rw [PassSteps.known s01]; exact hi0
      split
      · next hres =>
        have hres : depResolved w1 i k = false := by simpa using hres
        have hun : hasPermUnres w1 i = true := by
          rw [hasPermUnres_iff]
          refine ⟨k, ?_⟩
          rw [PassSteps.steps_depPermUnres s01 i k]
          rcases lookupDependency_resolved_or_perm i k w with h0 | h0
          · rw [PassSteps.steps_depResolved_mono s01 i k h0] at hres; cases hres
          · exact h0
        obtain ⟨⟨w2, r2⟩, hunl⟩ := (ih P w1 hg1).2.2.2 i hi1 hun (by omega)
        rw [hunl]
        cases r2 with
        | error e => exact ⟨_, rfl⟩
        | ok u2 =>
          simp only
          have s12 := hN i w1 w2 _ hunl hun
          exact ih' true w2 (hg1.good_steps s12) (by rw [PassSteps.known s12]; exact hi1)
      · exact ih' f w1 hg1 hi1

theorem updateDependencies_total (env : Env) (rank : ModId → Nat) (R n : Nat)
    (ih : TotalAt env rank R n) (P : Nat) (w : World) (hg : Good rank R P w)
    (i : ModId) (hi : i ∈ w.known) (hn : (R + 3) * P + rank i + 3 ≤ n + 1) :
    ∃ x, updateDependencies env (n + 1) i w = some x := by
  obtain ⟨hU, -, hL, hN, -⟩ := passSim env n
  rw [updateDependencies]
  obtain ⟨⟨w1, r1⟩, hloop⟩ := updateDependenciesLoop_total env rank R n ih P i (by omega)
    (List.range (w.mods i).m_info.dependencies.length) false w hg hi
  rw [hloop]
  cases r1 with
  | error e => exact ⟨_, rfl⟩
  | ok b =>
    simp only
    split
    · split
      · next hen =>
        have s1 := updateDependenciesLoop_steps _ _ _ hU hL hN i _ _ _ _ _ hloop
        obtain ⟨⟨w2, r2⟩, hl⟩ := (ih P w1 (hg.good_steps s1)).2.2.1 i
          (by rw [PassSteps.known s1]; exact hi) hen (by omega)
        rw [hl]
        cases r2 <;> exact ⟨_, rfl⟩
      · exact ⟨_, rfl⟩
    · exact ⟨_, rfl⟩

theorem resolutionPass_total (env : Env) (rank : ModId → Nat) (R n : Nat)
    (ih : TotalAt env rank R n) (P : Nat) (hn : (R + 3) * P + R + 3 ≤ n) :
    ∀ (ks : List ModId) (w : World), Good rank R P w → (∀ j ∈ ks, j ∈ w.known) →
      ∃ x, resolutionPass (updateDependencies env n) ks w = some x := by
  intro ks
  induction ks with
  | nil => intro w _ _; exact ⟨_, rfl⟩
  | cons j ks ih' =>
    intro w hg hks
    rw [resolutionPass]
    have hj := hks j (List.mem_cons_self _ _)
    have hr := hg.2.1 j hj
    obtain ⟨⟨w1, r⟩, hu⟩ := (ih P w hg).1 j hj (by omega)
    rw [hu]
    simp only
    have s1 := updateDependencies_passSteps env n j w w1 _ hu
    exact ih' w1 (hg.good_steps s1)
      (fun j' hj' => by rw [PassSteps.known s1]; exact hks j' (List.mem_cons_of_mem _ hj'))

/-- With enough fuel the recursive operations return, on every world whose registry has
no cycle. -/
theorem totalAt (env : Env) (rank : ModId → Nat) (R : Nat) : ∀ n, TotalAt env rank R n := by
  intro n
  induction n with
  | zero =>
    intro P w _
    exact ⟨fun i _ hn => by omega, fun hn => by omega, fun i _ _ hn => by omega,
      fun i _ _ hn => by omega⟩
  | succ n ih =>
    intro P w hg
    refine ⟨fun i hi hn => updateDependencies_total env rank R n ih P w hg i hi hn,
      fun hn => ?_, fun i hi _ hn => loadBinary_total env rank R n ih P w hg i hi hn,
      fun i hi hu hn => unloadBinary_total env rank R n ih P w hg i hi hu hn⟩
    rw [updateAllDependencies]
    exact resolutionPass_total env rank R n ih P (by omega) w.known w hg (fun j hj => hj)

theorem rank_le_sum (rank : ModId → Nat) : ∀ (l : List ModId) (j : ModId), j ∈ l →
    rank j ≤ (l.map rank).sum := by
  intro l
  induction l with
  | nil => intro j hj; cases hj
  | cons a l ih =>
    intro j hj
    rw [List.map_cons, List.sum_cons]
    rcases List.mem_cons.mp hj with h | h
    · subst h; omega
    · have := ih j h; omega

/-- C20: take a world whose registry (a finite list) has no cycle in the dependency
declarations: a rank decreases from every registered mod to the registered mod each of its
dependencies names or has cached. Then `updateDependencies` terminates on every
registered mod, together with the resolution passes nested in `loadBinary` and
`unloadBinary`: there is a bound such that the run returns a world and a result with
every amount of fuel from that bound on, whatever the collaborators answer. The
resolution pass over the registry terminates as well. -/
theorem updateDependencies_terminates (env : Env) (rank : ModId → Nat) (w : World)
    (hac : Acyclic rank w) :
    ∃ N, ∀ n, N ≤ n →
      (∀ i ∈ w.known, ∃ w' r, updateDependencies env n i w = some (w', r)) ∧
      ∃ w', updateAllDependencies env n w = some w' := by
  have hR := rank_le_sum rank w.known
  refine ⟨((w.known.map rank).sum + 3) * potential w + (w.known.map rank).sum + 4,
    fun n hn => ?_⟩
  have ht := totalAt env rank (w.known.map rank).sum n (potential w) w
    ⟨hac, hR, Nat.le_refl _⟩
  refine ⟨fun i hi => ?_, ht.2.1 hn⟩
  have := hR i hi
  obtain ⟨⟨w', r⟩, h⟩ := ht.1 i hi (by omega)
  exact ⟨w', r, h⟩

/-- C20 (witness): in `worldEnabledDep` A requires B and B requires nothing, so A has
rank 1 and B rank 0; `updateDependencies` terminates on A and B. -/
theorem updateDependencies_terminates_witness :
    Acyclic (fun j => if j = "A" then 1 else 0) worldEnabledDep ∧
    ∃ N, ∀ n, N ≤ n →
      (∀ i ∈ worldEnabledDep.known,
        ∃ w' r, updateDependencies envOk n i worldEnabledDep = some (w', r)) ∧
      ∃ w', updateAllDependencies envOk n worldEnabledDep = some w' := by
  have hac : Acyclic (fun j => if j = "A" then 1 else 0) worldEnabledDep := by
    intro j hj d hd
    have hj' : j = "A" ∨ j = "B" := by
      simpa [worldEnabledDep, mkWorld] using hj
    rcases hj' with rfl | rfl
    · have hd' : d = requiresB := by
        simpa [worldEnabledDep, mkWorld, mkMod] using hd
      subst hd'
      refine ⟨fun m hm => by simp [requiresB] at hm, fun m hm => ?_⟩
      have := getLoadedMod_mem _ _ _ hm
      unfold getLoadedMod at hm
      split at hm
      · injection hm with hm
        subst hm
        simp [requiresB]
      · cases hm
    · simp [worldEnabledDep, mkWorld, mkMod] at hd
  exact ⟨hac, updateDependencies_terminates envOk _ worldEnabledDep hac⟩

/-! ## Hooks after `enable` (C21) -/

/-- A successful `enable` on a loaded mod appends every owned hook to the hook collection
once more. -/
theorem enable_ok_hooks (env : Env) (n : Nat) (i : ModId) (w w' : World)
    (hl : (w.mods i).m_binaryLoaded = true)
    (h : enable env (n + 1) i w = some (w', .ok ())) :
    (w'.mods i).m_hooks = (w.mods i).m_hooks ++ (w.mods i).m_hooks := by
  rw [enable] at h
  simp only [hl, Bool.not_true, Bool.false_eq_true, if_false] at h
  rcases enableHooks_spec env i (w.mods i).m_hooks w with ⟨h1, -, h3⟩ | ⟨k, g, e, -, h1, -, -⟩
  · rcases hh : enableHooks env i (w.mods i).m_hooks w with ⟨w1, r1⟩
    rw [hh] at h1 h3 h
    simp only at h1 h3
    subst h1
    simp only at h
    have hm := applyPatches_mods env (w1.mods i).m_patches w1
    split at h
    · simp at h
    · next w2 u2 hp =>
      rw [hp] at hm
      simp only at hm
      simp only [Option.some.injEq, Prod.mk.injEq, and_true] at h
      rw [← h, World.modify_self]
      simp only [World.log_mods]
      rw [hm, h3]
  · rcases hh : enableHooks env i (w.mods i).m_hooks w with ⟨w1, r1⟩
    rw [hh] at h1 h
    simp only at h1
    subst h1
    simp at h

/-- C21 (failing input): mod A is loaded and owns the hooks 1 and 2; every hook can be
enabled. `enable` on A returns success and leaves the hook collection as 1, 2, 1, 2: each
owned hook has been added once more, so the collection has twice its length. -/
theorem enable_duplicates_hooks :
    ((worldLoaded [1, 2] []).mods "A").m_binaryLoaded = true ∧
    ((worldLoaded [1, 2] []).mods "A").m_hooks = [1, 2] ∧
    (enable envOk 1 "A" (worldLoaded [1, 2] [])).map
        (fun r => (r.2, (r.1.mods "A").m_hooks, (r.1.mods "A").m_hooks.length)) =
      some (.ok (), [1, 2, 1, 2], 4) :=
  ⟨rfl, rfl, rfl⟩

/-! ## A mod that was unloaded stays unloaded (C22) -/

/-- A mod that is loaded, or disabled and not loaded, stays in one of these two states. -/
theorem PassStep.step_loaded_or_off {w w' : World} (h : PassStep w w') (j : ModId)
    (hs : (w.mods j).m_binaryLoaded = true ∨
      ((w.mods j).m_enabled = false ∧ (w.mods j).m_binaryLoaded = false)) :
    (w'.mods j).m_binaryLoaded = true ∨
      ((w'.mods j).m_enabled = false ∧ (w'.mods j).m_binaryLoaded = false) := by
  rcases hs with hl | ⟨he, hl⟩
  · obtain ⟨-, i, ho, hs⟩ := h
    by_cases hji : j = i
    · subst hji
      cases hs with
      | soft _ hl' => exact Or.inl (hl'.trans hl)
      | resolve _ _ _ _ hl' => exact Or.inl (hl'.trans hl)
      | load _ _ _ _ _ hl' => exact Or.inl hl'
      | unload _ _ _ _ he' _ _ hl' => exact Or.inr ⟨he', hl'⟩
      | enable _ _ hl' => exact Or.inl hl'
      | disable _ hl' => exact Or.inl (hl'.trans hl)
    · rw [ho j hji]; exact Or.inl hl
  · obtain ⟨a, b, -, -⟩ := h.step_unloaded_stays j he hl
    exact Or.inr ⟨a, b⟩

theorem PassSteps.steps_loaded_or_off {w w' : World} (h : PassSteps w w') (j : ModId)
    (hs : (w.mods j).m_binaryLoaded = true ∨
      ((w.mods j).m_enabled = false ∧ (w.mods j).m_binaryLoaded = false)) :
    (w'.mods j).m_binaryLoaded = true ∨
      ((w'.mods j).m_enabled = false ∧ (w'.mods j).m_binaryLoaded = false) := by
  induction h with
  | refl => exact hs
  | tail _ hbc ih => exact hbc.step_loaded_or_off j ih

/-- C22: when `unloadBinary` returns success on a mod that was loaded, the mod ends
disabled (and not loaded). A mod that was loaded before a call of `updateDependencies`, on
any mod, and is not loaded after it, is disabled after it. And a mod that is disabled and
not loaded is still disabled and not loaded after any later call of `updateDependencies`,
on any mod, whatever the state of its dependencies is by then. -/
theorem unloadBinary_disables_for_good (env : Env) (i : ModId) :
    (∀ (n : Nat) (w w' : World), unloadBinary env n i w = some (w', .ok ()) →
      (w.mods i).m_binaryLoaded = true →
      (w'.mods i).m_enabled = false ∧ (w'.mods i).m_binaryLoaded = false) ∧
    (∀ (n : Nat) (j : ModId) (w w' : World) (r : Result),
      updateDependencies env n j w = some (w', r) →
      (w.mods i).m_binaryLoaded = true → (w'.mods i).m_binaryLoaded = false →
      (w'.mods i).m_enabled = false) ∧
    (∀ (n : Nat) (j : ModId) (w w' : World) (r : Result),
      updateDependencies env n j w = some (w', r) →
      (w.mods i).m_enabled = false → (w.mods i).m_binaryLoaded = false →
      (w'.mods i).m_enabled = false ∧ (w'.mods i).m_binaryLoaded = false) := by
  refine ⟨fun n w w' h hl => ?_, fun n j w w' r h hl hl' => ?_, fun n j w w' r h he hl => ?_⟩
  · obtain ⟨a, b⟩ := unloadBinary_ok_unloaded env n i w w' h
    exact ⟨(b hl).1, a⟩
  · rcases PassSteps.steps_loaded_or_off (updateDependencies_passSteps env n j w w' r h) i
      (Or.inl hl) with h1 | ⟨h1, -⟩
    · rw [hl'] at h1; cases h1
    · exact h1
  · obtain ⟨a, b, -, -⟩ := PassSteps.steps_unloaded_stays
      (updateDependencies_passSteps env n j w w' r h) i he hl
    exact ⟨a, b⟩

/-- C22 (witness): A is loaded and requires B, which is not registered;
`updateDependencies` on A force-unloads A, which ends disabled. Then B is registered at
1.5.0: a later `updateDependencies` on A resolves the dependency and leaves A disabled
and not loaded. -/
theorem unloadBinary_disables_for_good_witness :
    ((worldLoadedMissingDep.mods "A").m_binaryLoaded = true ∧
      (worldLoadedMissingDep.mods "A").m_enabled = true ∧
      updateDependencies envOk 16 "A" worldLoadedMissingDep =
        some (worldLoadedMissingDepAfter, .ok ()) ∧
      (worldLoadedMissingDepAfter.mods "A").m_binaryLoaded = false ∧
      updateDependencies envOk 16 "A" worldDepRegisteredLater =
        some (worldDepRegisteredLaterAfter, .ok ()) ∧
      hasUnresolvedDependencies worldDepRegisteredLaterAfter "A" = false) ∧
    (worldLoadedMissingDepAfter.mods "A").m_enabled = false ∧
    ((worldDepRegisteredLaterAfter.mods "A").m_enabled = false ∧
      (worldDepRegisteredLaterAfter.mods "A").m_binaryLoaded = false) :=
  ⟨⟨rfl, rfl, rfl, rfl, rfl, rfl⟩,
    (unloadBinary_disables_for_good envOk "A").2.1 16 "A" worldLoadedMissingDep
      worldLoadedMissingDepAfter (.ok ()) rfl rfl rfl,
    (unloadBinary_disables_for_good envOk "A").2.2 16 "A" worldDepRegisteredLater
      worldDepRegisteredLaterAfter (.ok ()) rfl rfl rfl⟩

/-! ## URL encoding (C23) -/

/-- The loop of `urlEncode` appends one piece per input byte, in input order. -/
theorem urlEncodeLoop_eq (charSigned : Bool) : ∀ (input ss : List Nat),
    urlEncodeLoop charSigned ss input = ss ++ input.flatMap (urlEncodePiece charSigned) := by
  intro input
  induction input with
  | nil => intro ss; simp [urlEncodeLoop]
  | cons c rest ih =>
    intro ss
    rw [urlEncodeLoop]
    split
    · next hc =>
      rw [ih]
      simp only [List.flatMap_cons, urlEncodePiece, hc, if_true, List.append_assoc]
    · next hc =>
      rw [ih]
      simp only [List.flatMap_cons, urlEncodePiece, hc, if_false, List.append_assoc]
      rfl

theorem urlEncode_eq (charSigned : Bool) (input : List Nat) :
    urlEncode charSigned input = input.flatMap (urlEncodePiece charSigned) := by
  unfold urlEncode
  rw [urlEncodeLoop_eq]
  rfl

/-- A byte from 16 to 255, taken as a non-negative `int`, is written with two digits. -/
theorem hexUpper_two_digits (c : Nat) (h1 : 16 ≤ c) (h2 : c < 256) :
    hexUpper (c : Int) = [hexDigitUpper (c / 16), hexDigitUpper (c % 16)] := by
  interval_cases c <;> rfl

/-- Where `urlEncode` agrees with the percent-encoding with two digits: on inputs whose
bytes are unreserved characters or lie between 16 and 127, and also between 128 and
255 when `char` is unsigned. -/
theorem urlEncode_eq_percentEncode (charSigned : Bool) (input : List Nat)
    (h : ∀ c ∈ input, (isalnum c || c == 45 || c == 95 || c == 46 || c == 126) = true ∨
      (16 ≤ c ∧ c < 128) ∨ (charSigned = false ∧ 16 ≤ c ∧ c < 256)) :
    urlEncode charSigned input = percentEncode input := by
  rw [urlEncode_eq]
  unfold percentEncode
  induction input with
  | nil => rfl
  | cons c rest ih =>
    rw [List.flatMap_cons, List.flatMap_cons, ih (fun x hx => h x (List.mem_cons_of_mem _ hx))]
    congr 1
    unfold urlEncodePiece percentPiece
    rcases h c (List.mem_cons_self _ _) with hu | ⟨h1, h2⟩ | ⟨hs, h1, h2⟩
    · simp only [hu, if_true]
    · split
      · rfl
      · have : charToInt charSigned c = (c : Int) := by
          unfold charToInt
          have : ¬ 128 ≤ c := by omega
          simp [this]
        rw [this, hexUpper_two_digits c h1 (by omega)]
    · split
      · rfl
      · have : charToInt charSigned c = (c : Int) := by
          unfold charToInt
          simp [hs]
        rw [this, hexUpper_two_digits c h1 h2]

/-- C23 (failing input): for the one-byte input with the byte 9 (a tab), `urlEncode`
returns "%9", with one hexadecimal digit, where the percent-encoding with two digits is
"%09". For the two bytes 195, 169 (the UTF-8 encoding of an accented e) `urlEncode`
returns "%FFFFFFC3%FFFFFFA9" where `char` is signed, and "%C3%A9" where it is not. -/
theorem urlEncode_escape_width :
    urlEncode true [9] = asciiBytes "%9" ∧ urlEncode false [9] = asciiBytes "%9" ∧
    percentEncode [9] = asciiBytes "%09" ∧
    urlEncode true [195, 169] = asciiBytes "%FFFFFFC3%FFFFFFA9" ∧
    urlEncode false [195, 169] = asciiBytes "%C3%A9" ∧
    percentEncode [195, 169] = asciiBytes "%C3%A9" ∧
    buildQueryString true [(asciiBytes "search", asciiBytes "a\tb c")] =
      asciiBytes "search=a%9b%20c&" := by
  refine ⟨?_, ?_, ?_, ?_, ?_, ?_, ?_⟩ <;> decide

end Geode
